import Mathlib

/-!
# SYCL specialization constants pass (`llvm/tools/sycl-post-link/SpecConstants.cpp`)

A shallow embedding of `SpecConstantsPass::run`, of the metadata reader
`SpecConstantsPass::collectSpecConstantMetadata` and of their helpers, followed
by the properties proved about them.

* LLVM types are the inductive `Ty`; scalable vectors are left out. The values
  the pass builds are `Constant`, `Value` and `CallInst`.
* `unsigned` quantities (`NextID`, the elements of `IDs`, `Index`, `Offset`,
  `Size`) are natural numbers reduced modulo `2 ^ 32` wherever the source
  computes them.
* `llvm_unreachable`, `report_fatal_error`, and a failing `cast<>` or an access
  outside a container, are the three `Failure` outcomes of `Except Failure`.
* The instructions the pass inserts before one call site are a list of
  `CallInst`, in insertion order; `Value.inst i ty` is the result of the
  `i`-th of them. `CallInst.Callee` is the name `emitCall` mangles and hands to
  `Module::getOrInsertFunction`. A program given to the reader lists the direct
  calls of its functions; whether an inserted call is one of them is stated
  where it matters, not derived from the name.
* `StringMap` and `std::map` are lists of entries with `List.lookup` and
  `assign`.
* `run` records `DelInsts` for every call site; the erasure of these
  instructions is not part of the model.
* The argument `NDEBUG` of `getStringLiteralArg` and of `run` tells whether the
  macro `NDEBUG` is defined, that is, whether the blocks under `#ifndef NDEBUG`
  are compiled out.
-/

namespace SpecConstants

/-! ## Error model -/

/-- How an execution of the pass stops without a result. -/
inductive Failure where
  /-- `report_fatal_error`, raised through `AssertRelease`. -/
  | fatal (msg : String)
  /-- `llvm_unreachable`. -/
  | unreachable (msg : String)
  /-- A failing `cast<>`, `back()` of an empty vector, or an index outside a container. -/
  | undefined (what : String)
  deriving DecidableEq, Repr

deriving instance DecidableEq for Except

/-- Result of a computation that may abort. -/
abbrev Res (α : Type) := Except Failure α

/-- `AssertRelease(Cond, Msg)`. -/
def AssertRelease (Cond : Bool) (Msg : String) : Res Unit :=
  if Cond then .ok () else .error (.fatal ("SpecConstants.cpp: " ++ Msg))

/-- Number of values of the C type `unsigned`. -/
def UINT_RANGE : Nat := 4294967296

/-- Conversion of a natural number to `unsigned`. -/
def toUnsigned (n : Nat) : Nat := n % UINT_RANGE

/-- A counted `for (I = 0; I < N; ++I)` loop whose body may abort. -/
def loopN {σ : Type} (body : σ → Res σ) : Nat → σ → Res σ
  | 0, s => .ok s
  | n + 1, s =>
    match body s with
    | .error e => .error e
    | .ok s1 => loopN body n s1

/-! ## Strings -/

def SYCL_GET_SPEC_CONST_VAL : String := "_Z27__sycl_getSpecConstantValue"

def SYCL_GET_COMPOSITE_SPEC_CONST_VAL : String := "_Z36__sycl_getCompositeSpecConstantValue"

def SPIRV_GET_SPEC_CONST_VAL : String := "__spirv_SpecConstant"

def SPIRV_GET_SPEC_CONST_COMPOSITE : String := "__spirv_SpecConstantComposite"

/-- `StringRef::startswith`. -/
def startswith (s p : String) : Bool := p.data.isPrefixOf s.data

/-- Whether `p` occurs as a block of consecutive elements of the second list. -/
def occursIn (p : List Char) : List Char → Bool
  | [] => p.isEmpty
  | c :: cs => p.isPrefixOf (c :: cs) || occursIn p cs

/-- `StringRef::contains`. -/
def contains (s p : String) : Bool := occursIn p.data s.data

/-- The last two statements of `getStringLiteralArg`: drop one trailing NUL. -/
def stripTrailingNul (Res : String) : String :=
  if Res.data.getLast? = some (Char.ofNat 0) then String.mk Res.data.dropLast else Res

/-! ## Types and constants -/

/-- Floating point kinds of LLVM. -/
inductive FPKind where
  | half | bfloat | float | double | x86_fp80 | fp128 | ppc_fp128
  deriving DecidableEq, Repr

/-- The LLVM types the pass tells apart. `pointer` stands for every type that is
neither an integer, nor floating point, nor an array, struct or fixed vector. -/
inductive Ty where
  | integer (bits : Nat)
  | fp (k : FPKind)
  | pointer
  | array (elem : Ty) (num : Nat)
  | struct (name : String) (elems : List Ty)
  | fixedVector (elem : Ty) (num : Nat)
  deriving Repr

/-- `Type::getPrimitiveSizeInBits` of a floating point kind. -/
def FPKind.sizeInBits : FPKind → Nat
  | .half => 16
  | .bfloat => 16
  | .float => 32
  | .double => 64
  | .x86_fp80 => 80
  | .fp128 => 128
  | .ppc_fp128 => 128

/-- `Type::getPrimitiveSizeInBits` on the types that reach the scalar branch of
`collectCompositeElementsInfoRecursive`; it is 0 for a type without a
primitive size. -/
def getPrimitiveSizeInBits : Ty → Nat
  | .integer bits => bits
  | .fp k => k.sizeInBits
  | _ => 0

/-- LLVM constants, as far as `getDefaultCPPValue` builds them. A floating
point constant is given by its bit pattern, so `fp k 0` is `+0.0`. -/
inductive Constant where
  | int (bits : Nat) (value : Nat)
  | fp (k : FPKind) (pattern : Nat)
  | vector (ty : Ty) (elems : List Constant)
  | array (ty : Ty) (elems : List Constant)
  | struct (ty : Ty) (elems : List Constant)
  deriving Repr

/-- `Constant::getType`. -/
def Constant.getType : Constant → Ty
  | .int bits _ => .integer bits
  | .fp k _ => .fp k
  | .vector ty _ => ty
  | .array ty _ => ty
  | .struct ty _ => ty

/-! ## `getDefaultCPPValue` -/

mutual
/-- `getDefaultCPPValue`. -/
def getDefaultCPPValue : Ty → Res Constant
  | .integer bits => .ok (.int bits 0)
  | .fp k => .ok (.fp k 0)
  | .fixedVector elem num =>
    match getDefaultCPPValue elem with
    | .error e => .error e
    | .ok c => .ok (.vector (.fixedVector elem num) (List.replicate num c))
  | .array elem num =>
    match getDefaultCPPValue elem with
    | .error e => .error e
    | .ok c => .ok (.array (.array elem num) (List.replicate num c))
  | .struct name elems =>
    match getDefaultCPPValueElements elems with
    | .error e => .error e
    | .ok Elements => .ok (.struct (.struct name elems) Elements)
  | .pointer =>
    .error (.unreachable ("non-numeric (or composites consisting of non-numeric types) " ++
      "specialization constants are NYI"))
/-- The loop of `getDefaultCPPValue` over the element types of a struct. -/
def getDefaultCPPValueElements : List Ty → Res (List Constant)
  | [] => .ok []
  | ElTy :: rest =>
    match getDefaultCPPValue ElTy with
    | .error e => .error e
    | .ok c =>
      match getDefaultCPPValueElements rest with
      | .error e => .error e
      | .ok cs => .ok (c :: cs)
end

/-! ## Mangling -/

/-- `manglePrimitiveType`. -/
def manglePrimitiveType : Ty → Res String
  | .fp .float => .ok "f"
  | .fp .double => .ok "d"
  | .integer bits =>
    if bits = 1 then .ok "b"
    else if bits = 8 then .ok "a"
    else if bits = 16 then .ok "s"
    else if bits = 32 then .ok "i"
    else if bits = 64 then .ok "x"
    else .error (.unreachable "unsupported spec const integer type")
  | .struct name _ => .ok name
  | .array elem _ =>
    match manglePrimitiveType elem with
    | .error e => .error e
    | .ok r => .ok ("A" ++ r)
  | .fixedVector elem num =>
    match manglePrimitiveType elem with
    | .error e => .error e
    | .ok r => .ok ("Dv" ++ toString num ++ "_" ++ r)
  | _ => .error (.unreachable "unsupported spec const type")

/-- The loop of `mangleFuncItanium` over the parameter types. -/
def mangleParams : List Ty → String → Res String
  | [], Res => .ok Res
  | T :: rest, Res =>
    match manglePrimitiveType T with
    | .error e => .error e
    | .ok r => mangleParams rest (Res ++ r)

/-- `mangleFuncItanium`; of the function type only the parameter types are used. -/
def mangleFuncItanium (BaseName : String) (Params : List Ty) : Res String :=
  mangleParams Params ("_Z" ++ toString BaseName.utf8ByteSize ++ BaseName)

/-! ## Emitted instructions -/

/-- Operands of the calls the pass emits. -/
inductive Value where
  /-- `ConstantInt::get(Type::getInt32Ty(Ctx), v)`. -/
  | constInt32 (v : Nat)
  | constant (c : Constant)
  /-- The result of the `idx`-th instruction inserted before the call site. -/
  | inst (idx : Nat) (ty : Ty)
  deriving Repr

/-- `Value::getType`. -/
def Value.getType : Value → Ty
  | .constInt32 _ => .integer 32
  | .constant c => c.getType
  | .inst _ ty => ty

/-- A call instruction created by `emitCall`: result type, name of the called
function, arguments, and the `SYCL_SPEC_CONST_SYM_ID` metadata node when one
is attached (its string operand and its integer operands). -/
structure CallInst where
  Ty : Ty
  Callee : String
  Args : List Value
  MD : Option (String × List Nat)
  deriving Repr

/-- `setSpecConstSymIDMetadata` on the `idx`-th inserted instruction. -/
def setSpecConstSymIDMetadata : List CallInst → Nat → String → List Nat → List CallInst
  | [], _, _, _ => []
  | I :: rest, 0, SymID, IntIDs => { I with MD := some (SymID, IntIDs) } :: rest
  | I :: rest, idx + 1, SymID, IntIDs => I :: setSpecConstSymIDMetadata rest idx SymID IntIDs

/-- `emitCall`: the new call is inserted before the call site, that is, after
the instructions inserted so far. `Callee` is the mangled `FunctionName`; the
function type that `Module::getOrInsertFunction` receives with it is that of
`RetTy` and of the types of `Args`. -/
def emitCall (RetTy : Ty) (BaseFunctionName : String) (Args : List Value)
    (Out : List CallInst) : Res (Value × List CallInst) :=
  match mangleFuncItanium BaseFunctionName (Args.map Value.getType) with
  | .error e => .error e
  | .ok FunctionName =>
    .ok (.inst Out.length RetTy,
      Out ++ [{ Ty := RetTy, Callee := FunctionName, Args := Args, MD := none }])

/-- `emitSpecConstant`. -/
def emitSpecConstant (NumericID : Nat) (T : Ty) (Out : List CallInst) :
    Res (Value × List CallInst) :=
  match getDefaultCPPValue T with
  | .error e => .error e
  | .ok Def => emitCall T SPIRV_GET_SPEC_CONST_VAL [.constInt32 NumericID, .constant Def] Out

/-- `emitSpecConstantComposite`. -/
def emitSpecConstantComposite (T : Ty) (Elements : List Value) (Out : List CallInst) :
    Res (Value × List CallInst) :=
  emitCall T SPIRV_GET_SPEC_CONST_COMPOSITE Elements Out

/-- What `emitSpecConstantRecursiveImpl` reads and writes through references:
the inserted instructions, `IDs` and `IsFirstElement`. -/
structure EmitState where
  Out : List CallInst
  IDs : List Nat
  IsFirstElement : Bool
  deriving Repr

/-- The scalar branch of `emitSpecConstantRecursiveImpl`. -/
def emitScalar (T : Ty) (IsNewSpecConstant : Bool) (s : EmitState) : Res (Value × EmitState) :=
  let pushed : Res (List Nat) :=
    if IsNewSpecConstant && !s.IsFirstElement then
      match s.IDs.getLast? with
      | none => .error (.undefined "back() of an empty vector")
      | some b => .ok (s.IDs ++ [toUnsigned (b + 1)])
    else .ok s.IDs
  match pushed with
  | .error e => .error e
  | .ok IDs =>
    match IDs.getLast? with
    | none => .error (.undefined "back() of an empty vector")
    | some b =>
      match emitSpecConstant b T s.Out with
      | .error e => .error e
      | .ok (I, Out) => .ok (I, { Out := Out, IDs := IDs, IsFirstElement := false })

/-- The lambda `LoopIteration` of `emitSpecConstantRecursiveImpl`, given the
recursive call for its argument type: the result is pushed to `Elements`. -/
def LoopIteration (recurse : EmitState → Res (Value × EmitState)) (p : List Value × EmitState) :
    Res (List Value × EmitState) :=
  match recurse p.2 with
  | .error e => .error e
  | .ok (I, s1) => .ok (p.1 ++ [I], s1)

/-- The end of `emitSpecConstantRecursiveImpl` for a composite type. -/
def emitComposite (T : Ty) (p : List Value × EmitState) : Res (Value × EmitState) :=
  match emitSpecConstantComposite T p.1 p.2.Out with
  | .error e => .error e
  | .ok (I, Out) => .ok (I, { p.2 with Out := Out })

mutual
/-- `emitSpecConstantRecursiveImpl`. The loops carry `Elements` next to the
state behind the references. -/
def emitSpecConstantRecursiveImpl : Ty → Bool → EmitState → Res (Value × EmitState)
  | .integer bits, IsNewSpecConstant, s => emitScalar (.integer bits) IsNewSpecConstant s
  | .fp k, IsNewSpecConstant, s => emitScalar (.fp k) IsNewSpecConstant s
  | .pointer, IsNewSpecConstant, s => emitScalar .pointer IsNewSpecConstant s
  | .array elem num, IsNewSpecConstant, s =>
    match loopN (LoopIteration
        (fun s1 => emitSpecConstantRecursiveImpl elem IsNewSpecConstant s1)) num ([], s) with
    | .error e => .error e
    | .ok p => emitComposite (.array elem num) p
  | .struct name elems, IsNewSpecConstant, s =>
    match emitSpecConstantRecursiveElements elems IsNewSpecConstant ([], s) with
    | .error e => .error e
    | .ok p => emitComposite (.struct name elems) p
  | .fixedVector elem num, IsNewSpecConstant, s =>
    match loopN (LoopIteration
        (fun s1 => emitSpecConstantRecursiveImpl elem IsNewSpecConstant s1)) num ([], s) with
    | .error e => .error e
    | .ok p => emitComposite (.fixedVector elem num) p
/-- The loop of `emitSpecConstantRecursiveImpl` over the element types of a struct. -/
def emitSpecConstantRecursiveElements :
    List Ty → Bool → List Value × EmitState → Res (List Value × EmitState)
  | [], _, p => .ok p
  | ElTy :: rest, IsNewSpecConstant, p =>
    match LoopIteration (fun s1 => emitSpecConstantRecursiveImpl ElTy IsNewSpecConstant s1) p with
    | .error e => .error e
    | .ok p1 => emitSpecConstantRecursiveElements rest IsNewSpecConstant p1
end

/-- `emitSpecConstantRecursive`: returns the top-level instruction, the
inserted instructions and `IDs`. -/
def emitSpecConstantRecursive (T : Ty) (Out : List CallInst) (IDs : List Nat)
    (IsNewSpecConstant : Bool) : Res (Value × List CallInst × List Nat) :=
  match emitSpecConstantRecursiveImpl T IsNewSpecConstant
      { Out := Out, IDs := IDs, IsFirstElement := true } with
  | .error e => .error e
  | .ok (I, s) => .ok (I, s.Out, s.IDs)

/-! ## Metadata reader -/

/-- `CompositeSpecConstElementDescriptor`. -/
structure CompositeSpecConstElementDescriptor where
  ID : Nat
  Offset : Nat
  Size : Nat
  deriving DecidableEq, Repr

/-- What `collectCompositeElementsInfoRecursive` reads and writes through references. -/
structure CollectState where
  Index : Nat
  Offset : Nat
  Result : List CompositeSpecConstElementDescriptor
  deriving DecidableEq, Repr

/-- The scalar branch of `collectCompositeElementsInfoRecursive`. -/
def collectScalar (T : Ty) (s : CollectState) : Res CollectState :=
  let Desc : CompositeSpecConstElementDescriptor :=
    { ID := 0, Offset := s.Offset, Size := toUnsigned (getPrimitiveSizeInBits T / 8) }
  if s.Index < s.Result.length then
    .ok { Index := toUnsigned (s.Index + 1), Offset := toUnsigned (s.Offset + Desc.Size),
          Result := s.Result.set s.Index Desc }
  else .error (.undefined "Result[Index] outside the vector")

mutual
/-- `collectCompositeElementsInfoRecursive`. -/
def collectCompositeElementsInfoRecursive : Ty → CollectState → Res CollectState
  | .array elem num, s =>
    loopN (fun s1 => collectCompositeElementsInfoRecursive elem s1) num s
  | .struct _ elems, s => collectCompositeElementsInfoElements elems s
  | .fixedVector elem num, s =>
    loopN (fun s1 => collectCompositeElementsInfoRecursive elem s1) num s
  | .integer bits, s => collectScalar (.integer bits) s
  | .fp k, s => collectScalar (.fp k) s
  | .pointer, s => collectScalar .pointer s
/-- The loop of `collectCompositeElementsInfoRecursive` over the element types of a struct. -/
def collectCompositeElementsInfoElements : List Ty → CollectState → Res CollectState
  | [], s => .ok s
  | ElTy :: rest, s =>
    match collectCompositeElementsInfoRecursive ElTy s with
    | .error e => .error e
    | .ok s1 => collectCompositeElementsInfoElements rest s1
end

/-- `getScalarSpecConstMetadata`. -/
def getScalarSpecConstMetadata (I : CallInst) : Res (String × Nat) :=
  match I.MD with
  | none => .ok ("", 0)
  | some (MDSym, IntIDs) =>
    match IntIDs with
    | [] => .error (.undefined "getOperand(1) outside the node")
    | ID :: _ => .ok (MDSym, ID)

/-- The loop of `getCompositeSpecConstMetadata` that copies operand `I` of the
node to `Result[I - 1].ID`. -/
def overlayIDs : List Nat → Nat → List CompositeSpecConstElementDescriptor →
    Res (List CompositeSpecConstElementDescriptor)
  | [], _, Result => .ok Result
  | ID :: rest, I, Result =>
    match Result.get? (I - 1) with
    | none => .error (.undefined "Result[I - 1] outside the vector")
    | some D => overlayIDs rest (I + 1) (Result.set (I - 1) { D with ID := ID })

/-- `getCompositeSpecConstMetadata`. -/
def getCompositeSpecConstMetadata (I : CallInst) :
    Res (String × List CompositeSpecConstElementDescriptor) :=
  match I.MD with
  | none => .ok ("", [])
  | some (MDSym, IntIDs) =>
    let Result := List.replicate IntIDs.length
      ({ ID := 0, Offset := 0, Size := 0 } : CompositeSpecConstElementDescriptor)
    match collectCompositeElementsInfoRecursive I.Ty { Index := 0, Offset := 0, Result := Result } with
    | .error e => .error e
    | .ok s =>
      match overlayIDs IntIDs 1 s.Result with
      | .error e => .error e
      | .ok Result => .ok (MDSym, Result)

/-- Assignment `Map[Key] = Val` on a map kept as a list of entries. -/
def assign {V : Type} : List (String × V) → String → V → List (String × V)
  | [], Key, Val => [(Key, Val)]
  | (k, v) :: rest, Key, Val =>
    if k = Key then (Key, Val) :: rest else (k, v) :: assign rest Key Val

/-- A function as `collectSpecConstantMetadata` sees it: whether it is a
declaration, and its direct calls in instruction order (the loop skips every
other instruction). -/
structure IRFunction where
  isDeclaration : Bool
  calls : List CallInst
  deriving Repr

/-- State of `collectSpecConstantMetadata`. -/
structure CollectedMetadata where
  Met : Bool
  ScalarIDMap : List (String × Nat)
  CompositeIDMap : List (String × List CompositeSpecConstElementDescriptor)
  deriving DecidableEq, Repr

/-- The body of the instruction loop of `collectSpecConstantMetadata`. -/
def collectFromCall (CI : CallInst) (m : CollectedMetadata) : Res CollectedMetadata :=
  if contains CI.Callee SPIRV_GET_SPEC_CONST_COMPOSITE then
    match getCompositeSpecConstMetadata CI with
    | .error e => .error e
    | .ok r =>
      if r.1 = "" then .ok m
      else .ok { m with CompositeIDMap := assign m.CompositeIDMap r.1 r.2, Met := true }
  else if contains CI.Callee SPIRV_GET_SPEC_CONST_VAL then
    match getScalarSpecConstMetadata CI with
    | .error e => .error e
    | .ok r =>
      if r.1 = "" then .ok m
      else .ok { m with ScalarIDMap := assign m.ScalarIDMap r.1 r.2, Met := true }
  else .ok m

/-- The instruction loop of `collectSpecConstantMetadata`. -/
def collectFromCalls : List CallInst → CollectedMetadata → Res CollectedMetadata
  | [], m => .ok m
  | CI :: rest, m =>
    match collectFromCall CI m with
    | .error e => .error e
    | .ok m1 => collectFromCalls rest m1

/-- The function loop of `collectSpecConstantMetadata`. -/
def collectFromFunctions : List IRFunction → CollectedMetadata → Res CollectedMetadata
  | [], m => .ok m
  | F :: rest, m =>
    if F.isDeclaration then collectFromFunctions rest m
    else
      match collectFromCalls F.calls m with
      | .error e => .error e
      | .ok m1 => collectFromFunctions rest m1

/-- `SpecConstantsPass::collectSpecConstantMetadata`, given the two maps it
updates; `Met` of the result is the value it returns. -/
def collectSpecConstantMetadata (M : List IRFunction) (ScalarIDMap : List (String × Nat))
    (CompositeIDMap : List (String × List CompositeSpecConstElementDescriptor)) :
    Res CollectedMetadata :=
  collectFromFunctions M
    { Met := false, ScalarIDMap := ScalarIDMap, CompositeIDMap := CompositeIDMap }

/-! ## `getStringLiteralArg` -/

/-- What the pass asks of a pointer value after `stripPointerCasts()`: whether
it is a global variable whose initializer is a `ConstantDataArray`, and then
the bytes of that initializer. -/
inductive Stripped where
  | literal (bytes : String)
  | other
  deriving DecidableEq, Repr

/-- An instruction next to the call site, as `getStringLiteralArg` inspects it. -/
structure Instruction where
  id : Nat
  /-- `getParent()`: the position of its basic block in the function. -/
  parent : Nat
  /-- `isa<StoreInst>`. -/
  isStore : Bool
  /-- For a store: `getValueOperand()->stripPointerCasts()`. -/
  valueOperand : Stripped
  mayHaveSideEffects : Bool
  deriving DecidableEq, Repr

/-- An argument of an accessor call after `stripPointerCasts()`. For a load:
the load itself, the users of the alloca it reads (`none` when its pointer
operand is not an alloca), and the basic blocks of the enclosing function. -/
inductive NameArg where
  | value (V : Stripped)
  | load (L : Instruction) (TmpPtrUsers : Option (List Instruction))
      (blocks : List (List Instruction))
  deriving Repr

/-- The loop of `getStringLiteralArg` over `TmpPtr->users()`. With `NDEBUG`
undefined the loop leaves at the first store. -/
def findStore (NDEBUG : Bool) : List Instruction → Option Instruction → Res (Option Instruction)
  | [], Store => .ok Store
  | U :: rest, Store =>
    if U.isStore then
      match AssertRelease Store.isNone "single store expected" with
      | .error e => .error e
      | .ok _ => if NDEBUG then findStore NDEBUG rest (some U) else .ok (some U)
    else findStore NDEBUG rest Store

/-- The instructions `Store->getNextNode()`, `->getNextNode()`, ... -/
def nextNodes (blocks : List (List Instruction)) (Store : Instruction) : List Instruction :=
  ((blocks.getD Store.parent []).dropWhile (fun I => I.id != Store.id)).drop 1

/-- The loop of `getStringLiteralArg` from the store towards the load; the
result tells whether the load was met. -/
def scanToLoad (L : Instruction) : List Instruction → Res Bool
  | [] => .ok false
  | I :: rest =>
    if I.id = L.id then .ok true
    else
      match AssertRelease (!I.mayHaveSideEffects) "unexpected spec const IR pattern 1" with
      | .error e => .error e
      | .ok _ => scanToLoad L rest

/-- The end of `getStringLiteralArg`: initializer of the global, as a string,
without a trailing NUL. -/
def literalOf : Stripped → Res String
  | .literal bytes => .ok (stripTrailingNul bytes)
  | .other => .error (.undefined "cast<GlobalVariable> or cast<ConstantDataArray>")

/-- `getStringLiteralArg`; `NDEBUG` tells whether the macro is defined.
`DelInsts` holds instruction ids. -/
def getStringLiteralArg (NDEBUG : Bool) (Arg : NameArg) (DelInsts : List Nat) :
    Res (String × List Nat) :=
  match Arg with
  | .value V =>
    match literalOf V with
    | .error e => .error e
    | .ok Res => .ok (Res, DelInsts)
  | .load L TmpPtrUsers blocks =>
    match TmpPtrUsers with
    | none => .error (.undefined "cast<AllocaInst>")
    | some users =>
      match findStore NDEBUG users none with
      | .error e => .error e
      | .ok none => .error (.fatal "SpecConstants.cpp: unexpected spec const IR pattern 0")
      | .ok (some Store) =>
        let Del1 := DelInsts ++ [Store.id]
        let checked : Res (List Nat) :=
          if NDEBUG then .ok Del1
          else
            match AssertRelease (L.parent == Store.parent) "same BB expected" with
            | .error e => .error e
            | .ok _ =>
              match scanToLoad L (nextNodes blocks Store) with
              | .error e => .error e
              | .ok met =>
                match AssertRelease met "load not met after the store" with
                | .error e => .error e
                | .ok _ => .ok (Del1 ++ [L.id])
        match checked with
        | .error e => .error e
        | .ok Del2 =>
          match literalOf Store.valueOperand with
          | .error e => .error e
          | .ok Res => .ok (Res, Del2)

/-! ## `SpecConstantsPass::run` -/

/-- An argument operand of an accessor call: the element type of its type
when that is a pointer type, and the operand after `stripPointerCasts()`. -/
structure Operand where
  pointee : Option Ty
  stripped : NameArg
  deriving Repr

/-- A call of an accessor function. -/
structure CallSite where
  id : Nat
  /-- `CI->getType()`. -/
  Ty : Ty
  Args : List Operand
  deriving Repr

/-- A user of a function. -/
inductive User where
  | call (CI : CallSite)
  | other
  deriving Repr

/-- A function of the module as `run` sees it. -/
structure Function where
  Name : String
  isDeclaration : Bool
  users : List User
  deriving Repr

/-- What `run` did at one call site: `SymID` and `SCTy` as computed there, the
instructions inserted before it, the value that replaces it (`SPIRVCall` or `Default`), whether that value is stored
through argument 0 instead of replacing the uses, and `DelInsts`. -/
structure LoweredCall where
  CI : Nat
  SymID : String
  SCTy : Ty
  Inserted : List CallInst
  Replacement : Value
  StoredThroughArg0 : Bool
  DelInsts : List Nat
  deriving Repr

/-- The local variables of `run`, and its effect on the module. -/
structure PassState where
  NextID : Nat
  IDMap : List (String × List Nat)
  IRModified : Bool
  Lowered : List LoweredCall
  deriving Repr

/-- `SCTy` of the loop body of `run`: the type of the call, or for a composite
accessor the element type of the pointer type of argument 0. -/
def siteType (IsComposite : Bool) (CI : CallSite) : Res Ty :=
  if IsComposite then
    match CI.Args.get? 0 with
    | none => .error (.undefined "getArgOperand(0)")
    | some A =>
      match A.pointee with
      | none => .error (.undefined "cast<PointerType>")
      | some T => .ok T
  else .ok CI.Ty

/-- `SymID` and `DelInsts` of the loop body of `run`: `getStringLiteralArg` on
argument `NameArgNo`, with `DelInsts` holding the call itself. -/
def siteName (NDEBUG IsComposite : Bool) (CI : CallSite) : Res (String × List Nat) :=
  match CI.Args.get? (if IsComposite then 1 else 0) with
  | none => .error (.undefined "getArgOperand(NameArgNo)")
  | some A => getStringLiteralArg NDEBUG A.stripped [CI.id]

/-- The body of the loop of `run` over `SCIntrCalls`. -/
def processCallSite (SetValAtRT NDEBUG IsComposite : Bool) (CI : CallSite) (st : PassState) :
    Res PassState :=
  match siteType IsComposite CI with
  | .error e => .error e
  | .ok SCTy =>
    match siteName NDEBUG IsComposite CI with
    | .error e => .error e
    | .ok (SymID, DelInsts) =>
      if SetValAtRT then
        let IsNewSpecConstant := (st.IDMap.lookup SymID).isNone
        let IDs0 := if IsNewSpecConstant then [st.NextID] else (st.IDMap.lookup SymID).getD []
        match emitSpecConstantRecursive SCTy [] IDs0 IsNewSpecConstant with
        | .error e => .error e
        | .ok (SPIRVCall, Out, IDs) =>
          let NextID := if IsNewSpecConstant then toUnsigned (st.NextID + IDs.length)
            else st.NextID
          let Out1 :=
            match SPIRVCall with
            | .inst idx _ => setSpecConstSymIDMetadata Out idx SymID IDs
            | _ => Out
          .ok { NextID := NextID, IDMap := assign st.IDMap SymID IDs,
                IRModified := st.IRModified,
                Lowered := st.Lowered ++
                  [LoweredCall.mk CI.id SymID SCTy Out1 SPIRVCall IsComposite DelInsts] }
      else
        match getDefaultCPPValue SCTy with
        | .error e => .error e
        | .ok Default =>
          .ok { st with
                Lowered := st.Lowered ++
                  [LoweredCall.mk CI.id SymID SCTy [] (.constant Default) IsComposite DelInsts] }

/-- The loop of `run` over `SCIntrCalls`. -/
def processCallSites (SetValAtRT NDEBUG IsComposite : Bool) :
    List CallSite → PassState → Res PassState
  | [], st => .ok st
  | CI :: rest, st =>
    match processCallSite SetValAtRT NDEBUG IsComposite CI st with
    | .error e => .error e
    | .ok st1 => processCallSites SetValAtRT NDEBUG IsComposite rest st1

/-- The call instructions among the users of a function (`SCIntrCalls`). -/
def callUsers : List User → List CallSite
  | [] => []
  | .call CI :: rest => CI :: callUsers rest
  | .other :: rest => callUsers rest

/-- The body of the loop of `run` over the functions of the module. -/
def processFunction (SetValAtRT NDEBUG : Bool) (F : Function) (st : PassState) : Res PassState :=
  if !F.isDeclaration then .ok st
  else if !startswith F.Name SYCL_GET_SPEC_CONST_VAL &&
      !startswith F.Name SYCL_GET_COMPOSITE_SPEC_CONST_VAL then .ok st
  else
    let SCIntrCalls := callUsers F.users
    let IRModified := st.IRModified || decide (SCIntrCalls.length > 0)
    processCallSites SetValAtRT NDEBUG (startswith F.Name SYCL_GET_COMPOSITE_SPEC_CONST_VAL)
      SCIntrCalls
      { NextID := st.NextID, IDMap := st.IDMap, IRModified := IRModified, Lowered := st.Lowered }

/-- The loop of `run` over the functions of the module. -/
def processFunctions (SetValAtRT NDEBUG : Bool) : List Function → PassState → Res PassState
  | [], st => .ok st
  | F :: rest, st =>
    match processFunction SetValAtRT NDEBUG F st with
    | .error e => .error e
    | .ok st1 => processFunctions SetValAtRT NDEBUG rest st1

/-- `SpecConstantsPass::run`. The module is reported as modified
(`PreservedAnalyses::none()`) exactly when `IRModified` holds in the result. -/
def run (SetValAtRT NDEBUG : Bool) (M : List Function) : Res PassState :=
  processFunctions SetValAtRT NDEBUG M
    { NextID := 0, IDMap := [], IRModified := false, Lowered := [] }

/-! ## Reference definitions

The notions the specification uses to describe the code: scalar leaves of a
type in depth-first order, the supported types, the per-parameter type code of
the mangler, the shape of a zero constant. -/

/-- The list `L` repeated `n` times. -/
def repeatList {α : Type} (L : List α) : Nat → List α
  | 0 => []
  | n + 1 => L ++ repeatList L n

mutual
/-- Scalar leaves of a type, depth-first: array elements in index order, struct
fields in declaration order, vector lanes in index order. -/
def leaves : Ty → List Ty
  | .integer bits => [.integer bits]
  | .fp k => [.fp k]
  | .pointer => [.pointer]
  | .array elem num => repeatList (leaves elem) num
  | .struct _ elems => leavesElements elems
  | .fixedVector elem num => repeatList (leaves elem) num
/-- Scalar leaves of a list of field types. -/
def leavesElements : List Ty → List Ty
  | [] => []
  | T :: rest => leaves T ++ leavesElements rest
end

/-- Number of scalar leaves of a type. -/
def leafCount (T : Ty) : Nat := (leaves T).length

/-- Size in bytes that the flattener records for a scalar leaf. -/
def leafSize (T : Ty) : Nat := getPrimitiveSizeInBits T / 8

/-- Sum of the sizes of the scalar leaves of a type. -/
def totalSize (T : Ty) : Nat := ((leaves T).map leafSize).sum

/-- One descriptor per leaf, `ID = 0`, `Offset` the running sum of the sizes of
the leaves before it, starting from `Offset`. -/
def flattenFrom : Nat → List Ty → List CompositeSpecConstElementDescriptor
  | _, [] => []
  | Offset, T :: rest =>
    { ID := 0, Offset := Offset, Size := leafSize T } :: flattenFrom (Offset + leafSize T) rest

/-- The descriptor list of a type according to the specification of the
Composite Flattener. -/
def flatten (T : Ty) : List CompositeSpecConstElementDescriptor := flattenFrom 0 (leaves T)

/-- The scalar types the mangler has a code for: integers of width 1, 8, 16,
32, 64 and 32/64-bit floats. -/
def supportedScalar : Ty → Bool
  | .integer bits => bits = 1 || bits = 8 || bits = 16 || bits = 32 || bits = 64
  | .fp .float => true
  | .fp .double => true
  | _ => false

/-- Parameter types the mangler accepts: supported scalars, structs, and arrays
and fixed vectors of accepted types. -/
def mangleable : Ty → Bool
  | .array elem _ => mangleable elem
  | .fixedVector elem _ => mangleable elem
  | .struct _ _ => true
  | T => supportedScalar T

mutual
/-- Types all of whose scalar constituents are supported scalars. -/
def supported : Ty → Bool
  | .array elem _ => supported elem
  | .fixedVector elem _ => supported elem
  | .struct _ elems => supportedElements elems
  | .integer bits => supportedScalar (.integer bits)
  | .fp k => supportedScalar (.fp k)
  | .pointer => false
/-- All field types are supported. -/
def supportedElements : List Ty → Bool
  | [] => true
  | T :: rest => supported T && supportedElements rest
end

mutual
/-- Types all of whose scalar constituents are integers or floating point numbers. -/
def numeric : Ty → Bool
  | .array elem _ => numeric elem
  | .fixedVector elem _ => numeric elem
  | .struct _ elems => numericElements elems
  | .integer _ => true
  | .fp _ => true
  | .pointer => false
/-- All field types are numeric. -/
def numericElements : List Ty → Bool
  | [] => true
  | T :: rest => numeric T && numericElements rest
end

/-- The per-parameter code of the Name Mangler as the specification gives it. -/
def typeCode : Ty → String
  | .integer bits =>
    if bits = 1 then "b" else if bits = 8 then "a" else if bits = 16 then "s"
    else if bits = 32 then "i" else if bits = 64 then "x" else ""
  | .fp .float => "f"
  | .fp .double => "d"
  | .array elem _ => "A" ++ typeCode elem
  | .fixedVector elem num => "Dv" ++ toString num ++ "_" ++ typeCode elem
  | .struct name _ => name
  | _ => ""

/-- Concatenation, in order, of the codes of a parameter list. -/
def typeCodes : List Ty → String
  | [] => ""
  | T :: rest => typeCode T ++ typeCodes rest

/-- The mangled name as the specification gives it: `_Z`, the decimal length of
the base name, the base name, the codes of the parameters. -/
def mangledName (BaseName : String) (Params : List Ty) : String :=
  "_Z" ++ toString BaseName.utf8ByteSize ++ BaseName ++ typeCodes Params

mutual
/-- `zeroOfShape T c`: the constant `c` has the shape of `T` (an array or vector
of count `n` has `n` elements, a struct one element per field, in order) and
each of its scalar leaves is the integer 0 or the floating point `+0.0` of the
leaf type. -/
def zeroOfShape : Ty → Constant → Bool
  | .integer bits, c =>
    match c with
    | .int b v => b = bits && v = 0
    | _ => false
  | .fp k, c =>
    match c with
    | .fp k1 pattern => k1 = k && pattern = 0
    | _ => false
  | .pointer, _ => false
  | .array elem num, c =>
    match c with
    | .array _ elems => elems.length = num && elems.all (fun x => zeroOfShape elem x)
    | _ => false
  | .fixedVector elem num, c =>
    match c with
    | .vector _ elems => elems.length = num && elems.all (fun x => zeroOfShape elem x)
    | _ => false
  | .struct _ elems, c =>
    match c with
    | .struct _ cs => zeroOfShapeElements elems cs
    | _ => false
/-- Field by field `zeroOfShape`. -/
def zeroOfShapeElements : List Ty → List Constant → Bool
  | [], cs => cs.isEmpty
  | T :: rest, cs =>
    match cs with
    | [] => false
    | c :: cs1 => zeroOfShape T c && zeroOfShapeElements rest cs1
end

mutual
/-- Number of scalar leaves of a constant. -/
def Constant.leafCount : Constant → Nat
  | .int _ _ => 1
  | .fp _ _ => 1
  | .vector _ elems => Constant.leafCountList elems
  | .array _ elems => Constant.leafCountList elems
  | .struct _ elems => Constant.leafCountList elems
/-- Number of scalar leaves of a list of constants. -/
def Constant.leafCountList : List Constant → Nat
  | [] => 0
  | c :: rest => Constant.leafCount c + Constant.leafCountList rest
end

/-- The one-entry buffer `collectCompositeElementsInfoRecursive` is given for a
scalar type. -/
def oneEntry : CollectState :=
  { Index := 0, Offset := 0, Result := [{ ID := 0, Offset := 0, Size := 0 }] }

/-- The state after one scalar leaf of `Size` bytes was recorded in `oneEntry`. -/
def oneLeaf (Size : Nat) : CollectState :=
  { Index := 1, Offset := Size, Result := [{ ID := 0, Offset := 0, Size := Size }] }

/-- What the specification says of the value `getDefaultCPPValue` returns for
`T`: it has type `T`, the shape of `T` with zero leaves, and as many scalar
leaves as `T`. -/
def IsDefaultOf (T : Ty) (c : Constant) : Prop :=
  c.getType = T ∧ zeroOfShape T c = true ∧ c.leafCount = leafCount T

/-- The scalar branch of `collectCompositeElementsInfoRecursive` applied to a
list of leaf types in order. -/
def collectLeaves : List Ty → CollectState → Res CollectState
  | [], s => .ok s
  | T :: rest, s =>
    match collectScalar T s with
    | .error e => .error e
    | .ok s1 => collectLeaves rest s1

/-- `Desc` of the scalar branch of `collectCompositeElementsInfoRecursive`. -/
def recorded (Offset : Nat) (T : Ty) : CompositeSpecConstElementDescriptor :=
  { ID := 0, Offset := Offset, Size := toUnsigned (leafSize T) }

/-- The descriptors recorded for a list of leaves, with the arithmetic of the
code: sizes and offsets are `unsigned`. -/
def recordedFrom : Nat → List Ty → List CompositeSpecConstElementDescriptor
  | _, [] => []
  | Offset, T :: rest =>
    recorded Offset T :: recordedFrom (toUnsigned (Offset + toUnsigned (leafSize T))) rest

/-- The value of `Offset` after a list of leaves, with the arithmetic of the code. -/
def offsetAfter : Nat → List Ty → Nat
  | Offset, [] => Offset
  | Offset, T :: rest => offsetAfter (toUnsigned (Offset + toUnsigned (leafSize T))) rest

/-- The entry a fresh `std::vector` of descriptors holds. -/
def emptyDescriptor : CompositeSpecConstElementDescriptor := { ID := 0, Offset := 0, Size := 0 }

/-- The arguments of the call in `getCompositeSpecConstMetadata`: `Index = 0`,
`Offset = 0` and a buffer of `n` entries. -/
def initialCollectState (n : Nat) : CollectState :=
  { Index := 0, Offset := 0, Result := List.replicate n emptyDescriptor }

/-- Whether the emitter treats a type as a composite. -/
def isComposite : Ty → Bool
  | .array _ _ => true
  | .struct _ _ => true
  | .fixedVector _ _ => true
  | _ => false

/-- The effect of the scalar branch of `emitSpecConstantRecursiveImpl` on `IDs`
and `IsFirstElement`. -/
def idStep (IsNewSpecConstant : Bool) (p : List Nat × Bool) : List Nat × Bool :=
  (if IsNewSpecConstant && !p.2 then p.1 ++ [toUnsigned (p.1.getLastD 0 + 1)] else p.1, false)

/-- The `n` consecutive values of `unsigned` that start at `c`:
`c, c + 1, ..., c + n - 1`, with the arithmetic of `unsigned`. -/
def idRun (c n : Nat) : List Nat := (List.range n).map (fun i => toUnsigned (c + i))

/-- How the metadata reader classifies the name of a called function: the
composite intrinsic for a composite type, the scalar intrinsic otherwise. -/
def CalleeFor (T : Ty) (Callee : String) : Prop :=
  if isComposite T then contains Callee SPIRV_GET_SPEC_CONST_COMPOSITE = true
  else contains Callee SPIRV_GET_SPEC_CONST_COMPOSITE = false ∧
    contains Callee SPIRV_GET_SPEC_CONST_VAL = true

/-- The instructions of `s1` are those of `s` followed by calls without metadata. -/
def ExtendsOut (s s1 : EmitState) : Prop :=
  ∃ new, s1.Out = s.Out ++ new ∧ ∀ c ∈ new, c.MD = none

/-- What a successful call of `emitSpecConstantRecursiveImpl` on `T` does: `IDs`
and `IsFirstElement` change as by one scalar step per leaf of `T`; calls without
metadata are inserted, the last of them is the returned instruction, has type
`T` and calls the intrinsic for `T`. -/
def EmitPost (T : Ty) (IsNewSpecConstant : Bool) (s : EmitState) (I : Value)
    (s1 : EmitState) : Prop :=
  (s1.IDs, s1.IsFirstElement) = (idStep IsNewSpecConstant)^[leafCount T] (s.IDs, s.IsFirstElement) ∧
  ∃ before top, s1.Out = s.Out ++ before ++ [top] ∧ I = .inst (s.Out ++ before).length T ∧
    (∀ c ∈ before, c.MD = none) ∧ top.MD = none ∧ top.Ty = T ∧ CalleeFor T top.Callee

/-- What `run` leaves at a call site lowered at run time whose symbolic name has
the list `IDs`: calls without metadata, then the top-level call, which is the
replacement value, has the type of the constant, calls the intrinsic for that
type and carries the annotation `(SymID, IDs)`. -/
def WellLowered (L : LoweredCall) (IDs : List Nat) : Prop :=
  ∃ before top, L.Inserted = before ++ [top] ∧ (∀ c ∈ before, c.MD = none) ∧
    top.MD = some (L.SymID, IDs) ∧ top.Ty = L.SCTy ∧ CalleeFor L.SCTy top.Callee ∧
    L.Replacement = .inst before.length L.SCTy

/-- The list `IDs` after a new constant of type `T` was emitted starting from
the counter value `c`. -/
def newIDs (c : Nat) (T : Ty) : List Nat :=
  ((idStep true)^[leafCount T] ([c], true)).1

/-- The annotation of the top-level call at a lowered call site: the metadata
of the instruction that replaces the call. -/
def LoweredCall.annotation (L : LoweredCall) : Option (String × List Nat) :=
  match L.Replacement with
  | .inst idx _ =>
    match L.Inserted.get? idx with
    | some I => I.MD
    | none => none
  | _ => none

/-- The first arguments of the inserted calls that take a 32-bit integer
constant first: the NumericIDs passed to the scalar intrinsic, in order. -/
def leafIDs : List CallInst → List Nat
  | [] => []
  | I :: rest =>
    match I.Args with
    | .constInt32 ID :: _ => ID :: leafIDs rest
    | _ => leafIDs rest

/-- The state `run` starts from. -/
def initialState : PassState := { NextID := 0, IDMap := [], IRModified := false, Lowered := [] }

/-- All NumericIDs stored in a map, in the order of its entries. -/
def allIDs : List (String × List Nat) → List Nat
  | [] => []
  | e :: rest => e.2 ++ allIDs rest

/-- A call `T __sycl_getSpecConstantValue(name)` of a scalar accessor whose
argument is directly the string literal. -/
def scalarSite (id : Nat) (name : String) (T : Ty) : CallSite :=
  { id := id, Ty := T, Args := [Operand.mk none (.value (.literal name))] }

/-- A call `void __sycl_getCompositeSpecConstantValue(T *ret, name)` of a
composite accessor whose name argument is directly the string literal. -/
def compositeSite (id : Nat) (name : String) (T : Ty) : CallSite :=
  { id := id, Ty := .pointer,
    Args := [Operand.mk (some T) (.value .other), Operand.mk none (.value (.literal name))] }

/-- A state of the pass with the given counter and map. -/
def stateWith (NextID : Nat) (IDMap : List (String × List Nat)) : PassState :=
  { NextID := NextID, IDMap := IDMap, IRModified := true, Lowered := [] }

/-- Every lowered call site carries the list stored for its name, and every
stored list has one ID per scalar leaf of the type of some lowered call site
of that name (one ID when that type has no leaf). -/
def Traced (st : PassState) : Prop :=
  (∀ L ∈ st.Lowered, ∃ IDs, List.lookup L.SymID st.IDMap = some IDs ∧ WellLowered L IDs) ∧
  (∀ k IDs, List.lookup k st.IDMap = some IDs →
    ∃ L ∈ st.Lowered, L.SymID = k ∧ IDs.length = max 1 (leafCount L.SCTy))

/-- The stored lists, one after the other, are the values of `unsigned` counted
up from 0, and `NextID` is their number as an `unsigned`. -/
def Counted (st : PassState) : Prop :=
  allIDs st.IDMap = idRun 0 (allIDs st.IDMap).length ∧
  st.NextID = toUnsigned (allIDs st.IDMap).length

/-- A module with one declared scalar accessor for `<2 x i32>` that is called
twice with the name `ConstB`. -/
def twoUses : List Function :=
  [{ Name := "_Z27__sycl_getSpecConstantValueIDv2_iET_PKc", isDeclaration := true,
     users := [.call (scalarSite 1 "ConstB" (.fixedVector (.integer 32) 2)),
               .call (scalarSite 2 "ConstB" (.fixedVector (.integer 32) 2))] }]

/-- A module with a composite accessor called once for `ConstA` of type
`[4294967295 x i32]` and a scalar accessor called once for `ConstB` of type
`<2 x i32>`. -/
def wrappingModule : List Function :=
  [{ Name := "_Z36__sycl_getCompositeSpecConstantValueIA_iET_PKc", isDeclaration := true,
     users := [.call (compositeSite 1 "ConstA" (.array (.integer 32) 4294967295))] },
   { Name := "_Z27__sycl_getSpecConstantValueIDv2_iET_PKc", isDeclaration := true,
     users := [.call (scalarSite 2 "ConstB" (.fixedVector (.integer 32) 2))] }]

/-- A module with two scalar accessors, called for `ConstA` of type `i32` and
for `ConstC` of type `float`. -/
def twoNames : List Function :=
  [{ Name := "_Z27__sycl_getSpecConstantValueIiET_PKc", isDeclaration := true,
     users := [.call (scalarSite 1 "ConstA" (.integer 32))] },
   { Name := "_Z27__sycl_getSpecConstantValueIfET_PKc", isDeclaration := true,
     users := [.call (scalarSite 2 "ConstC" (.fp .float))] }]

/-- The descriptor list `Result` with the `ID` of its `k`-th descriptor replaced
by the `k`-th element of `IDs`. -/
def withIDs : List CompositeSpecConstElementDescriptor → List Nat →
    List CompositeSpecConstElementDescriptor
  | [], _ => []
  | Ds, [] => Ds
  | D :: Ds, ID :: IDs => { D with ID := ID } :: withIDs Ds IDs

/-- The instructions `run` inserted, call site after call site. -/
def insertedCalls : List LoweredCall → List CallInst
  | [] => []
  | L :: rest => L.Inserted ++ insertedCalls rest

/-- The direct calls in the defined functions of a module, in the order in
which `collectSpecConstantMetadata` visits them. -/
def definedCalls : List IRFunction → List CallInst
  | [] => []
  | F :: rest => if F.isDeclaration then definedCalls rest else F.calls ++ definedCalls rest

/-- The entry, if any, that `collectSpecConstantMetadata` writes to the scalar
map at a call. -/
def scalarUpdate (CI : CallInst) : Option (String × Nat) :=
  if contains CI.Callee SPIRV_GET_SPEC_CONST_COMPOSITE then none
  else if contains CI.Callee SPIRV_GET_SPEC_CONST_VAL then
    match getScalarSpecConstMetadata CI with
    | .ok r => if r.1 = "" then none else some r
    | .error _ => none
  else none

/-- The entry, if any, that `collectSpecConstantMetadata` writes to the
composite map at a call. -/
def compositeUpdate (CI : CallInst) :
    Option (String × List CompositeSpecConstElementDescriptor) :=
  if contains CI.Callee SPIRV_GET_SPEC_CONST_COMPOSITE then
    match getCompositeSpecConstMetadata CI with
    | .ok r => if r.1 = "" then none else some r
    | .error _ => none
  else none

/-- A sequence of optional assignments applied to a map. -/
def applyUpdates {V : Type} : List (Option (String × V)) → List (String × V) → List (String × V)
  | [], m => m
  | none :: rest, m => applyUpdates rest m
  | some e :: rest, m => applyUpdates rest (assign m e.1 e.2)

/-- Neither metadata getter aborts at the call. -/
def Readable (CI : CallInst) : Prop :=
  (contains CI.Callee SPIRV_GET_SPEC_CONST_COMPOSITE = true →
    ∃ r, getCompositeSpecConstMetadata CI = .ok r) ∧
  (contains CI.Callee SPIRV_GET_SPEC_CONST_COMPOSITE = false →
    contains CI.Callee SPIRV_GET_SPEC_CONST_VAL = true →
    ∃ r, getScalarSpecConstMetadata CI = .ok r)

/-- The call `c` is the annotated top-level call of the lowered call site `L`,
whose name has the list `IDs` of one ID per scalar leaf (one ID when the type
has no leaf). -/
def TopOf (st : PassState) (L : LoweredCall) (IDs : List Nat) (c : CallInst) : Prop :=
  List.lookup L.SymID st.IDMap = some IDs ∧ IDs.length = max 1 (leafCount L.SCTy) ∧
  c.MD = some (L.SymID, IDs) ∧ c.Ty = L.SCTy ∧ CalleeFor L.SCTy c.Callee ∧ L.SymID ≠ ""

/-- The state a run ended with (the initial state if it aborted). -/
def finalState (r : Res PassState) : PassState :=
  match r with
  | .ok st => st
  | .error _ => initialState

/-- The rewritten program as the reader sees it when all inserted calls are
direct calls in one defined function. -/
def rewritten (st : PassState) : List IRFunction :=
  [IRFunction.mk false (insertedCalls st.Lowered)]

/-- A module with a scalar accessor called for `ConstA` of type `i32` and a
composite accessor called for `ConstB` of type `<2 x i32>`. -/
def roundTripModule : List Function :=
  [{ Name := "_Z27__sycl_getSpecConstantValueIiET_PKc", isDeclaration := true,
     users := [.call (scalarSite 1 "ConstA" (.integer 32))] },
   { Name := "_Z36__sycl_getCompositeSpecConstantValueIDv2_iET_PKc", isDeclaration := true,
     users := [.call (compositeSite 2 "ConstB" (.fixedVector (.integer 32) 2))] }]

/-- A module with a composite accessor called for `ConstA` of the type
`[0 x i32]`, which has no scalar leaf. -/
def zeroLeafModule : List Function :=
  [{ Name := "_Z36__sycl_getCompositeSpecConstantValueIA_iET_PKc", isDeclaration := true,
     users := [.call (compositeSite 1 "ConstA" (.array (.integer 32) 0))] }]

/-- Whether a failure is an `llvm_unreachable`, the way the pass flags what is
not implemented. -/
def Failure.isUnreachable : Failure → Bool
  | .unreachable _ => true
  | _ => false

/-- Whether `run` looks for the call sites of a function: a declaration whose
name starts with one of the two accessor prefixes. -/
def isAccessor (F : Function) : Bool :=
  F.isDeclaration && (startswith F.Name SYCL_GET_SPEC_CONST_VAL ||
    startswith F.Name SYCL_GET_COMPOSITE_SPEC_CONST_VAL)

/-- A declared scalar accessor for `i128`, called once for the name `ConstA`. -/
def wideIntAccessor : Function :=
  { Name := "_Z27__sycl_getSpecConstantValueInET_PKc", isDeclaration := true,
    users := [.call (scalarSite 1 "ConstA" (.integer 128))] }

/-- A module with `wideIntAccessor` and a composite accessor called once for
`ConstB` of the struct type `{i32, i128}`. -/
def wideIntModule : List Function :=
  [wideIntAccessor,
   { Name := "_Z36__sycl_getCompositeSpecConstantValueI1SET_PKc", isDeclaration := true,
     users := [.call (compositeSite 2 "ConstB" (.struct "S" [.integer 32, .integer 128]))] }]

/-- A module in which the name `ConstA` is used with two types: first at a call
site of the scalar accessor for `i32`, then at a call site of the scalar
accessor for `<2 x i32>`. -/
def mismatchModule : List Function :=
  [{ Name := "_Z27__sycl_getSpecConstantValueIiET_PKc", isDeclaration := true,
     users := [.call (scalarSite 1 "ConstA" (.integer 32))] },
   { Name := "_Z27__sycl_getSpecConstantValueIDv2_iET_PKc", isDeclaration := true,
     users := [.call (scalarSite 2 "ConstA" (.fixedVector (.integer 32) 2))] }]

/-- The stores among the users of the temporary, in the order of `users()`. -/
def stores (users : List Instruction) : List Instruction := users.filter (fun U => U.isStore)

/-- An instruction that may have side effects comes after the store `St` in its
block, before any occurrence of the load `L`. -/
def SideEffectBetween (blocks : List (List Instruction)) (St L : Instruction) : Prop :=
  ∃ pre I post, nextNodes blocks St = pre ++ I :: post ∧ (∀ J ∈ pre, J.id ≠ L.id) ∧
    I.id ≠ L.id ∧ I.mayHaveSideEffects = true

/-- The load `L` comes after the store `St` in its block, with only
instructions without side effects between them. -/
def LoadFollows (blocks : List (List Instruction)) (St L : Instruction) : Prop :=
  ∃ pre Lx post, nextNodes blocks St = pre ++ Lx :: post ∧ Lx.id = L.id ∧
    ∀ J ∈ pre, J.id ≠ L.id ∧ J.mayHaveSideEffects = false

/-- The store of the address of the literal `SpecConst\0` to the temporary. -/
def litStore (id parent : Nat) : Instruction :=
  { id := id, parent := parent, isStore := true, valueOperand := .literal "SpecConst\x00",
    mayHaveSideEffects := true }

/-- The load of the temporary that is the name argument. -/
def nameLoad (id parent : Nat) : Instruction :=
  { id := id, parent := parent, isStore := false, valueOperand := .other,
    mayHaveSideEffects := false }

/-- A call of some other function. -/
def otherCall (id parent : Nat) : Instruction :=
  { id := id, parent := parent, isStore := false, valueOperand := .other,
    mayHaveSideEffects := true }

/-- The pattern of the comment in `getStringLiteralArg`: store 3 and load 4 in
one block, next to each other. -/
def wellFormedArg : NameArg :=
  .load (nameLoad 4 0) (some [nameLoad 4 0, litStore 3 0]) [[litStore 3 0, nameLoad 4 0]]

/-- The store is in block 0, the load in block 1. -/
def otherBlockArg : NameArg :=
  .load (nameLoad 4 1) (some [nameLoad 4 1, litStore 3 0]) [[litStore 3 0], [nameLoad 4 1]]

/-- A call lies between the store and the load. -/
def sideEffectArg : NameArg :=
  .load (nameLoad 4 0) (some [nameLoad 4 0, litStore 3 0])
    [[litStore 3 0, otherCall 5 0, nameLoad 4 0]]

/-- The temporary has two stores; the second one comes after the load. -/
def twoStoresArg : NameArg :=
  .load (nameLoad 4 0) (some [litStore 3 0, nameLoad 4 0, litStore 6 0])
    [[litStore 3 0, nameLoad 4 0, litStore 6 0]]

/-- The temporary has no store. -/
def noStoreArg : NameArg :=
  .load (nameLoad 4 0) (some [nameLoad 4 0]) [[nameLoad 4 0]]

/-- A call of one of the two intrinsics, as the reader recognises it, that
carries an annotation whose symbolic name is not empty. -/
def annotatedWithName (CI : CallInst) : Bool :=
  (contains CI.Callee SPIRV_GET_SPEC_CONST_COMPOSITE ||
    contains CI.Callee SPIRV_GET_SPEC_CONST_VAL) &&
  match CI.MD with
  | some (SymID, _) => SymID != ""
  | none => false

/-- A call of one of the two intrinsics, as the reader recognises it, that
carries an annotation. -/
def annotated (CI : CallInst) : Bool :=
  (contains CI.Callee SPIRV_GET_SPEC_CONST_COMPOSITE ||
    contains CI.Callee SPIRV_GET_SPEC_CONST_VAL) && CI.MD.isSome

/-- A module with a scalar accessor for `i32` called once with the empty string
literal as the name. -/
def emptyNameModule : List Function :=
  [{ Name := "_Z27__sycl_getSpecConstantValueIiET_PKc", isDeclaration := true,
     users := [.call (scalarSite 1 "\x00" (.integer 32))] }]

/-- A program with one defined function that calls the scalar intrinsic once,
without an annotation. -/
def plainProgram : List IRFunction :=
  [IRFunction.mk false
    [CallInst.mk (.integer 32) "_Z20__spirv_SpecConstantii"
      [.constInt32 0, .constant (.int 32 0)] none]]

/-- The call site can be lowered: its constant type and its name are found, and
the type is one the mode can lower (a supported type at run time, a type of
integers and floating point numbers at compile time). -/
def Lowerable (SetValAtRT NDEBUG IsComposite : Bool) (CI : CallSite) : Prop :=
  ∃ SCTy SymID DelInsts, siteType IsComposite CI = .ok SCTy ∧
    siteName NDEBUG IsComposite CI = .ok (SymID, DelInsts) ∧
    (if SetValAtRT then supported SCTy = true else numeric SCTy = true)

/-- No list stored in `IDMap` is empty. -/
def NonEmptyLists (st : PassState) : Prop :=
  ∀ k, List.lookup k st.IDMap ≠ some []

/-- A module whose only function is a declared scalar accessor that is not
called; its one user is not a call. -/
def unusedAccessorModule : List Function :=
  [{ Name := "_Z27__sycl_getSpecConstantValueIiET_PKc", isDeclaration := true,
     users := [.other] }]

/-- What an inserted call is in the tree the emitter builds: a call of the
scalar intrinsic with its result type, a call of the composite intrinsic with
its result type and its arguments, or something else. The intrinsic is told
from the name of the called function as the metadata reader does it. -/
inductive Shape where
  | leaf (T : Ty)
  | node (T : Ty) (children : List Value)
  | other
  deriving Repr

/-- The shape of an inserted call. -/
def shapeOf (CI : CallInst) : Shape :=
  if contains CI.Callee SPIRV_GET_SPEC_CONST_COMPOSITE then .node CI.Ty CI.Args
  else if contains CI.Callee SPIRV_GET_SPEC_CONST_VAL then .leaf CI.Ty
  else .other

/-- Whether the call is a call of the scalar intrinsic. -/
def Shape.isLeaf : Shape → Bool
  | .leaf _ => true
  | _ => false

/-- Whether the call is a call of the composite intrinsic. -/
def Shape.isNode : Shape → Bool
  | .node _ _ => true
  | _ => false

/-- The result types of the calls of the scalar intrinsic, in order. -/
def leafTypes : List Shape → List Ty
  | [] => []
  | .leaf T :: rest => T :: leafTypes rest
  | _ :: rest => leafTypes rest

mutual
/-- Number of nodes of the expanded tree of a type: one per scalar leaf and one
per composite, every array element and vector lane counted on its own. -/
def nodeCount : Ty → Nat
  | .integer _ => 1
  | .fp _ => 1
  | .pointer => 1
  | .array elem num => num * nodeCount elem + 1
  | .struct _ elems => nodeCountElements elems + 1
  | .fixedVector elem num => num * nodeCount elem + 1
/-- Number of nodes of the expanded trees of a list of field types. -/
def nodeCountElements : List Ty → Nat
  | [] => 0
  | T :: rest => nodeCount T + nodeCountElements rest
end

mutual
/-- Number of composite nodes of the expanded tree of a type. -/
def compositeCount : Ty → Nat
  | .integer _ => 0
  | .fp _ => 0
  | .pointer => 0
  | .array elem num => num * compositeCount elem + 1
  | .struct _ elems => compositeCountElements elems + 1
  | .fixedVector elem num => num * compositeCount elem + 1
/-- Number of composite nodes of the expanded trees of a list of field types. -/
def compositeCountElements : List Ty → Nat
  | [] => 0
  | T :: rest => compositeCount T + compositeCountElements rest
end

/-- `n` subtrees of `size` nodes each, one after the other from index `base`. -/
def repeatTree (f : Nat → List Shape) (size : Nat) : Nat → Nat → List Shape
  | 0, _ => []
  | n + 1, base => f base ++ repeatTree f size n (base + size)

/-- The top-level instructions of `n` subtrees of type `elem` and of `size`
nodes each that start at index `base`: the last instruction of each. -/
def refsRepeat (elem : Ty) (size : Nat) : Nat → Nat → List Value
  | 0, _ => []
  | n + 1, base => .inst (base + size - 1) elem :: refsRepeat elem size n (base + size)

/-- The top-level instructions of the subtrees of the fields of a struct that
start at index `base`. -/
def refsElements : List Ty → Nat → List Value
  | [], _ => []
  | T :: rest, base => .inst (base + nodeCount T - 1) T :: refsElements rest (base + nodeCount T)

mutual
/-- The expanded tree of a type laid out from index `base` on, every child
before its parent: the subtrees of the elements in order (array elements and
vector lanes in index order, struct fields in declaration order), then the
composite node, whose children are the top-level instructions of these
subtrees in order. -/
def tree : Ty → Nat → List Shape
  | .integer bits, _ => [.leaf (.integer bits)]
  | .fp k, _ => [.leaf (.fp k)]
  | .pointer, _ => [.leaf .pointer]
  | .array elem num, base =>
    repeatTree (fun b => tree elem b) (nodeCount elem) num base ++
      [.node (.array elem num) (refsRepeat elem (nodeCount elem) num base)]
  | .struct name elems, base =>
    treeElements elems base ++ [.node (.struct name elems) (refsElements elems base)]
  | .fixedVector elem num, base =>
    repeatTree (fun b => tree elem b) (nodeCount elem) num base ++
      [.node (.fixedVector elem num) (refsRepeat elem (nodeCount elem) num base)]
/-- The expanded trees of the fields of a struct, one after the other. -/
def treeElements : List Ty → Nat → List Shape
  | [], _ => []
  | T :: rest, base => tree T base ++ treeElements rest (base + nodeCount T)
end

/-- In a layout that starts at index `base`, every child of a composite node is
an instruction at an index from `lo` on and before the node. -/
def ChildrenFirst (lo base : Nat) (shapes : List Shape) : Prop :=
  ∀ i T children, shapes.get? i = some (.node T children) →
    ∀ v ∈ children, ∃ j ty, v = .inst j ty ∧ lo ≤ j ∧ j < base + i

/-- What a successful call of `emitSpecConstantRecursiveImpl` on `T` inserts:
the expanded tree of `T`, laid out after the instructions that were there, and
the returned value is its last instruction. -/
def EmitsTree (T : Ty) (s : EmitState) (I : Value) (s1 : EmitState) : Prop :=
  ∃ new, s1.Out = s.Out ++ new ∧ new.map shapeOf = tree T s.Out.length ∧
    I = .inst (s.Out.length + nodeCount T - 1) T

/-- The result of a call of `emitSpecConstantRecursive` (a constant 0 without
instructions and IDs if it stopped without a result). -/
def finalEmit (r : Res (Value × List CallInst × List Nat)) : Value × List CallInst × List Nat :=
  match r with
  | .ok x => x
  | .error _ => (.constInt32 0, [], [])

/-- The struct type `{i32, <2 x double>}`. -/
def pairStruct : Ty := .struct "S" [.integer 32, .fixedVector (.fp .double) 2]

/-- What the emitter returns for a new constant of type `pairStruct` when the
counter is 7. -/
def pairEmit : Value × List CallInst × List Nat :=
  finalEmit (emitSpecConstantRecursive pairStruct [] [7] true)

/-- The state with `IRModified` set to `b`. -/
def withIR (b : Bool) (st : PassState) : PassState :=
  { NextID := st.NextID, IDMap := st.IDMap, IRModified := b, Lowered := st.Lowered }

/-- No list stored in `IDMap` is empty, `NextID` is the number of NumericIDs
stored in `IDMap`, and the stored NumericIDs are exactly the numbers below
`NextID`. -/
def GapFree (st : PassState) : Prop :=
  (∀ k IDs, List.lookup k st.IDMap = some IDs → IDs ≠ []) ∧
  st.NextID = (allIDs st.IDMap).length ∧
  ∀ n, n ∈ allIDs st.IDMap ↔ n < st.NextID

/-- The first function of `wrappingModule` alone: the run of `wrappingModule`
cut after its first call site. -/
def wrappingPrefix : List Function :=
  [{ Name := "_Z36__sycl_getCompositeSpecConstantValueIA_iET_PKc", isDeclaration := true,
     users := [.call (compositeSite 1 "ConstA" (.array (.integer 32) 4294967295))] }]

/-- What the emitter returns for the type `<2 x i32>` when the name is known and
has the list `[0, 1]`. -/
def reuseEmit : Value × List CallInst × List Nat :=
  finalEmit (emitSpecConstantRecursive (.fixedVector (.integer 32) 2) [] [0, 1] false)

/-- A call the reader passes over: it carries no `SYCL_SPEC_CONST_SYM_ID`
metadata, or the name of the called function contains neither intrinsic
name. -/
def Unrelated (c : CallInst) : Prop :=
  c.MD = none ∨ (contains c.Callee SPIRV_GET_SPEC_CONST_COMPOSITE = false ∧
    contains c.Callee SPIRV_GET_SPEC_CONST_VAL = false)

/-- The annotated call inserted at the lowered call site `L` is one of the
direct calls in the defined functions of `P`. Whether it is one is not decided
by `emitCall` here: the source hands `Module::getOrInsertFunction` the mangled
name, which leaves out the result type, together with the function type, and
`collectSpecConstantMetadata` passes over a call whose called operand is not a
`Function` (`getCalledFunction()` is null). -/
def ReachesReader (P : List IRFunction) (L : LoweredCall) : Prop :=
  ∃ c, c ∈ definedCalls P ∧ c ∈ L.Inserted ∧ c.MD ≠ none

/-- The rewritten `roundTripModule` as the reader sees it when the inserted
calls stand in a defined function between two calls of another function, after
a defined function with one more such call. -/
def roundTripProgram : List IRFunction :=
  [IRFunction.mk false [CallInst.mk (.integer 32) "_Z3fooi" [.constInt32 7] none],
   IRFunction.mk false
    (CallInst.mk (.integer 32) "_Z3fooi" [.constInt32 8] none ::
      (insertedCalls (finalState (run true true roundTripModule)).Lowered ++
        [CallInst.mk (.integer 32) "_Z3fooi" [.constInt32 9] none]))]

/-- A module with a composite accessor called for `ConstA` of the type
`%struct.A = { i32, float }` and one called for `ConstB` of the type
`%struct.B = { i32, float }`. -/
def collidingModule : List Function :=
  [{ Name := "_Z36__sycl_getCompositeSpecConstantValueI1AET_PKc", isDeclaration := true,
     users := [.call (compositeSite 1 "ConstA"
       (.struct "struct.A" [.integer 32, .fp .float]))] },
   { Name := "_Z36__sycl_getCompositeSpecConstantValueI1BET_PKc", isDeclaration := true,
     users := [.call (compositeSite 2 "ConstB"
       (.struct "struct.B" [.integer 32, .fp .float]))] }]

/-- The rewritten `collidingModule` with the direct calls of the functions
created first under each name: all inserted calls but the last, the composite
call of result type `%struct.B`, whose name `emitCall` has already used for a
function of result type `%struct.A`. -/
def collidingProgram : List IRFunction :=
  [IRFunction.mk false
    (insertedCalls (finalState (run true true collidingModule)).Lowered).dropLast]

/-! ## Induction over types -/

/-- Structural induction over `Ty` with the induction hypothesis for every
field type of a struct. -/
theorem Ty.induction {P : Ty → Prop}
    (hint : ∀ bits, P (.integer bits)) (hfp : ∀ k, P (.fp k)) (hptr : P .pointer)
    (harr : ∀ elem num, P elem → P (.array elem num))
    (hstruct : ∀ name elems, (∀ T ∈ elems, P T) → P (.struct name elems))
    (hvec : ∀ elem num, P elem → P (.fixedVector elem num)) : ∀ T, P T := by
  intro T
  exact @Ty.rec P (fun Ts => ∀ T ∈ Ts, P T) hint hfp hptr
    (fun elem num ih => harr elem num ih)
    (fun name elems ih => hstruct name elems ih)
    (fun elem num ih => hvec elem num ih)
    (fun T h => by cases h)
    (fun head tail ih1 ih2 T h => by
      rcases List.mem_cons.mp h with h | h
      · exact h ▸ ih1
      · exact ih2 T h)
    T

/-! ## The mangler -/

theorem manglePrimitiveType_of_mangleable (T : Ty) :
    mangleable T = true → manglePrimitiveType T = .ok (typeCode T) := by
  induction T using Ty.induction with
  | hint bits =>
    intro h
    simp only [mangleable, supportedScalar, Bool.or_eq_true, decide_eq_true_eq] at h
    rcases h with (((h | h) | h) | h) | h <;> subst h <;> rfl
  | hfp k =>
    intro h
    cases k <;> first | rfl | (simp [mangleable, supportedScalar] at h)
  | hptr => intro h; simp [mangleable, supportedScalar] at h
  | harr elem num ih =>
    intro h
    simp only [mangleable] at h
    simp only [manglePrimitiveType, ih h, typeCode]
  | hstruct name elems _ => intro _; rfl
  | hvec elem num ih =>
    intro h
    simp only [mangleable] at h
    simp only [manglePrimitiveType, ih h, typeCode]

theorem mangleParams_of_mangleable (Params : List Ty) :
    ∀ Res : String, (∀ T ∈ Params, mangleable T = true) →
      mangleParams Params Res = .ok (Res ++ typeCodes Params) := by
  induction Params with
  | nil => intro Res _; simp [mangleParams, typeCodes]
  | cons T rest ih =>
    intro Res h
    have hT := manglePrimitiveType_of_mangleable T (h T (List.mem_cons_self _ _))
    have hrest := ih (Res ++ typeCode T) (fun U hU => h U (List.mem_cons_of_mem _ hU))
    simp only [mangleParams, hT, hrest, typeCodes, String.append_assoc]

/-- C10. For every base name and every list of parameter types the mangler
accepts, `mangleFuncItanium` returns `_Z`, the decimal length of the base name,
the base name and then the codes of the parameters in order; the scalar
intrinsic over `(i32, i32)` is `_Z20__spirv_SpecConstantii` and the composite
intrinsic over two `i32` is `_Z29__spirv_SpecConstantCompositeii`. -/
theorem mangleFuncItanium_format :
    (∀ (BaseName : String) (Params : List Ty), (∀ T ∈ Params, mangleable T = true) →
      mangleFuncItanium BaseName Params = .ok (mangledName BaseName Params)) ∧
    mangleFuncItanium SPIRV_GET_SPEC_CONST_VAL [.integer 32, .integer 32] =
      .ok "_Z20__spirv_SpecConstantii" ∧
    mangleFuncItanium SPIRV_GET_SPEC_CONST_COMPOSITE [.integer 32, .integer 32] =
      .ok "_Z29__spirv_SpecConstantCompositeii" := by
  refine ⟨?_, by decide, by decide⟩
  intro BaseName Params h
  simp only [mangleFuncItanium, mangledName, mangleParams_of_mangleable Params _ h]

/-- C10 at a parameter list with an array, a vector, a struct and a bool. -/
theorem mangleFuncItanium_format_witness :
    (∀ T ∈ [Ty.array (.integer 8) 3, .fixedVector (.fp .double) 4, .struct "S" [.pointer],
        .integer 1], mangleable T = true) ∧
    mangleFuncItanium "__spirv_SpecConstantComposite"
        [.array (.integer 8) 3, .fixedVector (.fp .double) 4, .struct "S" [.pointer], .integer 1] =
      .ok "_Z29__spirv_SpecConstantCompositeAaDv4_dSb" :=
  ⟨by decide, (mangleFuncItanium_format.1 "__spirv_SpecConstantComposite"
    [.array (.integer 8) 3, .fixedVector (.fp .double) 4, .struct "S" [.pointer], .integer 1]
    (by decide)).trans (by decide)⟩

/-- C9. Two different parameter lists with one mangled name: the code of an
array leaves out the element count, so `[2 x i32]` and `[3 x i32]` are both
`Ai`, while the fixed vector branch does encode its count. -/
theorem mangleFuncItanium_array_collision :
    [Ty.array (.integer 32) 2] ≠ [Ty.array (.integer 32) 3] ∧
    mangleFuncItanium SPIRV_GET_SPEC_CONST_COMPOSITE [.array (.integer 32) 2] =
      .ok "_Z29__spirv_SpecConstantCompositeAi" ∧
    mangleFuncItanium SPIRV_GET_SPEC_CONST_COMPOSITE [.array (.integer 32) 3] =
      .ok "_Z29__spirv_SpecConstantCompositeAi" ∧
    mangleFuncItanium SPIRV_GET_SPEC_CONST_COMPOSITE [.fixedVector (.integer 32) 2] =
      .ok "_Z29__spirv_SpecConstantCompositeDv2_i" ∧
    mangleFuncItanium SPIRV_GET_SPEC_CONST_COMPOSITE [.fixedVector (.integer 32) 3] =
      .ok "_Z29__spirv_SpecConstantCompositeDv3_i" := by
  refine ⟨?_, by decide, by decide, by decide, by decide⟩
  intro h
  have h1 := List.head_eq_of_cons_eq h
  injection h1 with _ h2
  exact absurd h2 (by decide)

/-- C7. The size recorded for a scalar leaf is its width in bits divided by 8
and rounded down: 1, 2, 4, 8 bytes for `i8`, `i16`, `i32`, `i64`, 4 and 8 for
`float` and `double`, but 0 for the 1-bit `i1`; in the struct `{i1, i32}` both
leaves therefore get offset 0. -/
theorem collect_leaf_sizes :
    collectCompositeElementsInfoRecursive (.integer 8) oneEntry = .ok (oneLeaf 1) ∧
    collectCompositeElementsInfoRecursive (.integer 16) oneEntry = .ok (oneLeaf 2) ∧
    collectCompositeElementsInfoRecursive (.integer 32) oneEntry = .ok (oneLeaf 4) ∧
    collectCompositeElementsInfoRecursive (.integer 64) oneEntry = .ok (oneLeaf 8) ∧
    collectCompositeElementsInfoRecursive (.fp .float) oneEntry = .ok (oneLeaf 4) ∧
    collectCompositeElementsInfoRecursive (.fp .double) oneEntry = .ok (oneLeaf 8) ∧
    collectCompositeElementsInfoRecursive (.integer 1) oneEntry = .ok (oneLeaf 0) ∧
    collectCompositeElementsInfoRecursive (.struct "S" [.integer 1, .integer 32])
        { Index := 0, Offset := 0, Result := List.replicate 2 { ID := 0, Offset := 0, Size := 0 } } =
      .ok { Index := 2, Offset := 4,
            Result := [{ ID := 0, Offset := 0, Size := 0 }, { ID := 0, Offset := 0, Size := 4 }] } := by
  refine ⟨?_, ?_, ?_, ?_, ?_, ?_, ?_, ?_⟩ <;> decide

/-! ## The default value -/

theorem length_repeatList {α : Type} (L : List α) (n : Nat) :
    (repeatList L n).length = n * L.length := by
  induction n with
  | zero => simp [repeatList]
  | succ n ih => simp [repeatList, ih, Nat.succ_mul, Nat.add_comm]

theorem leafCount_array (elem : Ty) (num : Nat) :
    leafCount (.array elem num) = num * leafCount elem := by
  simp [leafCount, leaves, length_repeatList]

theorem leafCount_fixedVector (elem : Ty) (num : Nat) :
    leafCount (.fixedVector elem num) = num * leafCount elem := by
  simp [leafCount, leaves, length_repeatList]

theorem Constant.leafCountList_replicate (c : Constant) (n : Nat) :
    Constant.leafCountList (List.replicate n c) = n * c.leafCount := by
  induction n with
  | zero => simp [Constant.leafCountList]
  | succ n ih => simp [List.replicate_succ, Constant.leafCountList, ih, Nat.succ_mul, Nat.add_comm]

theorem getDefaultCPPValueElements_spec (elems : List Ty)
    (ih : ∀ T ∈ elems, numeric T = true → ∃ c, getDefaultCPPValue T = .ok c ∧ IsDefaultOf T c) :
    numericElements elems = true →
      ∃ cs, getDefaultCPPValueElements elems = .ok cs ∧ zeroOfShapeElements elems cs = true ∧
        Constant.leafCountList cs = (leavesElements elems).length := by
  induction elems with
  | nil => intro _; exact ⟨[], rfl, rfl, rfl⟩
  | cons T rest ihl =>
    intro h
    simp only [numericElements, Bool.and_eq_true] at h
    obtain ⟨c, hc, _, hz, hl⟩ := ih T (List.mem_cons_self _ _) h.1
    obtain ⟨cs, hcs, hzs, hls⟩ := ihl (fun U hU => ih U (List.mem_cons_of_mem _ hU)) h.2
    refine ⟨c :: cs, ?_, ?_, ?_⟩
    · simp only [getDefaultCPPValueElements, hc, hcs]
    · simp only [zeroOfShapeElements, hz, hzs, Bool.and_self]
    · simp only [Constant.leafCountList, hl, hls, leavesElements, List.length_append, leafCount]

theorem getDefaultCPPValue_spec (T : Ty) :
    numeric T = true → ∃ c, getDefaultCPPValue T = .ok c ∧ IsDefaultOf T c := by
  induction T using Ty.induction with
  | hint bits =>
    intro _
    exact ⟨.int bits 0, rfl, rfl, by simp [zeroOfShape], rfl⟩
  | hfp k =>
    intro _
    exact ⟨.fp k 0, rfl, rfl, by simp [zeroOfShape], rfl⟩
  | hptr => intro h; simp [numeric] at h
  | harr elem num ih =>
    intro h
    simp only [numeric] at h
    obtain ⟨c, hc, _, hz, hl⟩ := ih h
    refine ⟨.array (.array elem num) (List.replicate num c), ?_, rfl, ?_, ?_⟩
    · simp only [getDefaultCPPValue, hc]
    · simp only [zeroOfShape, List.length_replicate, decide_True, Bool.true_and, List.all_eq_true]
      intro x hx
      rw [List.eq_of_mem_replicate hx]
      exact hz
    · simp only [Constant.leafCount, Constant.leafCountList_replicate, hl, leafCount_array]
  | hstruct name elems ih =>
    intro h
    simp only [numeric] at h
    obtain ⟨cs, hcs, hzs, hls⟩ := getDefaultCPPValueElements_spec elems ih h
    refine ⟨.struct (.struct name elems) cs, ?_, rfl, ?_, ?_⟩
    · simp only [getDefaultCPPValue, hcs]
    · simp only [zeroOfShape, hzs]
    · simp only [Constant.leafCount, hls, leafCount, leaves]
  | hvec elem num ih =>
    intro h
    simp only [numeric] at h
    obtain ⟨c, hc, _, hz, hl⟩ := ih h
    refine ⟨.vector (.fixedVector elem num) (List.replicate num c), ?_, rfl, ?_, ?_⟩
    · simp only [getDefaultCPPValue, hc]
    · simp only [zeroOfShape, List.length_replicate, decide_True, Bool.true_and, List.all_eq_true]
      intro x hx
      rw [List.eq_of_mem_replicate hx]
      exact hz
    · simp only [Constant.leafCount, Constant.leafCountList_replicate, hl, leafCount_fixedVector]

/-- C8. For every type all of whose scalar constituents are integers or
floating point numbers, `getDefaultCPPValue` returns a constant of that type
with exactly its shape (an array or vector of count `n` has `n` elements, a
struct one element per field in declaration order) whose scalar leaves are the
integer 0 or the floating point `+0.0` of the leaf type; the number of its
scalar leaves is the leaf count of the type. -/
theorem getDefaultCPPValue_zero (T : Ty) (h : numeric T = true) :
    ∃ c, getDefaultCPPValue T = .ok c ∧ c.getType = T ∧ zeroOfShape T c = true ∧
      c.leafCount = leafCount T :=
  getDefaultCPPValue_spec T h

/-- C8 at a struct of an `i32`, a vector of two `half` and an array of three `i7`. -/
theorem getDefaultCPPValue_zero_witness :
    numeric (.struct "S" [.integer 32, .fixedVector (.fp .half) 2, .array (.integer 7) 3]) = true ∧
    ∃ c, getDefaultCPPValue (.struct "S" [.integer 32, .fixedVector (.fp .half) 2,
          .array (.integer 7) 3]) = .ok c ∧
      c.getType = .struct "S" [.integer 32, .fixedVector (.fp .half) 2, .array (.integer 7) 3] ∧
      zeroOfShape (.struct "S" [.integer 32, .fixedVector (.fp .half) 2, .array (.integer 7) 3]) c
        = true ∧
      c.leafCount = leafCount (.struct "S" [.integer 32, .fixedVector (.fp .half) 2,
          .array (.integer 7) 3]) :=
  ⟨by decide, getDefaultCPPValue_zero _ (by decide)⟩

/-! ## The flattener -/

theorem collectLeaves_append (A B : List Ty) (s : CollectState) :
    collectLeaves (A ++ B) s =
      match collectLeaves A s with
      | .error e => .error e
      | .ok s1 => collectLeaves B s1 := by
  induction A generalizing s with
  | nil => rfl
  | cons T rest ih =>
    simp only [List.cons_append, collectLeaves]
    cases collectScalar T s with
    | error e => rfl
    | ok s1 => exact ih s1

theorem loopN_collectLeaves (L : List Ty) (n : Nat) (s : CollectState) :
    loopN (fun s1 => collectLeaves L s1) n s = collectLeaves (repeatList L n) s := by
  induction n generalizing s with
  | zero => rfl
  | succ n ih =>
    simp only [loopN, repeatList, collectLeaves_append]
    cases collectLeaves L s with
    | error e => rfl
    | ok s1 => exact ih s1

theorem collectElements_eq_collectLeaves (elems : List Ty)
    (ih : ∀ T ∈ elems, ∀ s, collectCompositeElementsInfoRecursive T s = collectLeaves (leaves T) s)
    (s : CollectState) :
    collectCompositeElementsInfoElements elems s = collectLeaves (leavesElements elems) s := by
  induction elems generalizing s with
  | nil => rfl
  | cons T rest ihl =>
    simp only [collectCompositeElementsInfoElements, leavesElements, collectLeaves_append,
      ih T (List.mem_cons_self _ _)]
    cases collectLeaves (leaves T) s with
    | error e => rfl
    | ok s1 => exact ihl (fun U hU => ih U (List.mem_cons_of_mem _ hU)) s1

/-- The recursion over the type does what the scalar branch does on the leaves
in depth-first order. -/
theorem collect_eq_collectLeaves (T : Ty) :
    ∀ s, collectCompositeElementsInfoRecursive T s = collectLeaves (leaves T) s := by
  induction T using Ty.induction with
  | hint bits =>
    intro s
    simp only [collectCompositeElementsInfoRecursive, leaves, collectLeaves]
    cases collectScalar (.integer bits) s <;> rfl
  | hfp k =>
    intro s
    simp only [collectCompositeElementsInfoRecursive, leaves, collectLeaves]
    cases collectScalar (.fp k) s <;> rfl
  | hptr =>
    intro s
    simp only [collectCompositeElementsInfoRecursive, leaves, collectLeaves]
    cases collectScalar .pointer s <;> rfl
  | harr elem num ih =>
    intro s
    simp only [collectCompositeElementsInfoRecursive, leaves, ← loopN_collectLeaves]
    congr 1
    funext s1
    exact ih s1
  | hstruct name elems ih =>
    intro s
    simp only [collectCompositeElementsInfoRecursive, leaves]
    exact collectElements_eq_collectLeaves elems ih s
  | hvec elem num ih =>
    intro s
    simp only [collectCompositeElementsInfoRecursive, leaves, ← loopN_collectLeaves]
    congr 1
    funext s1
    exact ih s1

theorem set_length_append {α : Type} (done : List α) (p d : α) (ps : List α) :
    (done ++ p :: ps).set done.length d = done ++ d :: ps := by
  induction done with
  | nil => rfl
  | cons a rest ih => simp only [List.cons_append, List.length_cons, List.set_cons_succ, ih]

/-- Closed form of the flattener on a list of leaves, with the arithmetic of
the code, as long as `Index` stays below `2 ^ 32`. -/
theorem collectLeaves_closed (L : List Ty) :
    ∀ (done pending : List CompositeSpecConstElementDescriptor) (Offset : Nat),
      L.length ≤ pending.length → done.length + L.length < UINT_RANGE →
      collectLeaves L { Index := done.length, Offset := Offset, Result := done ++ pending } =
        .ok { Index := done.length + L.length, Offset := offsetAfter Offset L,
              Result := done ++ recordedFrom Offset L ++ pending.drop L.length } := by
  induction L with
  | nil =>
    intro done pending Offset _ _
    simp [collectLeaves, offsetAfter, recordedFrom]
  | cons T rest ih =>
    intro done pending Offset hlen hlt
    cases pending with
    | nil => simp at hlen
    | cons p ps =>
      simp only [List.length_cons] at hlen hlt
      have hidx : done.length < (done ++ p :: ps).length := by
        simp only [List.length_append, List.length_cons]; omega
      have hwrap : toUnsigned (done.length + 1) = (done ++ [recorded Offset T]).length := by
        simp only [toUnsigned, List.length_append, List.length_cons, List.length_nil]
        exact Nat.mod_eq_of_lt (by omega)
      have hstep : collectScalar T (CollectState.mk done.length Offset (done ++ p :: ps)) =
          .ok (CollectState.mk (done ++ [recorded Offset T]).length
                (toUnsigned (Offset + toUnsigned (leafSize T)))
                ((done ++ [recorded Offset T]) ++ ps)) := by
        simp only [collectScalar, hidx, if_true, set_length_append, hwrap, leafSize, recorded,
          List.append_assoc, List.singleton_append]
      have hlen2 : (done ++ [recorded Offset T]).length + rest.length < UINT_RANGE := by
        simp only [List.length_append, List.length_cons, List.length_nil]
        omega
      have e1 : (done ++ [recorded Offset T]).length + rest.length =
          done.length + (rest.length + 1) := by
        simp only [List.length_append, List.length_cons, List.length_nil]
        omega
      simp only [collectLeaves, hstep]
      rw [ih _ ps _ (by omega) hlen2]
      simp only [e1, offsetAfter, recordedFrom, List.length_cons, List.drop_succ_cons,
        List.append_assoc, List.singleton_append]

theorem offsetAfter_eq (L : List Ty) :
    ∀ Offset, offsetAfter Offset L = toUnsigned (toUnsigned Offset + (L.map leafSize).sum) ∨
      (L = [] ∧ offsetAfter Offset L = Offset) := by
  induction L with
  | nil => intro Offset; exact Or.inr ⟨rfl, rfl⟩
  | cons T rest ih =>
    intro Offset
    left
    simp only [offsetAfter, List.map_cons, List.sum_cons]
    rcases ih (toUnsigned (Offset + toUnsigned (leafSize T))) with h | ⟨h1, h2⟩
    · rw [h]
      simp only [toUnsigned, UINT_RANGE]
      omega
    · subst h1
      rw [h2]
      simp only [toUnsigned, UINT_RANGE, List.map_nil, List.sum_nil]
      omega
theorem sum_map_repeatList {α : Type} (f : α → Nat) (L : List α) (n : Nat) :
    ((repeatList L n).map f).sum = n * (L.map f).sum := by
  induction n with
  | zero => simp [repeatList]
  | succ n ih => simp [repeatList, ih, Nat.succ_mul, Nat.add_comm]

theorem totalSize_array (elem : Ty) (num : Nat) :
    totalSize (.array elem num) = num * totalSize elem := by
  simp only [totalSize, leaves, sum_map_repeatList]

theorem map_Size_recordedFrom (L : List Ty) :
    ∀ Offset, (recordedFrom Offset L).map (fun d => d.Size) =
      L.map (fun T => toUnsigned (leafSize T)) := by
  induction L with
  | nil => intro _; rfl
  | cons T rest ih => intro Offset; simp only [recordedFrom, List.map_cons, ih, recorded]

theorem recordedFrom_eq_flattenFrom (L : List Ty) :
    ∀ Offset, Offset + (L.map leafSize).sum < UINT_RANGE →
      recordedFrom Offset L = flattenFrom Offset L := by
  induction L with
  | nil => intro _ _; rfl
  | cons T rest ih =>
    intro Offset h
    simp only [List.map_cons, List.sum_cons] at h
    have h1 : toUnsigned (leafSize T) = leafSize T := Nat.mod_eq_of_lt (by omega)
    have h2 : toUnsigned (Offset + leafSize T) = Offset + leafSize T :=
      Nat.mod_eq_of_lt (by omega)
    simp only [recordedFrom, flattenFrom, recorded, h1, h2]
    rw [ih (Offset + leafSize T) (by omega)]

theorem offsetAfter_of_lt (L : List Ty) (h : (L.map leafSize).sum < UINT_RANGE) :
    offsetAfter 0 L = (L.map leafSize).sum := by
  rcases offsetAfter_eq L 0 with h1 | ⟨h1, h2⟩
  · rw [h1]
    simp only [toUnsigned, UINT_RANGE] at *
    omega
  · subst h1
    exact h2

theorem length_flattenFrom (L : List Ty) : ∀ Offset, (flattenFrom Offset L).length = L.length := by
  induction L with
  | nil => intro _; rfl
  | cons T rest ih => intro Offset; simp only [flattenFrom, List.length_cons, ih]

theorem ID_flattenFrom (L : List Ty) : ∀ Offset, ∀ d ∈ flattenFrom Offset L, d.ID = 0 := by
  induction L with
  | nil => intro _ d h; cases h
  | cons T rest ih =>
    intro Offset d h
    simp only [flattenFrom, List.mem_cons] at h
    rcases h with h | h
    · rw [h]
    · exact ih _ d h

theorem map_Size_flattenFrom (L : List Ty) :
    ∀ Offset, (flattenFrom Offset L).map (fun d => d.Size) = L.map leafSize := by
  induction L with
  | nil => intro _; rfl
  | cons T rest ih => intro Offset; simp only [flattenFrom, List.map_cons, ih]

theorem Offset_flattenFrom (L : List Ty) :
    ∀ Offset k d, (flattenFrom Offset L)[k]? = some d →
      d.Offset = Offset + (((flattenFrom Offset L).take k).map (fun x => x.Size)).sum := by
  induction L with
  | nil => intro _ k d h; simp [flattenFrom] at h
  | cons T rest ih =>
    intro Offset k d h
    cases k with
    | zero =>
      simp only [flattenFrom, List.getElem?_cons_zero, Option.some.injEq] at h
      simp [← h]
    | succ k =>
      simp only [flattenFrom, List.getElem?_cons_succ] at h
      simp only [flattenFrom, List.take_succ_cons, List.map_cons, List.sum_cons, ih _ k d h]
      omega

theorem leaves_array (elem : Ty) (num : Nat) :
    leaves (.array elem num) = repeatList (leaves elem) num := by
  simp only [leaves]

/-- The flattener on a buffer of `leafCount T` entries, with the arithmetic of
the code, for a type with fewer than `2 ^ 32` leaves. -/
theorem collect_closed (T : Ty) (hn : leafCount T < UINT_RANGE) :
    ∃ s, collectCompositeElementsInfoRecursive T (initialCollectState (leafCount T)) = .ok s ∧
      s.Index = leafCount T ∧ s.Offset = toUnsigned (totalSize T) ∧
      s.Result = recordedFrom 0 (leaves T) := by
  have h := collectLeaves_closed (leaves T) [] (List.replicate (leafCount T) emptyDescriptor) 0
    (by simp only [List.length_replicate, leafCount, le_refl])
    (by simpa only [List.length_nil, Nat.zero_add] using hn)
  simp only [List.length_nil, Nat.zero_add, List.nil_append] at h
  have hdrop : (List.replicate (leafCount T) emptyDescriptor).drop (leaves T).length = [] := by
    apply List.drop_eq_nil_of_le
    simp only [List.length_replicate, leafCount, le_refl]
  rw [hdrop, List.append_nil] at h
  refine ⟨_, (collect_eq_collectLeaves T _).trans h, rfl, ?_, rfl⟩
  rcases offsetAfter_eq (leaves T) 0 with h1 | ⟨h1, h2⟩
  · exact h1.trans (by simp [toUnsigned, totalSize])
  · show offsetAfter 0 (leaves T) = toUnsigned (totalSize T)
    rw [h2]
    simp [totalSize, h1, toUnsigned]

/-- C6, as amended. For every type with fewer than `2 ^ 32` scalar leaves whose
leaf sizes sum to less than `2 ^ 32`, the flattener started with `Index = 0`,
`Offset = 0` and a buffer of `leafCount T` entries returns with the buffer equal
to the reference list `flatten T`: one descriptor per scalar leaf in
depth-first order, each with `ID = 0` and the size of its leaf, the `Offset` of
each equal to the sum of the sizes of the descriptors before it; `Index` ends
at the leaf count and `Offset` at the sum of all sizes. -/
theorem collect_eq_flatten (T : Ty) (hn : leafCount T < UINT_RANGE)
    (hs : totalSize T < UINT_RANGE) :
    ∃ s, collectCompositeElementsInfoRecursive T (initialCollectState (leafCount T)) = .ok s ∧
      s.Result = flatten T ∧ s.Result.length = leafCount T ∧ s.Index = leafCount T ∧
      (∀ d ∈ s.Result, d.ID = 0) ∧
      s.Result.map (fun d => d.Size) = (leaves T).map leafSize ∧
      (∀ k d, s.Result[k]? = some d →
        d.Offset = ((s.Result.take k).map (fun x => x.Size)).sum) ∧
      s.Offset = (s.Result.map (fun d => d.Size)).sum := by
  obtain ⟨s, h, hi, ho, hr⟩ := collect_closed T hn
  rw [recordedFrom_eq_flattenFrom _ 0 (by simpa [totalSize] using hs)] at hr
  have ho2 : s.Offset = totalSize T := ho.trans (Nat.mod_eq_of_lt hs)
  refine ⟨s, h, hr, ?_, hi, ?_, ?_, ?_, ?_⟩
  · rw [hr]; exact length_flattenFrom _ _
  · rw [hr]; exact ID_flattenFrom _ _
  · rw [hr]; exact map_Size_flattenFrom _ _
  · intro k d hk
    rw [hr] at hk ⊢
    simpa using Offset_flattenFrom (leaves T) 0 k d hk
  · rw [ho2, hr, map_Size_flattenFrom, totalSize]

/-- C6 at the struct `{i32, <2 x float>, [3 x i8]}`: six descriptors, 15 bytes. -/
theorem collect_eq_flatten_witness :
    leafCount (.struct "S" [.integer 32, .fixedVector (.fp .float) 2, .array (.integer 8) 3])
      < UINT_RANGE ∧
    totalSize (.struct "S" [.integer 32, .fixedVector (.fp .float) 2, .array (.integer 8) 3])
      < UINT_RANGE ∧
    ∃ s, collectCompositeElementsInfoRecursive
        (.struct "S" [.integer 32, .fixedVector (.fp .float) 2, .array (.integer 8) 3])
        (initialCollectState 6) = .ok s ∧
      s.Result = [⟨0, 0, 4⟩, ⟨0, 4, 4⟩, ⟨0, 8, 4⟩, ⟨0, 12, 1⟩, ⟨0, 13, 1⟩, ⟨0, 14, 1⟩] ∧
      s.Offset = 15 := by
  refine ⟨by decide, by decide, ?_⟩
  obtain ⟨s, h1, h2, _, _, _, _, _, h8⟩ := collect_eq_flatten
    (.struct "S" [.integer 32, .fixedVector (.fp .float) 2, .array (.integer 8) 3])
    (by decide) (by decide)
  refine ⟨s, h1, h2.trans (by decide), ?_⟩
  rw [h8, h2]
  decide

theorem repeatList_succ_right {α : Type} (L : List α) (n : Nat) :
    repeatList L (n + 1) = repeatList L n ++ L := by
  induction n with
  | zero => simp [repeatList]
  | succ n ih =>
    calc repeatList L (n + 1 + 1) = L ++ repeatList L (n + 1) := rfl
      _ = L ++ (repeatList L n ++ L) := by rw [ih]
      _ = (L ++ repeatList L n) ++ L := (List.append_assoc _ _ _).symm
      _ = repeatList L (n + 1) ++ L := rfl

theorem recordedFrom_append (A B : List Ty) :
    ∀ Offset, recordedFrom Offset (A ++ B) =
      recordedFrom Offset A ++ recordedFrom (offsetAfter Offset A) B := by
  induction A with
  | nil => intro _; rfl
  | cons T rest ih =>
    intro Offset
    show recorded Offset T :: recordedFrom _ (rest ++ B) = _
    rw [ih]
    rfl

theorem length_recordedFrom (L : List Ty) :
    ∀ Offset, (recordedFrom Offset L).length = L.length := by
  induction L with
  | nil => intro _; rfl
  | cons T rest ih => intro Offset; simp only [recordedFrom, List.length_cons, ih]

/-- The descriptor the flattener records for the last element of an array of
`n + 1` elements of `i64`, and the sizes recorded before it. -/
theorem collect_array_i64 (n : Nat) (hn : n + 1 < UINT_RANGE) :
    ∃ s d, collectCompositeElementsInfoRecursive (.array (.integer 64) (n + 1))
        (initialCollectState (leafCount (.array (.integer 64) (n + 1)))) = .ok s ∧
      s.Result[n]? = some d ∧ d.Offset = toUnsigned (n * 8) ∧
      ((s.Result.take n).map (fun x => x.Size)).sum = n * 8 := by
  have hleaf : leafCount (.array (.integer 64) (n + 1)) = n + 1 := by
    rw [leafCount_array]
    exact Nat.mul_one _
  obtain ⟨s, h, _, _, hr⟩ := collect_closed (.array (.integer 64) (n + 1)) (by rw [hleaf]; exact hn)
  have hA : (recordedFrom 0 (repeatList [Ty.integer 64] n)).length = n := by
    rw [length_recordedFrom, length_repeatList]
    exact Nat.mul_one _
  have hsum : ((repeatList [Ty.integer 64] n).map leafSize).sum = n * 8 := by
    rw [sum_map_repeatList]
    rfl
  have hoff : offsetAfter 0 (repeatList [Ty.integer 64] n) = toUnsigned (n * 8) := by
    rcases offsetAfter_eq (repeatList [Ty.integer 64] n) 0 with h1 | ⟨h1, h2⟩
    · rw [h1, hsum]
      simp [toUnsigned]
    · rw [h2]
      have h3 := hsum
      rw [h1] at h3
      simp only [List.map_nil, List.sum_nil] at h3
      simp [← h3, toUnsigned]
  have hres : s.Result = recordedFrom 0 (repeatList [Ty.integer 64] n) ++
      [recorded (toUnsigned (n * 8)) (.integer 64)] := by
    have hl : leaves (.array (.integer 64) (n + 1)) =
        repeatList [Ty.integer 64] n ++ [Ty.integer 64] := by
      rw [leaves_array, repeatList_succ_right]
      rfl
    rw [hr, hl, recordedFrom_append, hoff]
    rfl
  refine ⟨s, recorded (toUnsigned (n * 8)) (.integer 64), h, ?_, rfl, ?_⟩
  · rw [hres, List.getElem?_append_right (by rw [hA]), hA, Nat.sub_self]
    rfl
  · rw [hres, List.take_left' hA, map_Size_recordedFrom, sum_map_repeatList]
    have h64 : toUnsigned (leafSize (.integer 64)) = 8 := by decide
    simp [h64]

/-- C6, counterexample. For the array of `2 ^ 29 + 1` elements of `i64` the
flattener, started with `Index = 0`, `Offset = 0` and a buffer of `leafCount`
entries, records `Offset = 0` in the last descriptor, while the sizes of the
`2 ^ 29` descriptors before it sum to `2 ^ 32`. -/
theorem collect_offset_wraps :
    ∃ s d, collectCompositeElementsInfoRecursive (.array (.integer 64) 536870913)
        (initialCollectState (leafCount (.array (.integer 64) 536870913))) = .ok s ∧
      s.Result[536870912]? = some d ∧ d.Offset = 0 ∧
      ((s.Result.take 536870912).map (fun x => x.Size)).sum = 4294967296 :=
  collect_array_i64 536870912 (by decide)

/-! ## Names of the emitted calls -/

theorem occursIn_nil (s : List Char) : occursIn [] s = true := by
  cases s <;> rfl

theorem isPrefixOf_append_right (p s t : List Char) :
    p.isPrefixOf s = true → p.isPrefixOf (s ++ t) = true := by
  induction p generalizing s with
  | nil => intro _; simp [List.isPrefixOf]
  | cons a p ih =>
    intro h
    cases s with
    | nil => simp [List.isPrefixOf] at h
    | cons b s =>
      simp only [List.isPrefixOf, Bool.and_eq_true, List.cons_append] at h ⊢
      exact ⟨h.1, ih s h.2⟩

theorem occursIn_append_right (p s t : List Char) :
    occursIn p s = true → occursIn p (s ++ t) = true := by
  induction s with
  | nil =>
    intro h
    simp only [occursIn, List.isEmpty_eq_true] at h
    subst h
    exact occursIn_nil _
  | cons c cs ih =>
    intro h
    simp only [occursIn, Bool.or_eq_true, List.cons_append] at h ⊢
    rcases h with h | h
    · exact Or.inl (isPrefixOf_append_right _ (c :: cs) t h)
    · exact Or.inr (ih h)

theorem contains_append_right (a r p : String) :
    contains a p = true → contains (a ++ r) p = true := by
  intro h
  simp only [contains, String.data_append] at h ⊢
  exact occursIn_append_right _ _ _ h

theorem mangleParams_extends (Params : List Ty) :
    ∀ Res name, mangleParams Params Res = .ok name → ∃ r : String, name = Res ++ r := by
  induction Params with
  | nil =>
    intro Res name h
    simp only [mangleParams, Except.ok.injEq] at h
    exact ⟨"", by rw [← h]; simp⟩
  | cons T rest ih =>
    intro Res name h
    simp only [mangleParams] at h
    cases hT : manglePrimitiveType T with
    | error e => simp [hT] at h
    | ok r =>
      simp only [hT] at h
      obtain ⟨r1, h1⟩ := ih _ _ h
      exact ⟨r ++ r1, by rw [h1, String.append_assoc]⟩

theorem composite_callee (Params : List Ty) (name : String)
    (h : mangleFuncItanium SPIRV_GET_SPEC_CONST_COMPOSITE Params = .ok name) :
    contains name SPIRV_GET_SPEC_CONST_COMPOSITE = true := by
  obtain ⟨r, hr⟩ := mangleParams_extends _ _ _ h
  rw [hr]
  exact contains_append_right _ _ _ (by decide)

theorem getDefaultCPPValue_getType (T : Ty) (c : Constant) (h : getDefaultCPPValue T = .ok c) :
    c.getType = T := by
  cases T with
  | integer bits => simp only [getDefaultCPPValue, Except.ok.injEq] at h; subst h; rfl
  | fp k => simp only [getDefaultCPPValue, Except.ok.injEq] at h; subst h; rfl
  | pointer => simp [getDefaultCPPValue] at h
  | array elem num =>
    simp only [getDefaultCPPValue] at h
    cases h1 : getDefaultCPPValue elem with
    | error e => simp [h1] at h
    | ok c1 => simp only [h1, Except.ok.injEq] at h; subst h; rfl
  | struct name elems =>
    simp only [getDefaultCPPValue] at h
    cases h1 : getDefaultCPPValueElements elems with
    | error e => simp [h1] at h
    | ok c1 => simp only [h1, Except.ok.injEq] at h; subst h; rfl
  | fixedVector elem num =>
    simp only [getDefaultCPPValue] at h
    cases h1 : getDefaultCPPValue elem with
    | error e => simp [h1] at h
    | ok c1 => simp only [h1, Except.ok.injEq] at h; subst h; rfl

theorem mangle_scalar_code (T : Ty) (hT : isComposite T = false) (r : String)
    (h : manglePrimitiveType T = .ok r) : r ∈ ["f", "d", "b", "a", "s", "i", "x"] := by
  cases T with
  | integer bits =>
    simp only [manglePrimitiveType] at h
    split_ifs at h <;> simp only [Except.ok.injEq, reduceCtorEq] at h <;> subst h <;> decide
  | fp k =>
    cases k <;> simp only [manglePrimitiveType, Except.ok.injEq, reduceCtorEq] at h <;>
      subst h <;> decide
  | pointer => simp [manglePrimitiveType] at h
  | array _ _ => simp [isComposite] at hT
  | struct _ _ => simp [isComposite] at hT
  | fixedVector _ _ => simp [isComposite] at hT

theorem scalar_callee (T : Ty) (hT : isComposite T = false) (Def : Constant)
    (hd : getDefaultCPPValue T = .ok Def) (name : String)
    (h : mangleFuncItanium SPIRV_GET_SPEC_CONST_VAL [.integer 32, Def.getType] = .ok name) :
    contains name SPIRV_GET_SPEC_CONST_COMPOSITE = false ∧
      contains name SPIRV_GET_SPEC_CONST_VAL = true := by
  rw [getDefaultCPPValue_getType T Def hd] at h
  have hi : manglePrimitiveType (.integer 32) = .ok "i" := by decide
  simp only [mangleFuncItanium, mangleParams, hi] at h
  cases hr : manglePrimitiveType T with
  | error e => simp [hr] at h
  | ok r =>
    simp only [hr, Except.ok.injEq] at h
    have hmem := mangle_scalar_code T hT r hr
    simp only [List.mem_cons, List.mem_singleton, List.not_mem_nil, or_false] at hmem
    rcases hmem with h1 | h1 | h1 | h1 | h1 | h1 | h1 <;> subst h1 <;> subst h <;> decide
/-! ## The emitter: what a successful call does -/

theorem leaves_of_scalar (T : Ty) (hT : isComposite T = false) : leaves T = [T] := by
  cases T <;> first | rfl | (simp [isComposite] at hT)

theorem leafCount_of_scalar (T : Ty) (hT : isComposite T = false) : leafCount T = 1 := by
  simp only [leafCount, leaves_of_scalar T hT, List.length_singleton]

theorem leafCount_struct (name : String) (elems : List Ty) :
    leafCount (.struct name elems) = (leavesElements elems).length := by
  simp only [leafCount, leaves]

theorem emitCall_spec (RetTy : Ty) (Base : String) (Args : List Value) (Out : List CallInst)
    (I : Value) (Out1 : List CallInst) (h : emitCall RetTy Base Args Out = .ok (I, Out1)) :
    ∃ name, mangleFuncItanium Base (Args.map Value.getType) = .ok name ∧
      I = .inst Out.length RetTy ∧ Out1 = Out ++ [CallInst.mk RetTy name Args none] := by
  simp only [emitCall] at h
  cases hm : mangleFuncItanium Base (Args.map Value.getType) with
  | error e => simp [hm] at h
  | ok name =>
    simp only [hm, Except.ok.injEq, Prod.mk.injEq] at h
    exact ⟨name, rfl, h.1.symm, h.2.symm⟩

theorem emitScalar_post (T : Ty) (hT : isComposite T = false) (IsNew : Bool) (s : EmitState)
    (I : Value) (s1 : EmitState) (h : emitScalar T IsNew s = .ok (I, s1)) :
    EmitPost T IsNew s I s1 := by
  simp only [emitScalar] at h
  have key : ∀ IDs, (if (IsNew && !s.IsFirstElement) = true then
        match s.IDs.getLast? with
        | none => (Except.error (.undefined "back() of an empty vector") : Res (List Nat))
        | some b => .ok (s.IDs ++ [toUnsigned (b + 1)])
      else .ok s.IDs) = .ok IDs → (IDs, false) = idStep IsNew (s.IDs, s.IsFirstElement) := by
    intro IDs hp
    simp only [idStep]
    split at hp
    · rename_i hc
      cases hl : s.IDs.getLast? with
      | none => simp [hl] at hp
      | some b =>
        simp only [hl, Except.ok.injEq] at hp
        have hb : s.IDs.getLastD 0 = b := by
          rw [List.getLastD_eq_getLast?, hl]; rfl
        simp only [hc, if_true, hb, hp]
    · rename_i hc
      simp only [Except.ok.injEq] at hp
      simp only [hc, hp]
      rfl
  split at h
  · simp at h
  · rename_i IDs hp
    split at h
    · simp at h
    · rename_i b hb
      cases he : emitSpecConstant b T s.Out with
      | error e => simp [he] at h
      | ok r =>
        obtain ⟨I1, Out1⟩ := r
        simp only [he, Except.ok.injEq, Prod.mk.injEq] at h
        obtain ⟨hI, hs⟩ := h
        subst hI
        subst hs
        simp only [emitSpecConstant] at he
        cases hd : getDefaultCPPValue T with
        | error e => simp [hd] at he
        | ok Def =>
          simp only [hd] at he
          obtain ⟨name, hm, hI, hOut⟩ := emitCall_spec _ _ _ _ _ _ he
          refine ⟨?_, [], CallInst.mk T name [.constInt32 b, .constant Def] none, ?_, ?_, ?_,
            rfl, rfl, ?_⟩
          · rw [leafCount_of_scalar T hT]
            exact key IDs hp
          · simp only [hOut, List.append_nil]
          · simp only [hI, List.append_nil]
          · intro c hc; cases hc
          · simp only [CalleeFor, hT]
            exact scalar_callee T hT Def hd name hm

theorem LoopIteration_spec (f : EmitState → Res (Value × EmitState))
    (p p1 : List Value × EmitState) (h : LoopIteration f p = .ok p1) :
    ∃ I s1, f p.2 = .ok (I, s1) ∧ p1 = (p.1 ++ [I], s1) := by
  simp only [LoopIteration] at h
  cases hf : f p.2 with
  | error e => simp [hf] at h
  | ok r =>
    obtain ⟨I, s1⟩ := r
    simp only [hf, Except.ok.injEq] at h
    exact ⟨I, s1, rfl, h.symm⟩

theorem emitComposite_spec (T : Ty) (hT : isComposite T = true) (p : List Value × EmitState)
    (I : Value) (s1 : EmitState) (h : emitComposite T p = .ok (I, s1)) :
    s1.IDs = p.2.IDs ∧ s1.IsFirstElement = p.2.IsFirstElement ∧
    ∃ top, s1.Out = p.2.Out ++ [top] ∧ I = .inst p.2.Out.length T ∧ top.MD = none ∧
      top.Ty = T ∧ CalleeFor T top.Callee := by
  simp only [emitComposite, emitSpecConstantComposite] at h
  cases he : emitCall T SPIRV_GET_SPEC_CONST_COMPOSITE p.1 p.2.Out with
  | error e => simp [he] at h
  | ok r =>
    obtain ⟨I1, Out1⟩ := r
    simp only [he, Except.ok.injEq, Prod.mk.injEq] at h
    obtain ⟨hI, hs⟩ := h
    subst hI
    subst hs
    obtain ⟨name, hm, hI, hOut⟩ := emitCall_spec _ _ _ _ _ _ he
    refine ⟨rfl, rfl, CallInst.mk T name p.1 none, hOut, hI, rfl, rfl, ?_⟩
    simp only [CalleeFor, hT, if_true]
    exact composite_callee _ _ hm

theorem ExtendsOut.refl (s : EmitState) : ExtendsOut s s :=
  ⟨[], (List.append_nil _).symm, fun _ h => by cases h⟩

theorem ExtendsOut.trans {s s1 s2 : EmitState} (h1 : ExtendsOut s s1) (h2 : ExtendsOut s1 s2) :
    ExtendsOut s s2 := by
  obtain ⟨n1, e1, m1⟩ := h1
  obtain ⟨n2, e2, m2⟩ := h2
  refine ⟨n1 ++ n2, by rw [e2, e1, List.append_assoc], ?_⟩
  intro c hc
  rcases List.mem_append.mp hc with h | h
  · exact m1 c h
  · exact m2 c h

theorem EmitPost.extends {T : Ty} {IsNew : Bool} {s s1 : EmitState} {I : Value}
    (h : EmitPost T IsNew s I s1) : ExtendsOut s s1 := by
  obtain ⟨_, before, top, hOut, _, hb, ht, _⟩ := h
  refine ⟨before ++ [top], by rw [hOut, List.append_assoc], ?_⟩
  intro c hc
  rcases List.mem_append.mp hc with h | h
  · exact hb c h
  · rw [List.mem_singleton.mp h]; exact ht

theorem loopN_emit_post (elem : Ty) (IsNew : Bool)
    (ih : ∀ s I s1, emitSpecConstantRecursiveImpl elem IsNew s = .ok (I, s1) →
      EmitPost elem IsNew s I s1) (n : Nat) :
    ∀ p p1, loopN (LoopIteration (fun s1 => emitSpecConstantRecursiveImpl elem IsNew s1)) n p
        = .ok p1 →
      (p1.2.IDs, p1.2.IsFirstElement) =
        (idStep IsNew)^[n * leafCount elem] (p.2.IDs, p.2.IsFirstElement) ∧
      ExtendsOut p.2 p1.2 := by
  induction n with
  | zero =>
    intro p p1 h
    simp only [loopN, Except.ok.injEq] at h
    subst h
    simp only [Nat.zero_mul, Function.iterate_zero, id_eq]
    exact ⟨trivial, ExtendsOut.refl _⟩
  | succ n ihn =>
    intro p p1 h
    simp only [loopN] at h
    cases hb : LoopIteration (fun s1 => emitSpecConstantRecursiveImpl elem IsNew s1) p with
    | error e => simp [hb] at h
    | ok p2 =>
      simp only [hb] at h
      obtain ⟨I, s2, hf, hp2⟩ := LoopIteration_spec _ _ _ hb
      have hpost := ih _ _ _ hf
      obtain ⟨hids, hext⟩ := ihn p2 p1 h
      subst hp2
      refine ⟨?_, hpost.extends.trans hext⟩
      rw [hids, hpost.1, ← Function.iterate_add_apply, Nat.succ_mul]

theorem emitElements_post (elems : List Ty) (IsNew : Bool)
    (ih : ∀ T ∈ elems, ∀ s I s1, emitSpecConstantRecursiveImpl T IsNew s = .ok (I, s1) →
      EmitPost T IsNew s I s1) :
    ∀ p p1, emitSpecConstantRecursiveElements elems IsNew p = .ok p1 →
      (p1.2.IDs, p1.2.IsFirstElement) =
        (idStep IsNew)^[(leavesElements elems).length] (p.2.IDs, p.2.IsFirstElement) ∧
      ExtendsOut p.2 p1.2 := by
  induction elems with
  | nil =>
    intro p p1 h
    simp only [emitSpecConstantRecursiveElements, Except.ok.injEq] at h
    subst h
    exact ⟨rfl, ExtendsOut.refl _⟩
  | cons T rest ihl =>
    intro p p1 h
    simp only [emitSpecConstantRecursiveElements] at h
    cases hb : LoopIteration (fun s1 => emitSpecConstantRecursiveImpl T IsNew s1) p with
    | error e => simp [hb] at h
    | ok p2 =>
      simp only [hb] at h
      obtain ⟨I, s2, hf, hp2⟩ := LoopIteration_spec _ _ _ hb
      have hpost := ih T (List.mem_cons_self _ _) _ _ _ hf
      obtain ⟨hids, hext⟩ := ihl (fun U hU => ih U (List.mem_cons_of_mem _ hU)) p2 p1 h
      subst hp2
      refine ⟨?_, hpost.extends.trans hext⟩
      rw [hids, hpost.1, ← Function.iterate_add_apply, leavesElements, List.length_append,
        leafCount, Nat.add_comm]

theorem emit_composite_post (T : Ty) (hT : isComposite T = true) (IsNew : Bool) (s : EmitState)
    (p : List Value × EmitState) (I : Value) (s1 : EmitState)
    (hids : (p.2.IDs, p.2.IsFirstElement) =
      (idStep IsNew)^[leafCount T] (s.IDs, s.IsFirstElement))
    (hext : ExtendsOut s p.2) (h : emitComposite T p = .ok (I, s1)) :
    EmitPost T IsNew s I s1 := by
  obtain ⟨h1, h2, top, hOut, hI, hmd, hty, hcal⟩ := emitComposite_spec T hT p I s1 h
  obtain ⟨new, hnew, hnone⟩ := hext
  refine ⟨?_, new, top, ?_, ?_, hnone, hmd, hty, hcal⟩
  · rw [h1, h2]; exact hids
  · rw [hOut, hnew]
  · rw [hI, hnew]

/-- A successful call of `emitSpecConstantRecursiveImpl` satisfies `EmitPost`. -/
theorem emitImpl_post (T : Ty) :
    ∀ IsNew s I s1, emitSpecConstantRecursiveImpl T IsNew s = .ok (I, s1) →
      EmitPost T IsNew s I s1 := by
  induction T using Ty.induction with
  | hint bits =>
    intro IsNew s I s1 h
    exact emitScalar_post (.integer bits) rfl _ _ _ _ (by simpa only [emitSpecConstantRecursiveImpl] using h)
  | hfp k =>
    intro IsNew s I s1 h
    exact emitScalar_post (.fp k) rfl _ _ _ _ (by simpa only [emitSpecConstantRecursiveImpl] using h)
  | hptr =>
    intro IsNew s I s1 h
    exact emitScalar_post .pointer rfl _ _ _ _ (by simpa only [emitSpecConstantRecursiveImpl] using h)
  | harr elem num ih =>
    intro IsNew s I s1 h
    simp only [emitSpecConstantRecursiveImpl] at h
    cases hl : loopN (LoopIteration
        (fun s1 => emitSpecConstantRecursiveImpl elem IsNew s1)) num ([], s) with
    | error e => simp [hl] at h
    | ok p =>
      simp only [hl] at h
      obtain ⟨hids, hext⟩ := loopN_emit_post elem IsNew (ih IsNew) num _ _ hl
      exact emit_composite_post (.array elem num) rfl IsNew s p I s1
        (by rw [leafCount_array]; exact hids) hext h
  | hstruct name elems ih =>
    intro IsNew s I s1 h
    simp only [emitSpecConstantRecursiveImpl] at h
    cases hl : emitSpecConstantRecursiveElements elems IsNew ([], s) with
    | error e => simp [hl] at h
    | ok p =>
      simp only [hl] at h
      obtain ⟨hids, hext⟩ := emitElements_post elems IsNew (fun T hT => ih T hT IsNew) _ _ hl
      exact emit_composite_post (.struct name elems) rfl IsNew s p I s1
        (by rw [leafCount_struct]; exact hids) hext h
  | hvec elem num ih =>
    intro IsNew s I s1 h
    simp only [emitSpecConstantRecursiveImpl] at h
    cases hl : loopN (LoopIteration
        (fun s1 => emitSpecConstantRecursiveImpl elem IsNew s1)) num ([], s) with
    | error e => simp [hl] at h
    | ok p =>
      simp only [hl] at h
      obtain ⟨hids, hext⟩ := loopN_emit_post elem IsNew (ih IsNew) num _ _ hl
      exact emit_composite_post (.fixedVector elem num) rfl IsNew s p I s1
        (by rw [leafCount_fixedVector]; exact hids) hext h

/-! ## The emitter: success on supported types -/

theorem supported_mangleable (T : Ty) : supported T = true → mangleable T = true := by
  induction T using Ty.induction with
  | hint bits => intro h; simpa only [supported, mangleable] using h
  | hfp k => intro h; simpa only [supported, mangleable] using h
  | hptr => intro h; simp [supported] at h
  | harr elem num ih => intro h; simp only [supported] at h; simpa only [mangleable] using ih h
  | hstruct name elems _ => intro _; rfl
  | hvec elem num ih => intro h; simp only [supported] at h; simpa only [mangleable] using ih h

theorem idStep_iterate_ne_nil (IsNew : Bool) (k : Nat) :
    ∀ p : List Nat × Bool, p.1 ≠ [] → ((idStep IsNew)^[k] p).1 ≠ [] := by
  induction k with
  | zero => intro p h; exact h
  | succ k ih =>
    intro p h
    rw [Function.iterate_succ_apply]
    apply ih
    simp only [idStep]
    split
    · simp
    · exact h

theorem EmitPost.ids_ne_nil {T : Ty} {IsNew : Bool} {s s1 : EmitState} {I : Value}
    (h : EmitPost T IsNew s I s1) (hne : s.IDs ≠ []) : s1.IDs ≠ [] := by
  have := idStep_iterate_ne_nil IsNew (leafCount T) (s.IDs, s.IsFirstElement) hne
  rw [← h.1] at this
  exact this

theorem EmitPost.getType {T : Ty} {IsNew : Bool} {s s1 : EmitState} {I : Value}
    (h : EmitPost T IsNew s I s1) : I.getType = T := by
  obtain ⟨_, before, top, _, hI, _⟩ := h
  rw [hI]
  rfl

theorem emitCall_ok (RetTy : Ty) (Base : String) (Args : List Value) (Out : List CallInst)
    (h : ∀ v ∈ Args, mangleable v.getType = true) : ∃ r, emitCall RetTy Base Args Out = .ok r := by
  have hm := mangleParams_of_mangleable (Args.map Value.getType)
    ("_Z" ++ toString Base.utf8ByteSize ++ Base) (by
      intro T hT
      obtain ⟨v, hv, rfl⟩ := List.mem_map.mp hT
      exact h v hv)
  simp only [emitCall, mangleFuncItanium, hm]
  exact ⟨_, rfl⟩

theorem emitScalar_ok (T : Ty) (hT : supportedScalar T = true) (IsNew : Bool) (s : EmitState)
    (hne : s.IDs ≠ []) : ∃ r, emitScalar T IsNew s = .ok r := by
  obtain ⟨b, hb⟩ : ∃ b, s.IDs.getLast? = some b := by
    cases hl : s.IDs.getLast? with
    | none => exact absurd (List.getLast?_eq_none_iff.mp hl) hne
    | some b => exact ⟨b, rfl⟩
  obtain ⟨Def, hd⟩ : ∃ Def, getDefaultCPPValue T = .ok Def := by
    cases T <;> first | exact ⟨_, rfl⟩ | (simp [supportedScalar] at hT)
  have hm : mangleable T = true := by
    cases T <;> first | exact hT | (simp [supportedScalar] at hT)
  have hcall : ∀ b1 Out, ∃ r, emitSpecConstant b1 T Out = .ok r := by
    intro b1 Out
    simp only [emitSpecConstant, hd]
    apply emitCall_ok
    intro v hv
    simp only [List.mem_cons, List.mem_singleton, List.not_mem_nil, or_false] at hv
    rcases hv with hv | hv
    · rw [hv]; rfl
    · rw [hv, Value.getType, getDefaultCPPValue_getType T Def hd]; exact hm
  simp only [emitScalar, hb]
  by_cases hc : (IsNew && !s.IsFirstElement) = true
  · obtain ⟨r, hr⟩ := hcall (toUnsigned (b + 1)) s.Out
    obtain ⟨I, Out⟩ := r
    simp only [hc, if_true, List.getLast?_concat, hr]
    exact ⟨_, rfl⟩
  · obtain ⟨r, hr⟩ := hcall b s.Out
    obtain ⟨I, Out⟩ := r
    have hc1 : (IsNew && !s.IsFirstElement) = false := by simpa using hc
    simp only [hc1, Bool.false_eq_true, if_false, hb, hr]
    exact ⟨_, rfl⟩

theorem emitComposite_ok (T : Ty) (p : List Value × EmitState)
    (h : ∀ v ∈ p.1, mangleable v.getType = true) : ∃ r, emitComposite T p = .ok r := by
  obtain ⟨r, hr⟩ := emitCall_ok T SPIRV_GET_SPEC_CONST_COMPOSITE p.1 p.2.Out h
  obtain ⟨I, Out⟩ := r
  simp only [emitComposite, emitSpecConstantComposite, hr]
  exact ⟨_, rfl⟩

theorem loopN_emit_ok (elem : Ty) (IsNew : Bool) (hm : mangleable elem = true)
    (ih : ∀ s, s.IDs ≠ [] → ∃ r, emitSpecConstantRecursiveImpl elem IsNew s = .ok r) (n : Nat) :
    ∀ p : List Value × EmitState, p.2.IDs ≠ [] → (∀ v ∈ p.1, mangleable v.getType = true) →
      ∃ p1, loopN (LoopIteration (fun s1 => emitSpecConstantRecursiveImpl elem IsNew s1)) n p
          = .ok p1 ∧ ∀ v ∈ p1.1, mangleable v.getType = true := by
  induction n with
  | zero => intro p _ hv; exact ⟨p, rfl, hv⟩
  | succ n ihn =>
    intro p hne hv
    obtain ⟨r, hr⟩ := ih p.2 hne
    obtain ⟨I, s1⟩ := r
    have hpost := emitImpl_post elem IsNew p.2 I s1 hr
    have hb : LoopIteration (fun s1 => emitSpecConstantRecursiveImpl elem IsNew s1) p =
        .ok (p.1 ++ [I], s1) := by
      simp only [LoopIteration, hr]
    obtain ⟨p1, hp1, hv1⟩ := ihn (p.1 ++ [I], s1) (hpost.ids_ne_nil hne) (by
      intro v hmem
      rcases List.mem_append.mp hmem with h | h
      · exact hv v h
      · rw [List.mem_singleton.mp h, hpost.getType]; exact hm)
    exact ⟨p1, by simp only [loopN, hb, hp1], hv1⟩

theorem emitElements_ok (elems : List Ty) (IsNew : Bool)
    (hs : supportedElements elems = true)
    (ih : ∀ T ∈ elems, supported T = true →
      ∀ s, s.IDs ≠ [] → ∃ r, emitSpecConstantRecursiveImpl T IsNew s = .ok r) :
    ∀ p : List Value × EmitState, p.2.IDs ≠ [] → (∀ v ∈ p.1, mangleable v.getType = true) →
      ∃ p1, emitSpecConstantRecursiveElements elems IsNew p = .ok p1 ∧
        ∀ v ∈ p1.1, mangleable v.getType = true := by
  induction elems with
  | nil => intro p _ hv; exact ⟨p, rfl, hv⟩
  | cons T rest ihl =>
    intro p hne hv
    simp only [supportedElements, Bool.and_eq_true] at hs
    obtain ⟨r, hr⟩ := ih T (List.mem_cons_self _ _) hs.1 p.2 hne
    obtain ⟨I, s1⟩ := r
    have hpost := emitImpl_post T IsNew p.2 I s1 hr
    have hb : LoopIteration (fun s1 => emitSpecConstantRecursiveImpl T IsNew s1) p =
        .ok (p.1 ++ [I], s1) := by
      simp only [LoopIteration, hr]
    obtain ⟨p1, hp1, hv1⟩ := ihl hs.2 (fun U hU => ih U (List.mem_cons_of_mem _ hU))
      (p.1 ++ [I], s1) (hpost.ids_ne_nil hne) (by
        intro v hmem
        rcases List.mem_append.mp hmem with h | h
        · exact hv v h
        · rw [List.mem_singleton.mp h, hpost.getType]; exact supported_mangleable T hs.1)
    exact ⟨p1, by simp only [emitSpecConstantRecursiveElements, hb, hp1], hv1⟩

/-- On a supported type and with a non-empty `IDs`, `emitSpecConstantRecursiveImpl`
returns. -/
theorem emitImpl_ok (T : Ty) :
    supported T = true → ∀ IsNew s, s.IDs ≠ [] →
      ∃ r, emitSpecConstantRecursiveImpl T IsNew s = .ok r := by
  induction T using Ty.induction with
  | hint bits =>
    intro h IsNew s hne
    simpa only [emitSpecConstantRecursiveImpl] using emitScalar_ok (.integer bits) h IsNew s hne
  | hfp k =>
    intro h IsNew s hne
    simpa only [emitSpecConstantRecursiveImpl] using emitScalar_ok (.fp k) h IsNew s hne
  | hptr => intro h; simp [supported] at h
  | harr elem num ih =>
    intro h IsNew s hne
    simp only [supported] at h
    obtain ⟨p, hp, hv⟩ := loopN_emit_ok elem IsNew (supported_mangleable elem h)
      (ih h IsNew) num ([], s) hne (fun v hv => by cases hv)
    obtain ⟨r, hr⟩ := emitComposite_ok (.array elem num) p hv
    exact ⟨r, by simp only [emitSpecConstantRecursiveImpl, hp, hr]⟩
  | hstruct name elems ih =>
    intro h IsNew s hne
    simp only [supported] at h
    obtain ⟨p, hp, hv⟩ := emitElements_ok elems IsNew h (fun T hT hsT => ih T hT hsT IsNew)
      ([], s) hne (fun v hv => by cases hv)
    obtain ⟨r, hr⟩ := emitComposite_ok (.struct name elems) p hv
    exact ⟨r, by simp only [emitSpecConstantRecursiveImpl, hp, hr]⟩
  | hvec elem num ih =>
    intro h IsNew s hne
    simp only [supported] at h
    obtain ⟨p, hp, hv⟩ := loopN_emit_ok elem IsNew (supported_mangleable elem h)
      (ih h IsNew) num ([], s) hne (fun v hv => by cases hv)
    obtain ⟨r, hr⟩ := emitComposite_ok (.fixedVector elem num) p hv
    exact ⟨r, by simp only [emitSpecConstantRecursiveImpl, hp, hr]⟩

/-! ## The list of IDs of a constant -/

theorem idStep_false_iterate (k : Nat) :
    ∀ p : List Nat × Bool, ((idStep false)^[k] p).1 = p.1 := by
  induction k with
  | zero => intro p; rfl
  | succ k ih =>
    intro p
    rw [Function.iterate_succ_apply, ih]
    rfl

theorem idRun_succ (c n : Nat) : idRun c (n + 1) = idRun c n ++ [toUnsigned (c + n)] := by
  simp only [idRun, List.range_succ, List.map_append, List.map_cons, List.map_nil]

theorem length_idRun (c n : Nat) : (idRun c n).length = n := by
  simp only [idRun, List.length_map, List.length_range]

theorem idRun_one (c : Nat) (hc : c < UINT_RANGE) : idRun c 1 = [c] := by
  have h : idRun c 1 = [toUnsigned (c + 0)] := rfl
  rw [h, Nat.add_zero, toUnsigned, Nat.mod_eq_of_lt hc]

theorem idStep_true_iterate (c : Nat) (hc : c < UINT_RANGE) (k : Nat) :
    (idStep true)^[k + 1] ([c], true) = (idRun c (k + 1), false) := by
  induction k with
  | zero =>
    simp only [Nat.zero_add, Function.iterate_one, idStep, Bool.not_true, Bool.and_false,
      Bool.false_eq_true, if_false, idRun_one c hc]
  | succ k ih =>
    rw [Function.iterate_succ_apply', ih, idRun_succ c (k + 1)]
    simp only [idStep, Bool.not_false, Bool.and_true, if_true]
    rw [idRun_succ c k, List.getLastD_concat]
    simp only [toUnsigned, UINT_RANGE, Prod.mk.injEq, List.append_cancel_left_eq,
      List.cons.injEq, and_true]
    omega

/-- The list of a new constant: `max 1 n` consecutive values starting at the
counter, where `n` is the number of scalar leaves. -/
theorem newIDs_eq (c : Nat) (hc : c < UINT_RANGE) (T : Ty) :
    newIDs c T = idRun c (max 1 (leafCount T)) := by
  unfold newIDs
  cases h : leafCount T with
  | zero =>
    simp only [Function.iterate_zero, id_eq, Nat.max_zero, idRun_one c hc]
  | succ k =>
    rw [idStep_true_iterate c hc k]
    have : max 1 (k + 1) = k + 1 := by omega
    rw [this]

/-! ## Maps -/

theorem lookup_assign_self {V : Type} (m : List (String × V)) (k : String) (v : V) :
    List.lookup k (assign m k v) = some v := by
  induction m with
  | nil => simp [assign, List.lookup]
  | cons e rest ih =>
    obtain ⟨k1, v1⟩ := e
    by_cases h : k1 = k
    · simp [assign, h, List.lookup]
    · have h2 : (k == k1) = false := by simpa using fun h3 => h h3.symm
      simp [assign, h, List.lookup, h2, ih]

theorem lookup_assign_other {V : Type} (m : List (String × V)) (k k1 : String) (v : V)
    (hk : k1 ≠ k) : List.lookup k1 (assign m k v) = List.lookup k1 m := by
  induction m with
  | nil =>
    have h2 : (k1 == k) = false := by simpa using hk
    simp [assign, List.lookup, h2]
  | cons e rest ih =>
    obtain ⟨k2, v2⟩ := e
    by_cases h : k2 = k
    · subst h
      have h2 : (k1 == k2) = false := by simpa using hk
      simp [assign, List.lookup, h2]
    · simp only [assign, h, if_false, List.lookup]
      cases k1 == k2 <;> simp [ih]

theorem assign_of_lookup {V : Type} (m : List (String × V)) (k : String) (v : V)
    (h : List.lookup k m = some v) : assign m k v = m := by
  induction m with
  | nil => simp [List.lookup] at h
  | cons e rest ih =>
    obtain ⟨k1, v1⟩ := e
    by_cases hk : k1 = k
    · subst hk
      simp only [List.lookup, beq_self_eq_true, Option.some.injEq] at h
      simp [assign, h]
    · have h2 : (k == k1) = false := by simpa using fun h3 => hk h3.symm
      simp only [List.lookup, h2] at h
      simp [assign, hk, ih h]

theorem assign_of_lookup_none {V : Type} (m : List (String × V)) (k : String) (v : V)
    (h : List.lookup k m = none) : assign m k v = m ++ [(k, v)] := by
  induction m with
  | nil => rfl
  | cons e rest ih =>
    obtain ⟨k1, v1⟩ := e
    by_cases hk : k1 = k
    · subst hk
      simp [List.lookup] at h
    · have h2 : (k == k1) = false := by simpa using fun h3 => hk h3.symm
      simp only [List.lookup, h2] at h
      simp [assign, hk, ih h]

theorem setSpecConstSymIDMetadata_last (before : List CallInst) (top : CallInst)
    (SymID : String) (IDs : List Nat) :
    setSpecConstSymIDMetadata (before ++ [top]) before.length SymID IDs =
      before ++ [{ top with MD := some (SymID, IDs) }] := by
  induction before with
  | nil => rfl
  | cons c rest ih =>
    show c :: setSpecConstSymIDMetadata (rest ++ [top]) rest.length SymID IDs = _
    rw [ih]
    rfl
/-! ## One call site -/

theorem emitSpecConstantRecursive_spec (T : Ty) (IDs0 : List Nat) (IsNew : Bool) (I : Value)
    (Out : List CallInst) (IDs : List Nat)
    (h : emitSpecConstantRecursive T [] IDs0 IsNew = .ok (I, Out, IDs)) :
    IDs = ((idStep IsNew)^[leafCount T] (IDs0, true)).1 ∧
    ∃ before top, Out = before ++ [top] ∧ I = .inst before.length T ∧
      (∀ c ∈ before, c.MD = none) ∧ top.MD = none ∧ top.Ty = T ∧ CalleeFor T top.Callee := by
  simp only [emitSpecConstantRecursive] at h
  cases he : emitSpecConstantRecursiveImpl T IsNew (EmitState.mk [] IDs0 true) with
  | error e => simp [he] at h
  | ok r =>
    obtain ⟨I1, s1⟩ := r
    simp only [he, Except.ok.injEq, Prod.mk.injEq] at h
    obtain ⟨hI, hOut, hIDs⟩ := h
    obtain ⟨hids, before, top, hO, hI1, hb, ht, hty, hcal⟩ := emitImpl_post T IsNew _ I1 s1 he
    simp only [List.nil_append] at hO hI1
    refine ⟨?_, before, top, ?_, ?_, hb, ht, hty, hcal⟩
    · rw [← hIDs]
      exact congrArg Prod.fst hids
    · rw [← hOut, hO]
    · rw [← hI, hI1]

/-- What a successful run-time lowering of one call site does to the state of
the pass. -/
theorem processCallSite_RT (NDEBUG IsComposite : Bool) (CI : CallSite) (st st1 : PassState)
    (h : processCallSite true NDEBUG IsComposite CI st = .ok st1) :
    ∃ SCTy SymID DelInsts L IDs, siteType IsComposite CI = .ok SCTy ∧
      siteName NDEBUG IsComposite CI = .ok (SymID, DelInsts) ∧
      st1.Lowered = st.Lowered ++ [L] ∧ L.SymID = SymID ∧ L.SCTy = SCTy ∧ WellLowered L IDs ∧
      st1.IRModified = st.IRModified ∧ st1.IDMap = assign st.IDMap SymID IDs ∧
      ((List.lookup SymID st.IDMap = none ∧ IDs = newIDs st.NextID SCTy ∧
          st1.NextID = toUnsigned (st.NextID + IDs.length)) ∨
        (List.lookup SymID st.IDMap = some IDs ∧ st1.NextID = st.NextID)) := by
  simp only [processCallSite] at h
  cases hty : siteType IsComposite CI with
  | error e => simp [hty] at h
  | ok SCTy =>
    cases hname : siteName NDEBUG IsComposite CI with
    | error e => simp [hty, hname] at h
    | ok r =>
      obtain ⟨SymID, DelInsts⟩ := r
      simp only [hty, hname, if_true] at h
      cases hl : List.lookup SymID st.IDMap with
      | none =>
        simp only [hl, Option.isNone_none, if_true] at h
        cases he : emitSpecConstantRecursive SCTy [] [st.NextID] true with
        | error e => simp [he] at h
        | ok r =>
          obtain ⟨I, Out, IDs⟩ := r
          simp only [he, Except.ok.injEq] at h
          obtain ⟨hids, before, top, hOut, hI, hb, ht, htop, hcal⟩ :=
            emitSpecConstantRecursive_spec _ _ _ _ _ _ he
          subst h
          subst hI
          subst hOut
          refine ⟨SCTy, SymID, DelInsts, _, IDs, rfl, rfl, rfl, rfl, rfl, ?_, rfl, rfl,
            Or.inl ⟨hl, hids, rfl⟩⟩
          refine ⟨before, { top with MD := some (SymID, IDs) }, ?_, hb, rfl, htop, hcal, rfl⟩
          exact setSpecConstSymIDMetadata_last _ _ _ _
      | some IDs0 =>
        simp only [hl, Option.isNone_some, Bool.false_eq_true, if_false, Option.getD_some] at h
        cases he : emitSpecConstantRecursive SCTy [] IDs0 false with
        | error e => simp [he] at h
        | ok r =>
          obtain ⟨I, Out, IDs⟩ := r
          simp only [he, Except.ok.injEq] at h
          obtain ⟨hids, before, top, hOut, hI, hb, ht, htop, hcal⟩ :=
            emitSpecConstantRecursive_spec _ _ _ _ _ _ he
          rw [idStep_false_iterate] at hids
          subst h
          subst hI
          subst hOut
          subst hids
          refine ⟨SCTy, SymID, DelInsts, _, IDs, rfl, rfl, rfl, rfl, rfl, ?_, rfl, rfl,
            Or.inr ⟨hl, rfl⟩⟩
          refine ⟨before, { top with MD := some (SymID, IDs) }, ?_, hb, rfl, htop, hcal, rfl⟩
          exact setSpecConstSymIDMetadata_last _ _ _ _

/-- A run-time lowering of a call site of a supported type returns, provided the
list stored for a known name is not empty. -/
theorem processCallSite_RT_ok (NDEBUG IsComposite : Bool) (CI : CallSite) (st : PassState)
    (SCTy : Ty) (SymID : String) (DelInsts : List Nat)
    (hty : siteType IsComposite CI = .ok SCTy)
    (hname : siteName NDEBUG IsComposite CI = .ok (SymID, DelInsts))
    (hT : supported SCTy = true) (hne : List.lookup SymID st.IDMap ≠ some []) :
    ∃ st1, processCallSite true NDEBUG IsComposite CI st = .ok st1 := by
  have key : ∀ IDs0 IsNew, IDs0 ≠ [] →
      ∃ r, emitSpecConstantRecursive SCTy [] IDs0 IsNew = .ok r := by
    intro IDs0 IsNew h0
    obtain ⟨r, hr⟩ := emitImpl_ok SCTy hT IsNew (EmitState.mk [] IDs0 true) h0
    obtain ⟨I, s1⟩ := r
    exact ⟨(I, s1.Out, s1.IDs), by simp only [emitSpecConstantRecursive, hr]⟩
  simp only [processCallSite, hty, hname, if_true]
  cases hl : List.lookup SymID st.IDMap with
  | none =>
    obtain ⟨r, hr⟩ := key [st.NextID] true (by simp)
    obtain ⟨I, Out, IDs⟩ := r
    simp only [Option.isNone_none, if_true, hr]
    exact ⟨_, rfl⟩
  | some IDs0 =>
    obtain ⟨r, hr⟩ := key IDs0 false (by intro h0; exact hne (by rw [hl, h0]))
    obtain ⟨I, Out, IDs⟩ := r
    simp only [Option.isNone_some, Bool.false_eq_true, if_false, Option.getD_some, hr]
    exact ⟨_, rfl⟩
theorem WellLowered.annotation {L : LoweredCall} {IDs : List Nat} (h : WellLowered L IDs) :
    L.annotation = some (L.SymID, IDs) := by
  obtain ⟨before, top, hI, _, hmd, _, _, hR⟩ := h
  simp only [LoweredCall.annotation, hR, hI, List.get?_eq_getElem?,
    List.getElem?_append_right (le_refl _), Nat.sub_self, List.getElem?_cons_zero, hmd]

/-- Whenever run-time lowering of a call site whose name is not in `IDMap`
returns, the name has the `max 1 n` consecutive values from the counter on. -/
theorem processCallSite_new_post (NDEBUG IsComposite : Bool) (CI : CallSite) (st : PassState)
    (SCTy : Ty) (SymID : String) (DelInsts : List Nat)
    (hty : siteType IsComposite CI = .ok SCTy)
    (hname : siteName NDEBUG IsComposite CI = .ok (SymID, DelInsts))
    (hc : st.NextID < UINT_RANGE) (hnew : List.lookup SymID st.IDMap = none)
    (st1 : PassState) (h : processCallSite true NDEBUG IsComposite CI st = .ok st1) :
    List.lookup SymID st1.IDMap = some (idRun st.NextID (max 1 (leafCount SCTy))) ∧
      st1.NextID = toUnsigned (st.NextID + max 1 (leafCount SCTy)) ∧
      ∀ other, other ≠ SymID → List.lookup other st1.IDMap = List.lookup other st.IDMap := by
  obtain ⟨SCTy1, SymID1, Del1, L, IDs, hty1, hname1, _, _, _, _, _, hmap, hcase⟩ :=
    processCallSite_RT _ _ _ _ _ h
  rw [hty] at hty1
  rw [hname] at hname1
  simp only [Except.ok.injEq, Prod.mk.injEq] at hty1 hname1
  obtain ⟨hS, _⟩ := hname1
  subst hty1
  subst hS
  rcases hcase with ⟨_, hIDs, hnext⟩ | ⟨hold, _⟩
  · rw [newIDs_eq _ hc] at hIDs
    refine ⟨?_, ?_, ?_⟩
    · rw [hmap, lookup_assign_self, hIDs]
    · rw [hnext, hIDs, length_idRun]
    · intro other ho
      rw [hmap, lookup_assign_other _ _ _ _ ho]
  · rw [hnew] at hold
    cases hold

/-- Run-time lowering of a call site of a supported type whose name is not in
`IDMap`. -/
theorem processCallSite_new (NDEBUG IsComposite : Bool) (CI : CallSite) (st : PassState)
    (SCTy : Ty) (SymID : String) (DelInsts : List Nat)
    (hty : siteType IsComposite CI = .ok SCTy)
    (hname : siteName NDEBUG IsComposite CI = .ok (SymID, DelInsts))
    (hc : st.NextID < UINT_RANGE) (hnew : List.lookup SymID st.IDMap = none)
    (hT : supported SCTy = true) :
    ∃ st1, processCallSite true NDEBUG IsComposite CI st = .ok st1 ∧
      List.lookup SymID st1.IDMap = some (idRun st.NextID (max 1 (leafCount SCTy))) ∧
      st1.NextID = toUnsigned (st.NextID + max 1 (leafCount SCTy)) ∧
      ∀ other, other ≠ SymID → List.lookup other st1.IDMap = List.lookup other st.IDMap := by
  obtain ⟨st1, h⟩ := processCallSite_RT_ok NDEBUG IsComposite CI st SCTy SymID DelInsts hty hname
    hT (by rw [hnew]; simp)
  exact ⟨st1, h, processCallSite_new_post NDEBUG IsComposite CI st SCTy SymID DelInsts hty hname
    hc hnew st1 h⟩

/-- C1, as amended. Take a counter value `c` of type `unsigned`, an `IDMap`
without the symbolic name, and a constant type with `n` scalar leaves. Whenever
run-time lowering of one call site returns, it leaves `IDMap[name]` equal to the
`max 1 n` consecutive `unsigned` values starting at `c` (the `i`-th is
`(c + i) mod 2 ^ 32`), leaves `NextID` equal to `(c + max 1 n) mod 2 ^ 32`, and
changes no other entry of `IDMap`; and it returns for every supported type. -/
theorem processCallSite_allocates (NDEBUG IsComposite : Bool) (CI : CallSite) (st : PassState)
    (SCTy : Ty) (SymID : String) (DelInsts : List Nat)
    (hty : siteType IsComposite CI = .ok SCTy)
    (hname : siteName NDEBUG IsComposite CI = .ok (SymID, DelInsts))
    (hc : st.NextID < UINT_RANGE) (hnew : List.lookup SymID st.IDMap = none) :
    (∀ st1, processCallSite true NDEBUG IsComposite CI st = .ok st1 →
      List.lookup SymID st1.IDMap = some (idRun st.NextID (max 1 (leafCount SCTy))) ∧
      st1.NextID = toUnsigned (st.NextID + max 1 (leafCount SCTy)) ∧
      ∀ other, other ≠ SymID → List.lookup other st1.IDMap = List.lookup other st.IDMap) ∧
    (supported SCTy = true → ∃ st1, processCallSite true NDEBUG IsComposite CI st = .ok st1) :=
  ⟨processCallSite_new_post NDEBUG IsComposite CI st SCTy SymID DelInsts hty hname hc hnew,
    fun hT => processCallSite_RT_ok NDEBUG IsComposite CI st SCTy SymID DelInsts hty hname hT
      (by rw [hnew]; simp)⟩

/-- C1 at a call site for `ConstB` of type `<2 x i32>` with the counter at 3:
the name gets `[3, 4]`, the counter becomes 5 and `ConstA` keeps its list. -/
theorem processCallSite_allocates_witness :
    siteType false (scalarSite 7 "ConstB" (.fixedVector (.integer 32) 2)) =
      .ok (.fixedVector (.integer 32) 2) ∧
    siteName true false (scalarSite 7 "ConstB" (.fixedVector (.integer 32) 2)) =
      .ok ("ConstB", [7]) ∧
    (stateWith 3 [("ConstA", [0, 1, 2])]).NextID < UINT_RANGE ∧
    List.lookup "ConstB" (stateWith 3 [("ConstA", [0, 1, 2])]).IDMap = none ∧
    supported (.fixedVector (.integer 32) 2) = true ∧
    ∃ st1, processCallSite true true false (scalarSite 7 "ConstB" (.fixedVector (.integer 32) 2))
        (stateWith 3 [("ConstA", [0, 1, 2])]) = .ok st1 ∧
      List.lookup "ConstB" st1.IDMap = some [3, 4] ∧ st1.NextID = 5 ∧
      List.lookup "ConstA" st1.IDMap = some [0, 1, 2] := by
  refine ⟨rfl, by decide, by decide, by decide, by decide, ?_⟩
  obtain ⟨hpost, hok⟩ := processCallSite_allocates true false
    (scalarSite 7 "ConstB" (.fixedVector (.integer 32) 2)) (stateWith 3 [("ConstA", [0, 1, 2])])
    (.fixedVector (.integer 32) 2) "ConstB" [7] rfl (by decide) (by decide) (by decide)
  obtain ⟨st1, h⟩ := hok (by decide)
  obtain ⟨hl, hn, ho⟩ := hpost st1 h
  exact ⟨st1, h, hl.trans (by decide), hn.trans (by decide),
    (ho "ConstA" (by decide)).trans (by decide)⟩

/-- C1, counterexample. The array type `[0 x i32]` has no scalar leaf, yet
lowering a call site of that type from the counter 0 stores the list `[0]` for
the name and leaves `NextID = 1`; and from the counter `2 ^ 32 - 1` the two
leaves of `<2 x i32>` get the list `[4294967295, 0]` and `NextID` becomes 1. -/
theorem processCallSite_zero_leaves :
    leafCount (.array (.integer 32) 0) = 0 ∧
    (∃ st1, processCallSite true true true (compositeSite 1 "ConstA" (.array (.integer 32) 0))
        (stateWith 0 []) = .ok st1 ∧ st1.IDMap = [("ConstA", [0])] ∧ st1.NextID = 1) ∧
    (∃ st1, processCallSite true true false (scalarSite 1 "ConstB" (.fixedVector (.integer 32) 2))
        (stateWith 4294967295 []) = .ok st1 ∧ st1.IDMap = [("ConstB", [4294967295, 0])] ∧
      st1.NextID = 1) :=
  ⟨by decide, ⟨_, rfl, by decide, by decide⟩, ⟨_, rfl, by decide, by decide⟩⟩

/-! ## Invariants of `run` -/

theorem processCallSites_invariant (P : PassState → Prop) (rt nd ic : Bool)
    (hstep : ∀ CI st st1, P st → processCallSite rt nd ic CI st = .ok st1 → P st1) :
    ∀ sites st st1, P st → processCallSites rt nd ic sites st = .ok st1 → P st1 := by
  intro sites
  induction sites with
  | nil =>
    intro st st1 hP h
    simp only [processCallSites, Except.ok.injEq] at h
    exact h ▸ hP
  | cons CI rest ih =>
    intro st st1 hP h
    simp only [processCallSites] at h
    cases h1 : processCallSite rt nd ic CI st with
    | error e => simp [h1] at h
    | ok st2 =>
      simp only [h1] at h
      exact ih st2 st1 (hstep CI st st2 hP h1) h

theorem processFunctions_invariant (P : PassState → Prop) (rt nd : Bool)
    (hIR : ∀ st b, P st → P (PassState.mk st.NextID st.IDMap b st.Lowered))
    (hstep : ∀ ic CI st st1, P st → processCallSite rt nd ic CI st = .ok st1 → P st1) :
    ∀ M st st1, P st → processFunctions rt nd M st = .ok st1 → P st1 := by
  intro M
  induction M with
  | nil =>
    intro st st1 hP h
    simp only [processFunctions, Except.ok.injEq] at h
    exact h ▸ hP
  | cons F rest ih =>
    intro st st1 hP h
    simp only [processFunctions] at h
    cases h1 : processFunction rt nd F st with
    | error e => simp [h1] at h
    | ok st2 =>
      simp only [h1] at h
      refine ih st2 st1 ?_ h
      simp only [processFunction] at h1
      split at h1
      · simp only [Except.ok.injEq] at h1
        exact h1 ▸ hP
      · split at h1
        · simp only [Except.ok.injEq] at h1
          exact h1 ▸ hP
        · exact processCallSites_invariant P rt nd _ (hstep _) _ _ _ (hIR st _ hP) h1

theorem run_invariant (P : PassState → Prop) (rt nd : Bool)
    (hIR : ∀ st b, P st → P (PassState.mk st.NextID st.IDMap b st.Lowered))
    (hstep : ∀ ic CI st st1, P st → processCallSite rt nd ic CI st = .ok st1 → P st1)
    (h0 : P initialState) (M : List Function) (st : PassState)
    (h : run rt nd M = .ok st) : P st :=
  processFunctions_invariant P rt nd hIR hstep M _ st h0 h

theorem length_newIDs (c : Nat) (T : Ty) : (newIDs c T).length = max 1 (leafCount T) := by
  have key : ∀ k, ((idStep true)^[k + 1] ([c], true)).2 = false ∧
      ((idStep true)^[k + 1] ([c], true)).1.length = k + 1 := by
    intro k
    induction k with
    | zero => exact ⟨rfl, rfl⟩
    | succ k ih =>
      rw [Function.iterate_succ_apply']
      obtain ⟨h1, h2⟩ := ih
      generalize (idStep true)^[k + 1] ([c], true) = p at h1 h2
      obtain ⟨ids, b⟩ := p
      simp only at h1 h2
      subst h1
      simp only [idStep, Bool.not_false, Bool.and_true, if_true, List.length_append,
        List.length_singleton, h2, and_self]
  unfold newIDs
  cases h : leafCount T with
  | zero => rfl
  | succ k =>
    rw [(key k).2]
    omega

theorem processCallSite_traced (nd ic : Bool) (CI : CallSite) (st st1 : PassState)
    (hP : Traced st) (h : processCallSite true nd ic CI st = .ok st1) : Traced st1 := by
  obtain ⟨SCTy, SymID, Del, L, IDs, _, _, hLow, hSym, hSC, hWL, _, hmap, hcase⟩ :=
    processCallSite_RT _ _ _ _ _ h
  obtain ⟨hA, hB⟩ := hP
  have hself : List.lookup SymID st1.IDMap = some IDs := by rw [hmap, lookup_assign_self]
  have hother : ∀ k, k ≠ SymID → List.lookup k st1.IDMap = List.lookup k st.IDMap := by
    intro k hk
    rw [hmap, lookup_assign_other _ _ _ _ hk]
  have hkeep : ∀ k ids, List.lookup k st.IDMap = some ids → List.lookup k st1.IDMap = some ids := by
    intro k ids hk
    by_cases hks : k = SymID
    · subst hks
      rcases hcase with ⟨hnone, _, _⟩ | ⟨hold, _⟩
      · rw [hnone] at hk; cases hk
      · rw [hold] at hk; rw [hself, hk]
    · rw [hother k hks, hk]
  have hlen : IDs.length = max 1 (leafCount SCTy) ∨ List.lookup SymID st.IDMap = some IDs := by
    rcases hcase with ⟨_, hIDs, _⟩ | ⟨hold, _⟩
    · left; rw [hIDs, length_newIDs]
    · right; exact hold
  constructor
  · intro L1 hL1
    rw [hLow] at hL1
    rcases List.mem_append.mp hL1 with hm | hm
    · obtain ⟨ids, hl, hw⟩ := hA L1 hm
      exact ⟨ids, hkeep _ _ hl, hw⟩
    · rw [List.mem_singleton.mp hm]
      exact ⟨IDs, by rw [hSym]; exact hself, hWL⟩
  · intro k ids hk
    have hold : List.lookup k st.IDMap = some ids ∨ (k = SymID ∧ ids = IDs ∧
        IDs.length = max 1 (leafCount SCTy)) := by
      by_cases hks : k = SymID
      · subst hks
        rw [hself] at hk
        simp only [Option.some.injEq] at hk
        rcases hlen with hl | hl
        · exact Or.inr ⟨rfl, hk.symm, hl⟩
        · left; rw [hl, hk]
      · left; rw [← hother k hks]; exact hk
    rcases hold with ho | ⟨hks, hids, hl⟩
    · obtain ⟨L1, hL1, h1, h2⟩ := hB k ids ho
      exact ⟨L1, by rw [hLow]; exact List.mem_append_left _ hL1, h1, h2⟩
    · refine ⟨L, by rw [hLow]; simp, by rw [hSym, hks], ?_⟩
      rw [hids, hSC]; exact hl

theorem run_traced (nd : Bool) (M : List Function) (st : PassState)
    (h : run true nd M = .ok st) : Traced st :=
  run_invariant Traced true nd (fun _ _ hP => hP)
    (fun ic CI st st1 hP h1 => processCallSite_traced nd ic CI st st1 hP h1)
    ⟨fun _ hL => (by cases hL), fun _ _ hk => (by simp [initialState, List.lookup] at hk)⟩ M st h
/-- Whenever run-time lowering of a call site whose name is in `IDMap` returns,
the map and the counter are unchanged and the top-level call is annotated with
the stored list. -/
theorem processCallSite_known_post (NDEBUG IsComposite : Bool) (CI : CallSite) (st : PassState)
    (SymID : String) (DelInsts : List Nat) (IDs : List Nat)
    (hname : siteName NDEBUG IsComposite CI = .ok (SymID, DelInsts))
    (hold : List.lookup SymID st.IDMap = some IDs)
    (st1 : PassState) (h : processCallSite true NDEBUG IsComposite CI st = .ok st1) :
    st1.IDMap = st.IDMap ∧ st1.NextID = st.NextID ∧
      ∃ L, st1.Lowered = st.Lowered ++ [L] ∧ L.annotation = some (SymID, IDs) := by
  obtain ⟨SCTy1, SymID1, Del1, L, IDs1, hty1, hname1, hLow, hSym, _, hWL, _, hmap, hcase⟩ :=
    processCallSite_RT _ _ _ _ _ h
  rw [hname] at hname1
  simp only [Except.ok.injEq, Prod.mk.injEq] at hname1
  obtain ⟨hS, _⟩ := hname1
  subst hS
  rcases hcase with ⟨hnone, _, _⟩ | ⟨hold1, hnext⟩
  · rw [hold] at hnone
    cases hnone
  · rw [hold] at hold1
    simp only [Option.some.injEq] at hold1
    subst hold1
    refine ⟨?_, hnext, L, hLow, ?_⟩
    · rw [hmap, assign_of_lookup _ _ _ hold]
    · rw [hWL.annotation, hSym]

/-- C4. Take a call site whose symbolic name is already in `IDMap`. Whenever
its run-time lowering returns, `IDMap` and `NextID` are unchanged and the
annotation of the emitted top-level call is the name with the stored list; it
returns for every supported type when the stored list is not empty, as every
list `run` stores is; and after any run, two lowered call sites of one symbolic
name carry the same list, the one in `IDMap`, in their annotations. -/
theorem processCallSite_reuses :
    (∀ (NDEBUG IsComposite : Bool) (CI : CallSite) (st : PassState) (SymID : String)
        (DelInsts : List Nat) (IDs : List Nat),
      siteName NDEBUG IsComposite CI = .ok (SymID, DelInsts) →
      List.lookup SymID st.IDMap = some IDs →
      (∀ st1, processCallSite true NDEBUG IsComposite CI st = .ok st1 →
        st1.IDMap = st.IDMap ∧ st1.NextID = st.NextID ∧
        ∃ L, st1.Lowered = st.Lowered ++ [L] ∧ L.annotation = some (SymID, IDs)) ∧
      (∀ SCTy, siteType IsComposite CI = .ok SCTy → supported SCTy = true → IDs ≠ [] →
        ∃ st1, processCallSite true NDEBUG IsComposite CI st = .ok st1)) ∧
    (∀ (NDEBUG : Bool) (M : List Function) (st : PassState), run true NDEBUG M = .ok st →
      (∀ k IDs, List.lookup k st.IDMap = some IDs → IDs ≠ []) ∧
      ∀ L1 ∈ st.Lowered, ∀ L2 ∈ st.Lowered, L1.SymID = L2.SymID →
        ∃ IDs, List.lookup L1.SymID st.IDMap = some IDs ∧
          L1.annotation = some (L1.SymID, IDs) ∧ L2.annotation = some (L2.SymID, IDs)) := by
  refine ⟨?_, ?_⟩
  · intro NDEBUG IsComposite CI st SymID DelInsts IDs hname hold
    refine ⟨processCallSite_known_post NDEBUG IsComposite CI st SymID DelInsts IDs hname hold, ?_⟩
    intro SCTy hty hT hne
    exact processCallSite_RT_ok NDEBUG IsComposite CI st SCTy SymID DelInsts hty hname hT
      (by rw [hold]; simpa using hne)
  · intro NDEBUG M st h
    obtain ⟨hA, hB⟩ := run_traced NDEBUG M st h
    constructor
    · intro k IDs hk hnil
      obtain ⟨L, _, _, hlen⟩ := hB k IDs hk
      rw [hnil] at hlen
      simp only [List.length_nil] at hlen
      omega
    · intro L1 hL1 L2 hL2 hsame
      obtain ⟨ids1, hl1, hw1⟩ := hA L1 hL1
      obtain ⟨ids2, hl2, hw2⟩ := hA L2 hL2
      rw [← hsame, hl1] at hl2
      simp only [Option.some.injEq] at hl2
      subst hl2
      exact ⟨ids1, hl1, hw1.annotation, hw2.annotation⟩

/-- C4 at a second call site for `ConstA` of type `<2 x i32>`: map and counter
stay, and the annotation is `(ConstA, [0, 1])`. -/
theorem processCallSite_reuses_witness :
    siteName true false (scalarSite 9 "ConstA" (.fixedVector (.integer 32) 2)) =
      .ok ("ConstA", [9]) ∧
    List.lookup "ConstA" (stateWith 2 [("ConstA", [0, 1])]).IDMap = some [0, 1] ∧
    siteType false (scalarSite 9 "ConstA" (.fixedVector (.integer 32) 2)) =
      .ok (.fixedVector (.integer 32) 2) ∧
    supported (.fixedVector (.integer 32) 2) = true ∧ [0, 1] ≠ ([] : List Nat) ∧
    ∃ st1 L, processCallSite true true false
        (scalarSite 9 "ConstA" (.fixedVector (.integer 32) 2))
        (stateWith 2 [("ConstA", [0, 1])]) = .ok st1 ∧
      st1.IDMap = [("ConstA", [0, 1])] ∧ st1.NextID = 2 ∧ st1.Lowered = [L] ∧
      L.annotation = some ("ConstA", [0, 1]) := by
  refine ⟨by decide, by decide, rfl, by decide, by decide, ?_⟩
  obtain ⟨hpost, hok⟩ := processCallSite_reuses.1 true false
    (scalarSite 9 "ConstA" (.fixedVector (.integer 32) 2))
    (stateWith 2 [("ConstA", [0, 1])]) "ConstA" [9] [0, 1] (by decide) (by decide)
  obtain ⟨st1, h⟩ := hok (.fixedVector (.integer 32) 2) rfl (by decide) (by decide)
  obtain ⟨h1, h2, L, h3, h4⟩ := hpost st1 h
  exact ⟨st1, L, h, h1, h2, h3, h4⟩

/-- C3. In `twoUses` the name `ConstB` of type `<2 x i32>` is used at two call
sites. `IDMap[ConstB]` is `[0, 1]` and both top-level calls are annotated with
it; the leaf calls of the first call site are given 0 and 1, but both leaf calls
of the second call site are given 1, the last element of the list. -/
theorem run_second_use_leaf_ids :
    ∃ st L1 L2, run true true twoUses = .ok st ∧ st.Lowered = [L1, L2] ∧
      List.lookup "ConstB" st.IDMap = some [0, 1] ∧
      L1.annotation = some ("ConstB", [0, 1]) ∧ leafIDs L1.Inserted = [0, 1] ∧
      L2.annotation = some ("ConstB", [0, 1]) ∧ leafIDs L2.Inserted = [1, 1] :=
  ⟨_, _, _, rfl, rfl, by decide, by decide, by decide, by decide, by decide⟩

/-! ## The counter and the stored lists -/

theorem allIDs_append (m : List (String × List Nat)) (k : String) (ids : List Nat) :
    allIDs (m ++ [(k, ids)]) = allIDs m ++ ids := by
  induction m with
  | nil => simp [allIDs]
  | cons e rest ih =>
    show e.2 ++ allIDs (rest ++ [(k, ids)]) = _
    rw [ih]
    exact (List.append_assoc _ _ _).symm

theorem idRun_append (a b : Nat) : idRun 0 (a + b) = idRun 0 a ++ idRun (toUnsigned a) b := by
  induction b with
  | zero => simp [idRun]
  | succ b ih =>
    rw [← Nat.add_assoc, idRun_succ, ih, idRun_succ, List.append_assoc]
    congr 2
    simp only [toUnsigned, UINT_RANGE, List.cons.injEq, and_true]
    omega

theorem idRun_eq_range (n : Nat) (h : n ≤ UINT_RANGE) : idRun 0 n = List.range' 0 n := by
  rw [← List.range_eq_range']
  unfold idRun
  conv_rhs => rw [← List.map_id (List.range n)]
  apply List.map_congr_left
  intro i hi
  have := List.mem_range.mp hi
  simp only [toUnsigned, Nat.zero_add, id_eq]
  exact Nat.mod_eq_of_lt (by omega)

theorem processCallSite_counted (nd ic : Bool) (CI : CallSite) (st st1 : PassState)
    (hP : Counted st) (h : processCallSite true nd ic CI st = .ok st1) : Counted st1 := by
  obtain ⟨SCTy, SymID, Del, L, IDs, _, _, _, _, _, _, _, hmap, hcase⟩ :=
    processCallSite_RT _ _ _ _ _ h
  obtain ⟨hA, hN⟩ := hP
  rcases hcase with ⟨hnone, hIDs, hnext⟩ | ⟨hold, hnext⟩
  · have hc : st.NextID < UINT_RANGE := by
      rw [hN]; exact Nat.mod_lt _ (by decide)
    rw [newIDs_eq _ hc, hN] at hIDs
    have hall : allIDs st1.IDMap = allIDs st.IDMap ++ IDs := by
      rw [hmap, assign_of_lookup_none _ _ _ hnone, allIDs_append]
    have hlen : IDs.length = max 1 (leafCount SCTy) := by rw [hIDs, length_idRun]
    constructor
    · rw [hall, List.length_append, idRun_append, ← hA, hlen, ← hIDs]
    · rw [hnext, hall, List.length_append, hN]
      simp only [toUnsigned, UINT_RANGE]
      omega
  · rw [assign_of_lookup _ _ _ hold] at hmap
    exact ⟨by rw [hmap]; exact hA, by rw [hnext, hmap]; exact hN⟩

theorem run_counted (nd : Bool) (M : List Function) (st : PassState)
    (h : run true nd M = .ok st) : Counted st :=
  run_invariant Counted true nd (fun _ _ hP => hP)
    (fun ic CI st st1 hP h1 => processCallSite_counted nd ic CI st st1 hP h1)
    ⟨rfl, rfl⟩ M st h

theorem lookup_segment (m : List (String × List Nat)) :
    ∀ s, allIDs m = List.range' s (allIDs m).length →
      ∀ a la, List.lookup a m = some la →
        ∃ s1, la = List.range' s1 la.length ∧ s ≤ s1 ∧ s1 + la.length ≤ s + (allIDs m).length := by
  induction m with
  | nil => intro s _ a la h; simp [List.lookup] at h
  | cons e rest ih =>
    intro s hs a la h
    obtain ⟨k, ids⟩ := e
    simp only [allIDs, List.length_append] at hs ⊢
    rw [Nat.add_comm, ← List.range'_append_1] at hs
    obtain ⟨h1, h2⟩ := List.append_inj hs (by simp)
    by_cases hk : a = k
    · subst hk
      simp only [List.lookup, beq_self_eq_true, Option.some.injEq] at h
      subst h
      exact ⟨s, h1, le_refl _, by omega⟩
    · have hb : (a == k) = false := by simpa using hk
      simp only [List.lookup, hb] at h
      obtain ⟨s1, e1, e2, e3⟩ := ih (s + ids.length) h2 a la h
      exact ⟨s1, e1, by omega, by omega⟩

theorem lookup_disjoint (m : List (String × List Nat)) :
    ∀ s, allIDs m = List.range' s (allIDs m).length →
      ∀ a b la lb, a ≠ b → List.lookup a m = some la → List.lookup b m = some lb →
        ∀ x ∈ la, x ∉ lb := by
  induction m with
  | nil => intro s _ a b la lb _ h; simp [List.lookup] at h
  | cons e rest ih =>
    intro s hs a b la lb hab ha hb x hxa hxb
    obtain ⟨k, ids⟩ := e
    simp only [allIDs, List.length_append] at hs
    rw [Nat.add_comm, ← List.range'_append_1] at hs
    obtain ⟨h1, h2⟩ := List.append_inj hs (by simp)
    by_cases hak : a = k
    · subst hak
      have hbk : (b == a) = false := by simpa using fun h => hab h.symm
      simp only [List.lookup, beq_self_eq_true, Option.some.injEq] at ha
      simp only [List.lookup, hbk] at hb
      rw [← ha] at hxa
      obtain ⟨s1, e1, e2, _⟩ := lookup_segment rest (s + ids.length) h2 b lb hb
      rw [h1] at hxa
      rw [e1] at hxb
      have := (List.mem_range'_1.mp hxa).2
      have := (List.mem_range'_1.mp hxb).1
      omega
    · have hak1 : (a == k) = false := by simpa using hak
      simp only [List.lookup, hak1] at ha
      by_cases hbk : b = k
      · subst hbk
        simp only [List.lookup, beq_self_eq_true, Option.some.injEq] at hb
        rw [← hb] at hxb
        obtain ⟨s1, e1, e2, _⟩ := lookup_segment rest (s + ids.length) h2 a la ha
        rw [h1] at hxb
        rw [e1] at hxa
        have := (List.mem_range'_1.mp hxb).2
        have := (List.mem_range'_1.mp hxa).1
        omega
      · have hbk1 : (b == k) = false := by simpa using hbk
        simp only [List.lookup, hbk1] at hb
        exact ih (s + ids.length) h2 a b la lb hab ha hb x hxa hxb

/-- C2, as amended. After a run in run-time mode that has assigned at most
`2 ^ 32` NumericIDs in total, any two distinct symbolic names of `IDMap` have
lists without a common element, and the list of each name is a run of
consecutive integers. -/
theorem run_ranges_disjoint (NDEBUG : Bool) (M : List Function) (st : PassState)
    (h : run true NDEBUG M = .ok st) (hfit : (allIDs st.IDMap).length ≤ UINT_RANGE) :
    (∀ a b la lb, a ≠ b → List.lookup a st.IDMap = some la → List.lookup b st.IDMap = some lb →
      ∀ x ∈ la, x ∉ lb) ∧
    (∀ a la, List.lookup a st.IDMap = some la → ∃ start, la = List.range' start la.length) := by
  obtain ⟨hA, _⟩ := run_counted NDEBUG M st h
  rw [idRun_eq_range _ hfit] at hA
  refine ⟨lookup_disjoint st.IDMap 0 hA, ?_⟩
  intro a la ha
  obtain ⟨s1, e1, _, _⟩ := lookup_segment st.IDMap 0 hA a la ha
  exact ⟨s1, e1⟩

/-- C2 at `twoNames`: `ConstA` gets `[0]` and `ConstC` gets `[1]`. -/
theorem run_ranges_disjoint_witness :
    ∃ st, run true true twoNames = .ok st ∧ (allIDs st.IDMap).length ≤ UINT_RANGE ∧
      st.IDMap = [("ConstA", [0]), ("ConstC", [1])] ∧
      (∀ a b la lb, a ≠ b → List.lookup a st.IDMap = some la →
        List.lookup b st.IDMap = some lb → ∀ x ∈ la, x ∉ lb) ∧
      (∀ a la, List.lookup a st.IDMap = some la → ∃ start, la = List.range' start la.length) :=
  ⟨_, rfl, by decide, by decide, run_ranges_disjoint true twoNames _ rfl (by decide)⟩
theorem processFunction_accessor (rt nd : Bool) (F : Function) (st : PassState)
    (hd : F.isDeclaration = true)
    (hp : (!startswith F.Name SYCL_GET_SPEC_CONST_VAL &&
      !startswith F.Name SYCL_GET_COMPOSITE_SPEC_CONST_VAL) = false) :
    processFunction rt nd F st =
      processCallSites rt nd (startswith F.Name SYCL_GET_COMPOSITE_SPEC_CONST_VAL)
        (callUsers F.users)
        (PassState.mk st.NextID st.IDMap
          (st.IRModified || decide ((callUsers F.users).length > 0)) st.Lowered) := by
  simp only [processFunction, hd, hp, Bool.not_true, Bool.false_eq_true, if_false]

theorem processCallSites_single (rt nd ic : Bool) (CI : CallSite) (st st1 : PassState)
    (h : processCallSite rt nd ic CI st = .ok st1) :
    processCallSites rt nd ic [CI] st = .ok st1 := by
  simp only [processCallSites, h]

theorem mem_idRun_self (c n : Nat) (hc : c < UINT_RANGE) (hn : 0 < n) : c ∈ idRun c n := by
  unfold idRun
  refine List.mem_map.mpr ⟨0, List.mem_range.mpr hn, ?_⟩
  simp only [Nat.add_zero, toUnsigned]
  exact Nat.mod_eq_of_lt hc

theorem run_two_accessors (rt nd ic1 ic2 : Bool) (F1 F2 : Function) (CI1 CI2 : CallSite)
    (st1 st2 : PassState)
    (hd1 : F1.isDeclaration = true) (hd2 : F2.isDeclaration = true)
    (hp1 : (!startswith F1.Name SYCL_GET_SPEC_CONST_VAL &&
      !startswith F1.Name SYCL_GET_COMPOSITE_SPEC_CONST_VAL) = false)
    (hp2 : (!startswith F2.Name SYCL_GET_SPEC_CONST_VAL &&
      !startswith F2.Name SYCL_GET_COMPOSITE_SPEC_CONST_VAL) = false)
    (hic1 : startswith F1.Name SYCL_GET_COMPOSITE_SPEC_CONST_VAL = ic1)
    (hic2 : startswith F2.Name SYCL_GET_COMPOSITE_SPEC_CONST_VAL = ic2)
    (hu1 : callUsers F1.users = [CI1]) (hu2 : callUsers F2.users = [CI2])
    (h1 : processCallSite rt nd ic1 CI1 (PassState.mk 0 [] true []) = .ok st1)
    (h2 : processCallSite rt nd ic2 CI2
      (PassState.mk st1.NextID st1.IDMap true st1.Lowered) = .ok st2) :
    run rt nd [F1, F2] = .ok st2 := by
  have e1 : processFunction rt nd F1 (PassState.mk 0 [] false []) = .ok st1 := by
    rw [processFunction_accessor rt nd F1 _ hd1 hp1, hic1, hu1]
    simp only [List.length_singleton, Nat.lt_add_one, gt_iff_lt, decide_True, Bool.or_true]
    exact processCallSites_single _ _ _ _ _ _ h1
  have e2 : processFunction rt nd F2 st1 = .ok st2 := by
    rw [processFunction_accessor rt nd F2 _ hd2 hp2, hic2, hu2]
    simp only [List.length_singleton, Nat.lt_add_one, gt_iff_lt, decide_True, Bool.or_true]
    exact processCallSites_single _ _ _ _ _ _ h2
  simp only [run, processFunctions, e1, e2]

/-- C2, counterexample. In `wrappingModule` the name `ConstA` has
`2 ^ 32 - 1` scalar leaves and is lowered first; `ConstB` of type `<2 x i32>`
then gets the list `[4294967295, 0]`, which is not a run of consecutive
integers and shares the ID 0 with the list of `ConstA`. -/
theorem run_ranges_overlap :
    ∃ st la, run true true wrappingModule = .ok st ∧
      List.lookup "ConstA" st.IDMap = some la ∧ 0 ∈ la ∧
      List.lookup "ConstB" st.IDMap = some [4294967295, 0] := by
  have hleafA : leafCount (.array (.integer 32) 4294967295) = 4294967295 := by
    rw [leafCount_array]
    rfl
  obtain ⟨st1, h1, hA1, hN1, hO1⟩ := processCallSite_new true true
    (compositeSite 1 "ConstA" (.array (.integer 32) 4294967295))
    (PassState.mk 0 [] true []) (.array (.integer 32) 4294967295) "ConstA" [1]
    rfl (by decide) (by decide) (by decide) (by decide)
  rw [hleafA] at hA1 hN1
  have hN1v : st1.NextID = 4294967295 := hN1.trans (by decide)
  have hB1 : List.lookup "ConstB" st1.IDMap = none := (hO1 "ConstB" (by decide)).trans rfl
  obtain ⟨st2, h2, hB2, _, hO2⟩ := processCallSite_new true false
    (scalarSite 2 "ConstB" (.fixedVector (.integer 32) 2))
    (PassState.mk st1.NextID st1.IDMap true st1.Lowered)
    (.fixedVector (.integer 32) 2) "ConstB" [2]
    rfl (by decide) (by rw [hN1v]; decide) hB1 (by decide)
  have hrun : run true true wrappingModule = .ok st2 :=
    run_two_accessors true true true false _ _ _ _ st1 st2 rfl rfl (by decide) (by decide)
      (by decide) (by decide) rfl rfl h1 h2
  have q1 : List.lookup "ConstA" st2.IDMap = some (idRun 0 (max 1 4294967295)) := by
    rw [hO2 "ConstA" (by decide)]
    exact hA1
  have q2 : (0 : Nat) ∈ idRun 0 (max 1 4294967295) := mem_idRun_self 0 _ (by decide) (by omega)
  have q3 : List.lookup "ConstB" st2.IDMap = some [4294967295, 0] := by
    rw [hB2]
    show some (idRun st1.NextID _) = _
    rw [hN1v]
    decide
  exact ⟨st2, _, hrun, q1, q2, q3⟩

/-! ## The metadata reader as a sequence of assignments -/

theorem collectFromCalls_append (A B : List CallInst) (m : CollectedMetadata) :
    collectFromCalls (A ++ B) m =
      match collectFromCalls A m with
      | .error e => .error e
      | .ok m1 => collectFromCalls B m1 := by
  induction A generalizing m with
  | nil => rfl
  | cons c rest ih =>
    simp only [List.cons_append, collectFromCalls]
    cases collectFromCall c m with
    | error e => rfl
    | ok m1 => exact ih m1

theorem collectFromFunctions_eq (P : List IRFunction) (m : CollectedMetadata) :
    collectFromFunctions P m = collectFromCalls (definedCalls P) m := by
  induction P generalizing m with
  | nil => rfl
  | cons F rest ih =>
    simp only [collectFromFunctions, definedCalls]
    split
    · exact ih m
    · rw [collectFromCalls_append]
      cases collectFromCalls F.calls m with
      | error e => rfl
      | ok m1 => exact ih m1

theorem collectFromCall_eq (CI : CallInst) (hr : Readable CI) (m : CollectedMetadata) :
    ∃ Met, collectFromCall CI m =
      .ok (CollectedMetadata.mk Met (applyUpdates [scalarUpdate CI] m.ScalarIDMap)
        (applyUpdates [compositeUpdate CI] m.CompositeIDMap)) := by
  obtain ⟨hc, hs⟩ := hr
  simp only [collectFromCall, scalarUpdate, compositeUpdate]
  by_cases h1 : contains CI.Callee SPIRV_GET_SPEC_CONST_COMPOSITE = true
  · obtain ⟨r, hr⟩ := hc h1
    simp only [h1, if_true, hr]
    by_cases h2 : r.1 = ""
    · simp only [h2, if_true, applyUpdates]
      exact ⟨m.Met, rfl⟩
    · simp only [h2, if_false, applyUpdates]
      exact ⟨true, rfl⟩
  · have h1f : contains CI.Callee SPIRV_GET_SPEC_CONST_COMPOSITE = false := by simpa using h1
    simp only [h1f, Bool.false_eq_true, if_false]
    by_cases h3 : contains CI.Callee SPIRV_GET_SPEC_CONST_VAL = true
    · obtain ⟨r, hr⟩ := hs h1f h3
      simp only [h3, if_true, hr]
      by_cases h2 : r.1 = ""
      · simp only [h2, if_true, applyUpdates]
        exact ⟨m.Met, rfl⟩
      · simp only [h2, if_false, applyUpdates]
        exact ⟨true, rfl⟩
    · simp only [h3, if_false, applyUpdates]
      exact ⟨m.Met, rfl⟩

theorem applyUpdates_cons {V : Type} (u : Option (String × V))
    (rest : List (Option (String × V))) (m : List (String × V)) :
    applyUpdates (u :: rest) m = applyUpdates rest (applyUpdates [u] m) := by
  cases u <;> rfl

theorem collectFromCalls_eq (cs : List CallInst) (hr : ∀ c ∈ cs, Readable c) :
    ∀ m, ∃ Met, collectFromCalls cs m =
      .ok (CollectedMetadata.mk Met (applyUpdates (cs.map scalarUpdate) m.ScalarIDMap)
        (applyUpdates (cs.map compositeUpdate) m.CompositeIDMap)) := by
  induction cs with
  | nil => intro m; exact ⟨m.Met, rfl⟩
  | cons c rest ih =>
    intro m
    obtain ⟨Met1, h1⟩ := collectFromCall_eq c (hr c (List.mem_cons_self _ _)) m
    obtain ⟨Met2, h2⟩ := ih (fun c1 hc1 => hr c1 (List.mem_cons_of_mem _ hc1))
      (CollectedMetadata.mk Met1 (applyUpdates [scalarUpdate c] m.ScalarIDMap)
        (applyUpdates [compositeUpdate c] m.CompositeIDMap))
    refine ⟨Met2, ?_⟩
    simp only [collectFromCalls, h1, h2, List.map_cons]
    rw [applyUpdates_cons (scalarUpdate c) (rest.map scalarUpdate),
      applyUpdates_cons (compositeUpdate c) (rest.map compositeUpdate)]

theorem applyUpdates_absent {V : Type} (k : String) (ups : List (Option (String × V))) :
    ∀ m, (∀ v, some (k, v) ∉ ups) → List.lookup k (applyUpdates ups m) = List.lookup k m := by
  induction ups with
  | nil => intro m _; rfl
  | cons u rest ih =>
    intro m h
    have hrest : ∀ v, some (k, v) ∉ rest := fun v hv => h v (List.mem_cons_of_mem _ hv)
    cases u with
    | none => exact ih m hrest
    | some e =>
      obtain ⟨k1, v1⟩ := e
      have hk : k ≠ k1 := by
        intro hk
        exact h v1 (by rw [hk]; exact List.mem_cons_self _ _)
      simp only [applyUpdates]
      rw [ih _ hrest, lookup_assign_other _ _ _ _ hk]

theorem applyUpdates_present {V : Type} (k : String) (v0 : V)
    (ups : List (Option (String × V))) :
    ∀ m, some (k, v0) ∈ ups → (∀ v, some (k, v) ∈ ups → v = v0) →
      List.lookup k (applyUpdates ups m) = some v0 := by
  induction ups with
  | nil => intro m h; cases h
  | cons u rest ih =>
    intro m hmem hcons
    have hcr : ∀ v, some (k, v) ∈ rest → v = v0 :=
      fun v hv => hcons v (List.mem_cons_of_mem _ hv)
    by_cases hin : some (k, v0) ∈ rest
    · cases u with
      | none => exact ih m hin hcr
      | some e => exact ih _ hin hcr
    · have hu : u = some (k, v0) := by
        rcases List.mem_cons.mp hmem with h | h
        · exact h.symm
        · exact absurd h hin
      subst hu
      have hnone : ∀ v, some (k, v) ∉ rest := by
        intro v hv
        have := hcr v hv
        subst this
        exact hin hv
      simp only [applyUpdates]
      rw [applyUpdates_absent k rest _ hnone, lookup_assign_self]
/-! ## What the reader finds at an emitted call -/

theorem updates_of_unannotated (c : CallInst) (h : c.MD = none) :
    Readable c ∧ scalarUpdate c = none ∧ compositeUpdate c = none := by
  have h1 : getScalarSpecConstMetadata c = .ok ("", 0) := by
    simp only [getScalarSpecConstMetadata, h]
  have h2 : getCompositeSpecConstMetadata c = .ok ("", []) := by
    simp only [getCompositeSpecConstMetadata, h]
  refine ⟨⟨fun _ => ⟨_, h2⟩, fun _ _ => ⟨_, h1⟩⟩, ?_, ?_⟩
  · simp only [scalarUpdate, h1]
    split
    · rfl
    · split <;> rfl
  · simp only [compositeUpdate, h2]
    split <;> rfl

theorem collectLeaves_ok (L : List Ty) :
    ∀ (s : CollectState) (k : Nat), s.Index ≤ k → k + L.length ≤ s.Result.length →
      ∃ s1, collectLeaves L s = .ok s1 ∧ s1.Result.length = s.Result.length := by
  induction L with
  | nil => intro s k _ _; exact ⟨s, rfl, rfl⟩
  | cons T rest ih =>
    intro s k hk hlen
    simp only [List.length_cons] at hlen
    have hidx : s.Index < s.Result.length := by omega
    obtain ⟨s2, hstep, hi2, hr2⟩ : ∃ s2, collectScalar T s = .ok s2 ∧
        s2.Index = toUnsigned (s.Index + 1) ∧ s2.Result.length = s.Result.length := by
      simp only [collectScalar, hidx, if_true]
      exact ⟨_, rfl, rfl, List.length_set _ _ _⟩
    have hle : s2.Index ≤ k + 1 := by
      rw [hi2]
      exact le_trans (Nat.mod_le _ _) (by omega)
    obtain ⟨s1, h1, h2⟩ := ih s2 (k + 1) hle (by rw [hr2]; omega)
    refine ⟨s1, by simp only [collectLeaves, hstep, h1], ?_⟩
    rw [h2, hr2]

theorem collect_ok (T : Ty) (n : Nat) (h : leafCount T ≤ n) :
    ∃ s, collectCompositeElementsInfoRecursive T (initialCollectState n) = .ok s ∧
      s.Result.length = n := by
  obtain ⟨s, h1, h2⟩ := collectLeaves_ok (leaves T) (initialCollectState n) 0 (le_refl _)
    (by simp only [initialCollectState, List.length_replicate, Nat.zero_add]; exact h)
  refine ⟨s, (collect_eq_collectLeaves T _).trans h1, ?_⟩
  rw [h2]
  simp only [initialCollectState, List.length_replicate]

theorem overlayIDs_eq (IDs : List Nat) :
    ∀ done rest : List CompositeSpecConstElementDescriptor, IDs.length ≤ rest.length →
      overlayIDs IDs (done.length + 1) (done ++ rest) = .ok (done ++ withIDs rest IDs) := by
  induction IDs with
  | nil =>
    intro done rest _
    cases rest <;> simp [overlayIDs, withIDs]
  | cons ID IDs ih =>
    intro done rest h
    cases rest with
    | nil => simp at h
    | cons D Ds =>
      simp only [List.length_cons, Nat.add_le_add_iff_right] at h
      have hget : (done ++ D :: Ds).get? (done.length + 1 - 1) = some D := by
        simp only [Nat.add_sub_cancel, List.get?_eq_getElem?,
          List.getElem?_append_right (le_refl _), Nat.sub_self, List.getElem?_cons_zero]
      have hset : (done ++ D :: Ds).set (done.length + 1 - 1)
          (CompositeSpecConstElementDescriptor.mk ID D.Offset D.Size) =
          (done ++ [CompositeSpecConstElementDescriptor.mk ID D.Offset D.Size]) ++ Ds := by
        simp only [Nat.add_sub_cancel, set_length_append, List.append_assoc,
          List.singleton_append]
      have hlen : (done ++ [CompositeSpecConstElementDescriptor.mk ID D.Offset D.Size]).length
          = done.length + 1 := by simp
      simp only [overlayIDs, hget, hset]
      rw [← hlen, ih _ Ds h]
      simp only [withIDs, List.append_assoc, List.singleton_append]

theorem getComposite_of_top (c : CallInst) (k : String) (IDs : List Nat) (T : Ty)
    (hmd : c.MD = some (k, IDs)) (hty : c.Ty = T) (hlen : leafCount T ≤ IDs.length) :
    ∃ s, collectCompositeElementsInfoRecursive T (initialCollectState IDs.length) = .ok s ∧
      getCompositeSpecConstMetadata c = .ok (k, withIDs s.Result IDs) := by
  obtain ⟨s, hs, hl⟩ := collect_ok T IDs.length hlen
  refine ⟨s, hs, ?_⟩
  have hov := overlayIDs_eq IDs [] s.Result (by rw [hl])
  simp only [List.length_nil, Nat.zero_add, List.nil_append] at hov
  have hs1 : collectCompositeElementsInfoRecursive T
      (CollectState.mk 0 0 (List.replicate IDs.length
        (CompositeSpecConstElementDescriptor.mk 0 0 0))) = .ok s := hs
  simp only [getCompositeSpecConstMetadata, hmd, hty, hs1, hov]

theorem updates_of_top_composite (st : PassState) (L : LoweredCall) (IDs : List Nat)
    (c : CallInst) (h : TopOf st L IDs c) (hT : isComposite L.SCTy = true) :
    ∃ s, collectCompositeElementsInfoRecursive L.SCTy (initialCollectState IDs.length) = .ok s ∧
      Readable c ∧ scalarUpdate c = none ∧
      compositeUpdate c = some (L.SymID, withIDs s.Result IDs) := by
  obtain ⟨_, hlen, hmd, hty, hcal, hne⟩ := h
  simp only [CalleeFor, hT, if_true] at hcal
  obtain ⟨s, hs, hg⟩ := getComposite_of_top c L.SymID IDs L.SCTy hmd hty (by rw [hlen]; omega)
  refine ⟨s, hs, ⟨fun _ => ⟨_, hg⟩, fun hf => ?_⟩, ?_, ?_⟩
  · rw [hcal] at hf; cases hf
  · simp only [scalarUpdate, hcal, if_true]
  · simp only [compositeUpdate, hcal, if_true, hg, hne, if_false]

theorem updates_of_top_scalar (st : PassState) (L : LoweredCall) (IDs : List Nat)
    (c : CallInst) (h : TopOf st L IDs c) (hT : isComposite L.SCTy = false) :
    ∃ ID, IDs = [ID] ∧ Readable c ∧ scalarUpdate c = some (L.SymID, ID) ∧
      compositeUpdate c = none := by
  obtain ⟨_, hlen, hmd, hty, hcal, hne⟩ := h
  simp only [CalleeFor, hT, Bool.false_eq_true, if_false] at hcal
  rw [leafCount_of_scalar _ hT] at hlen
  obtain ⟨ID, hID⟩ := List.length_eq_one.mp hlen
  have hg : getScalarSpecConstMetadata c = .ok (L.SymID, ID) := by
    simp only [getScalarSpecConstMetadata, hmd, hID]
  refine ⟨ID, hID, ⟨fun hf => ?_, fun _ _ => ⟨_, hg⟩⟩, ?_, ?_⟩
  · rw [hcal.1] at hf; cases hf
  · simp only [scalarUpdate, hcal.1, hcal.2, Bool.false_eq_true, if_false, if_true, hg, hne]
  · simp only [compositeUpdate, hcal.1, Bool.false_eq_true, if_false]
/-! ## Round trip -/

theorem mem_insertedCalls (Ls : List LoweredCall) (c : CallInst) :
    c ∈ insertedCalls Ls ↔ ∃ L ∈ Ls, c ∈ L.Inserted := by
  induction Ls with
  | nil => simp [insertedCalls]
  | cons L rest ih =>
    simp only [insertedCalls, List.mem_append, ih, List.mem_cons, exists_eq_or_imp]

/-- After a run in which every name is non-empty and always used with one type:
every lowered call site has its annotated top-level call among the inserted
calls, and every inserted call is such a call or carries no metadata. -/
theorem run_calls_classified (NDEBUG : Bool) (M : List Function) (st : PassState)
    (hrun : run true NDEBUG M = .ok st)
    (hname : ∀ L ∈ st.Lowered, L.SymID ≠ "")
    (htype : ∀ L1 ∈ st.Lowered, ∀ L2 ∈ st.Lowered, L1.SymID = L2.SymID → L1.SCTy = L2.SCTy) :
    (∀ L ∈ st.Lowered, ∃ IDs c, c ∈ insertedCalls st.Lowered ∧ TopOf st L IDs c) ∧
    (∀ c ∈ insertedCalls st.Lowered, c.MD = none ∨ ∃ L ∈ st.Lowered, ∃ IDs, TopOf st L IDs c) := by
  obtain ⟨hA, hB⟩ := run_traced NDEBUG M st hrun
  have key : ∀ L ∈ st.Lowered, ∃ IDs before top, L.Inserted = before ++ [top] ∧
      (∀ c ∈ before, c.MD = none) ∧ TopOf st L IDs top := by
    intro L hL
    obtain ⟨IDs, hl, before, top, hI, hb, hmd, hty, hcal, _⟩ := hA L hL
    obtain ⟨L1, hL1, hs1, hlen⟩ := hB _ _ hl
    rw [htype L1 hL1 L hL hs1] at hlen
    exact ⟨IDs, before, top, hI, hb, hl, hlen, hmd, hty, hcal, hname L hL⟩
  constructor
  · intro L hL
    obtain ⟨IDs, before, top, hI, _, htop⟩ := key L hL
    refine ⟨IDs, top, (mem_insertedCalls _ _).mpr ⟨L, hL, ?_⟩, htop⟩
    rw [hI]
    simp
  · intro c hc
    obtain ⟨L, hL, hcL⟩ := (mem_insertedCalls _ _).mp hc
    obtain ⟨IDs, before, top, hI, hb, htop⟩ := key L hL
    rw [hI] at hcL
    rcases List.mem_append.mp hcL with h | h
    · exact Or.inl (hb c h)
    · rw [List.mem_singleton.mp h]
      exact Or.inr ⟨L, hL, IDs, htop⟩

theorem updates_of_unrelated (c : CallInst) (h : Unrelated c) :
    Readable c ∧ scalarUpdate c = none ∧ compositeUpdate c = none := by
  rcases h with h | ⟨h1, h2⟩
  · exact updates_of_unannotated c h
  · refine ⟨⟨fun hf => ?_, fun _ hf => ?_⟩, ?_, ?_⟩
    · rw [h1] at hf; cases hf
    · rw [h2] at hf; cases hf
    · simp only [scalarUpdate, h1, h2, Bool.false_eq_true, if_false]
    · simp only [compositeUpdate, h1, Bool.false_eq_true, if_false]

/-- After a run in which every name is non-empty and always used with one type,
the calls inserted at a lowered call site are calls without metadata followed
by the annotated top-level call. -/
theorem run_top_calls (NDEBUG : Bool) (M : List Function) (st : PassState)
    (hrun : run true NDEBUG M = .ok st)
    (hname : ∀ L ∈ st.Lowered, L.SymID ≠ "")
    (htype : ∀ L1 ∈ st.Lowered, ∀ L2 ∈ st.Lowered, L1.SymID = L2.SymID → L1.SCTy = L2.SCTy) :
    ∀ L ∈ st.Lowered, ∃ IDs before top, L.Inserted = before ++ [top] ∧
      (∀ c ∈ before, c.MD = none) ∧ TopOf st L IDs top := by
  obtain ⟨hA, hB⟩ := run_traced NDEBUG M st hrun
  intro L hL
  obtain ⟨IDs, hl, before, top, hI, hb, hmd, hty, hcal, _⟩ := hA L hL
  obtain ⟨L1, hL1, hs1, hlen⟩ := hB _ _ hl
  rw [htype L1 hL1 L hL hs1] at hlen
  exact ⟨IDs, before, top, hI, hb, hl, hlen, hmd, hty, hcal, hname L hL⟩

/-- The annotated call among the calls inserted at a lowered call site is its
top-level call. -/
theorem top_of_annotated (NDEBUG : Bool) (M : List Function) (st : PassState)
    (hrun : run true NDEBUG M = .ok st)
    (hname : ∀ L ∈ st.Lowered, L.SymID ≠ "")
    (htype : ∀ L1 ∈ st.Lowered, ∀ L2 ∈ st.Lowered, L1.SymID = L2.SymID → L1.SCTy = L2.SCTy)
    (L : LoweredCall) (hL : L ∈ st.Lowered) (c : CallInst) (hc : c ∈ L.Inserted)
    (hmd : c.MD ≠ none) : ∃ IDs, TopOf st L IDs c := by
  obtain ⟨IDs, before, top, hI, hb, htop⟩ := run_top_calls NDEBUG M st hrun hname htype L hL
  rw [hI] at hc
  rcases List.mem_append.mp hc with h | h
  · exact absurd (hb c h) hmd
  · rw [List.mem_singleton.mp h]
    exact ⟨IDs, htop⟩

/-- C5, as amended. Take a run in run-time mode in which every symbolic name is
non-empty and always used with one type, and a program in whose defined
functions every direct call is a call the run inserted or a call the reader
passes over (it has no annotation, or its callee is neither intrinsic); the
calls may stand in any functions and in any order, and an inserted call need not
be among them. Then `collectSpecConstantMetadata`, started with empty maps,
returns. For a call site whose annotated call is among the direct calls: the
scalar map sends the name of a scalar constant to the single ID in
`IDMap[name]`, and the composite map sends the name of a composite constant
whose type has at least one scalar leaf to the descriptor list of the flattener
for its type with the `k`-th `ID` replaced by the `k`-th element of
`IDMap[name]`. A name is in the scalar (composite) map only if it is the name of
a scalar (composite) constant with an annotated call among the direct calls.
When all inserted calls are among the direct calls, every call site has its
annotated call among them. -/
theorem collect_after_run (NDEBUG : Bool) (M : List Function) (st : PassState)
    (P : List IRFunction) (hrun : run true NDEBUG M = .ok st)
    (hP : ∀ c ∈ definedCalls P, c ∈ insertedCalls st.Lowered ∨ Unrelated c)
    (hname : ∀ L ∈ st.Lowered, L.SymID ≠ "")
    (htype : ∀ L1 ∈ st.Lowered, ∀ L2 ∈ st.Lowered, L1.SymID = L2.SymID → L1.SCTy = L2.SCTy) :
    ∃ r, collectSpecConstantMetadata P [] [] = .ok r ∧
      (∀ L ∈ st.Lowered, isComposite L.SCTy = false → ReachesReader P L →
        ∃ ID, List.lookup L.SymID st.IDMap = some [ID] ∧
          List.lookup L.SymID r.ScalarIDMap = some ID) ∧
      (∀ L ∈ st.Lowered, isComposite L.SCTy = true → 0 < leafCount L.SCTy →
        ReachesReader P L →
        ∃ IDs s, List.lookup L.SymID st.IDMap = some IDs ∧
          collectCompositeElementsInfoRecursive L.SCTy
            (initialCollectState (leafCount L.SCTy)) = .ok s ∧
          List.lookup L.SymID r.CompositeIDMap = some (withIDs s.Result IDs)) ∧
      (∀ k, (∀ L ∈ st.Lowered, L.SymID = k → isComposite L.SCTy = false →
          ¬ ReachesReader P L) → List.lookup k r.ScalarIDMap = none) ∧
      (∀ k, (∀ L ∈ st.Lowered, L.SymID = k → isComposite L.SCTy = true →
          ¬ ReachesReader P L) → List.lookup k r.CompositeIDMap = none) ∧
      ((∀ c ∈ insertedCalls st.Lowered, c ∈ definedCalls P) →
        ∀ L ∈ st.Lowered, ReachesReader P L) := by
  have hcls : ∀ c ∈ definedCalls P, Unrelated c ∨
      ∃ L ∈ st.Lowered, ∃ IDs, ReachesReader P L ∧ TopOf st L IDs c := by
    intro c hc
    rcases hP c hc with h | h
    · cases hmd : c.MD with
      | none => exact Or.inl (Or.inl hmd)
      | some md =>
        obtain ⟨L, hL, hcL⟩ := (mem_insertedCalls _ _).mp h
        have hne : c.MD ≠ none := by rw [hmd]; exact Option.some_ne_none _
        obtain ⟨IDs, htop⟩ := top_of_annotated NDEBUG M st hrun hname htype L hL c hcL hne
        exact Or.inr ⟨L, hL, IDs, ⟨c, hc, hcL, hne⟩, htop⟩
    · exact Or.inl h
  have hreach : ∀ L ∈ st.Lowered, ReachesReader P L →
      ∃ IDs c, c ∈ definedCalls P ∧ TopOf st L IDs c := by
    intro L hL ⟨c, hc, hcL, hne⟩
    obtain ⟨IDs, htop⟩ := top_of_annotated NDEBUG M st hrun hname htype L hL c hcL hne
    exact ⟨IDs, c, hc, htop⟩
  have hread : ∀ c ∈ definedCalls P, Readable c := by
    intro c hc
    rcases hcls c hc with h | ⟨L, _, IDs, _, h⟩
    · exact (updates_of_unrelated c h).1
    · cases hT : isComposite L.SCTy with
      | true =>
        obtain ⟨_, _, hr, _⟩ := updates_of_top_composite st L IDs c h hT
        exact hr
      | false =>
        obtain ⟨_, _, hr, _⟩ := updates_of_top_scalar st L IDs c h hT
        exact hr
  -- the scalar entries written at the calls
  have hsc : ∀ k v, some (k, v) ∈ (definedCalls P).map scalarUpdate →
      ∃ L ∈ st.Lowered, L.SymID = k ∧ isComposite L.SCTy = false ∧ ReachesReader P L ∧
        List.lookup k st.IDMap = some [v] := by
    intro k v hmem
    obtain ⟨c, hc, hu⟩ := List.mem_map.mp hmem
    rcases hcls c hc with h | ⟨L, hL, IDs, hR, h⟩
    · rw [(updates_of_unrelated c h).2.1] at hu; cases hu
    · cases hT : isComposite L.SCTy with
      | true =>
        obtain ⟨_, _, _, hs, _⟩ := updates_of_top_composite st L IDs c h hT
        rw [hs] at hu; cases hu
      | false =>
        obtain ⟨ID, hID, _, hs, _⟩ := updates_of_top_scalar st L IDs c h hT
        rw [hs] at hu
        simp only [Option.some.injEq, Prod.mk.injEq] at hu
        refine ⟨L, hL, hu.1, hT, hR, ?_⟩
        rw [← hu.1, ← hu.2, ← hID]
        exact h.1
  -- the composite entries written at the calls
  have hco : ∀ k v, some (k, v) ∈ (definedCalls P).map compositeUpdate →
      ∃ L ∈ st.Lowered, L.SymID = k ∧ isComposite L.SCTy = true ∧ ReachesReader P L ∧
        ∃ IDs s, List.lookup k st.IDMap = some IDs ∧
          collectCompositeElementsInfoRecursive L.SCTy (initialCollectState IDs.length) = .ok s ∧
          v = withIDs s.Result IDs := by
    intro k v hmem
    obtain ⟨c, hc, hu⟩ := List.mem_map.mp hmem
    rcases hcls c hc with h | ⟨L, hL, IDs, hR, h⟩
    · rw [(updates_of_unrelated c h).2.2] at hu; cases hu
    · cases hT : isComposite L.SCTy with
      | false =>
        obtain ⟨_, _, _, _, hs⟩ := updates_of_top_scalar st L IDs c h hT
        rw [hs] at hu; cases hu
      | true =>
        obtain ⟨s, hcol, _, _, hs⟩ := updates_of_top_composite st L IDs c h hT
        rw [hs] at hu
        simp only [Option.some.injEq, Prod.mk.injEq] at hu
        refine ⟨L, hL, hu.1, hT, hR, IDs, s, ?_, hcol, hu.2.symm⟩
        rw [← hu.1]
        exact h.1
  obtain ⟨Met, hres⟩ := collectFromCalls_eq (definedCalls P) hread
    (CollectedMetadata.mk false [] [])
  refine ⟨_, by rw [collectSpecConstantMetadata, collectFromFunctions_eq]; exact hres,
    ?_, ?_, ?_, ?_, ?_⟩
  · intro L hL hT hR
    obtain ⟨IDs, c, hc, htop⟩ := hreach L hL hR
    obtain ⟨ID, hID, _, hs, _⟩ := updates_of_top_scalar st L IDs c htop hT
    refine ⟨ID, by rw [← hID]; exact htop.1, ?_⟩
    apply applyUpdates_present
    · rw [← hs]
      exact List.mem_map_of_mem _ hc
    · intro v hv
      obtain ⟨L1, _, hk1, _, _, hl1⟩ := hsc _ _ hv
      have h1 := htop.1
      rw [hID, hl1] at h1
      simp only [Option.some.injEq, List.cons.injEq, and_true] at h1
      exact h1
  · intro L hL hT hpos hR
    obtain ⟨IDs, c, hc, htop⟩ := hreach L hL hR
    obtain ⟨s, hcol, _, _, hs⟩ := updates_of_top_composite st L IDs c htop hT
    have hlen : IDs.length = leafCount L.SCTy := by
      rw [htop.2.1]
      omega
    refine ⟨IDs, s, htop.1, by rw [← hlen]; exact hcol, ?_⟩
    apply applyUpdates_present
    · rw [← hs]
      exact List.mem_map_of_mem _ hc
    · intro v hv
      obtain ⟨L1, hL1, hk1, _, _, IDs1, s1, hl1, hcol1, hv1⟩ := hco _ _ hv
      have h1 := htop.1
      rw [hl1] at h1
      simp only [Option.some.injEq] at h1
      subst h1
      rw [htype L1 hL1 L hL hk1, hcol] at hcol1
      simp only [Except.ok.injEq] at hcol1
      rw [hv1, hcol1]
  · intro k hk
    rw [applyUpdates_absent k _ _ (fun v hv => ?_)]
    · rfl
    · obtain ⟨L1, hL1, hk1, hT1, hR1, _⟩ := hsc _ _ hv
      exact hk L1 hL1 hk1 hT1 hR1
  · intro k hk
    rw [applyUpdates_absent k _ _ (fun v hv => ?_)]
    · rfl
    · obtain ⟨L1, hL1, hk1, hT1, hR1, _⟩ := hco _ _ hv
      exact hk L1 hL1 hk1 hT1 hR1
  · intro hall L hL
    obtain ⟨IDs, before, top, hI, _, htop⟩ := run_top_calls NDEBUG M st hrun hname htype L hL
    have hin : top ∈ L.Inserted := by rw [hI]; simp
    refine ⟨top, hall top ((mem_insertedCalls _ _).mpr ⟨L, hL, hin⟩), hin, ?_⟩
    rw [htop.2.2.1]
    exact Option.some_ne_none _

theorem same_type_of_nodup (Ls : List LoweredCall) (h : (Ls.map (fun L => L.SymID)).Nodup) :
    ∀ L1 ∈ Ls, ∀ L2 ∈ Ls, L1.SymID = L2.SymID → L1.SCTy = L2.SCTy := by
  intro L1 h1 L2 h2 he
  rw [List.inj_on_of_nodup_map h h1 h2 he]

theorem definedCalls_rewritten (st : PassState) (c : CallInst) :
    c ∈ definedCalls (rewritten st) ↔ c ∈ insertedCalls st.Lowered := by
  simp [rewritten, definedCalls]

theorem definedCalls_roundTripProgram (c : CallInst) :
    c ∈ definedCalls roundTripProgram ↔
      c = CallInst.mk (.integer 32) "_Z3fooi" [.constInt32 7] none ∨
      c = CallInst.mk (.integer 32) "_Z3fooi" [.constInt32 8] none ∨
      c ∈ insertedCalls (finalState (run true true roundTripModule)).Lowered ∨
      c = CallInst.mk (.integer 32) "_Z3fooi" [.constInt32 9] none := by
  simp [roundTripProgram, definedCalls]

/-- C5 at `roundTripModule`, with the inserted calls among calls of another
function: the reader returns `ConstA -> 0` and
`ConstB -> [{1, 0, 4}, {2, 4, 4}]`. -/
theorem collect_after_run_witness :
    run true true roundTripModule = .ok (finalState (run true true roundTripModule)) ∧
    (∀ c ∈ definedCalls roundTripProgram,
      c ∈ insertedCalls (finalState (run true true roundTripModule)).Lowered ∨ Unrelated c) ∧
    (∀ L ∈ (finalState (run true true roundTripModule)).Lowered, L.SymID ≠ "") ∧
    (∀ L1 ∈ (finalState (run true true roundTripModule)).Lowered,
      ∀ L2 ∈ (finalState (run true true roundTripModule)).Lowered,
      L1.SymID = L2.SymID → L1.SCTy = L2.SCTy) ∧
    (finalState (run true true roundTripModule)).IDMap = [("ConstA", [0]), ("ConstB", [1, 2])] ∧
    (definedCalls roundTripProgram).length = 7 ∧
    (∀ c ∈ insertedCalls (finalState (run true true roundTripModule)).Lowered,
      c ∈ definedCalls roundTripProgram) ∧
    collectSpecConstantMetadata roundTripProgram [] [] =
      .ok (CollectedMetadata.mk true [("ConstA", 0)]
        [("ConstB", [CompositeSpecConstElementDescriptor.mk 1 0 4,
          CompositeSpecConstElementDescriptor.mk 2 4 4])]) ∧
    ∃ r, collectSpecConstantMetadata roundTripProgram [] [] = .ok r ∧
      (∀ L ∈ (finalState (run true true roundTripModule)).Lowered, isComposite L.SCTy = false →
        ReachesReader roundTripProgram L →
        ∃ ID, List.lookup L.SymID (finalState (run true true roundTripModule)).IDMap = some [ID] ∧
          List.lookup L.SymID r.ScalarIDMap = some ID) ∧
      (∀ L ∈ (finalState (run true true roundTripModule)).Lowered, isComposite L.SCTy = true →
        0 < leafCount L.SCTy → ReachesReader roundTripProgram L →
        ∃ IDs s, List.lookup L.SymID (finalState (run true true roundTripModule)).IDMap
            = some IDs ∧
          collectCompositeElementsInfoRecursive L.SCTy
            (initialCollectState (leafCount L.SCTy)) = .ok s ∧
          List.lookup L.SymID r.CompositeIDMap = some (withIDs s.Result IDs)) ∧
      (∀ k, (∀ L ∈ (finalState (run true true roundTripModule)).Lowered,
          L.SymID = k → isComposite L.SCTy = false → ¬ ReachesReader roundTripProgram L) →
        List.lookup k r.ScalarIDMap = none) ∧
      (∀ k, (∀ L ∈ (finalState (run true true roundTripModule)).Lowered,
          L.SymID = k → isComposite L.SCTy = true → ¬ ReachesReader roundTripProgram L) →
        List.lookup k r.CompositeIDMap = none) ∧
      ((∀ c ∈ insertedCalls (finalState (run true true roundTripModule)).Lowered,
          c ∈ definedCalls roundTripProgram) →
        ∀ L ∈ (finalState (run true true roundTripModule)).Lowered,
          ReachesReader roundTripProgram L) :=
  have hP : ∀ c ∈ definedCalls roundTripProgram,
      c ∈ insertedCalls (finalState (run true true roundTripModule)).Lowered ∨ Unrelated c :=
    fun c hc => by
      rcases (definedCalls_roundTripProgram c).mp hc with h | h | h | h
      · exact Or.inr (Or.inl (by rw [h]))
      · exact Or.inr (Or.inl (by rw [h]))
      · exact Or.inl h
      · exact Or.inr (Or.inl (by rw [h]))
  ⟨rfl, hP, by decide, same_type_of_nodup _ (by decide), by decide, rfl,
    fun c hc => (definedCalls_roundTripProgram c).mpr (Or.inr (Or.inr (Or.inl hc))),
    by decide,
    collect_after_run true roundTripModule _ _ rfl hP (by decide)
      (same_type_of_nodup _ (by decide))⟩

/-- C5, counterexample. In `zeroLeafModule` the composite constant `ConstA` has
the type `[0 x i32]`. The run stores `IDMap[ConstA] = [0]`, and the reader
returns a composite map that sends `ConstA` to one descriptor
`{ID 0, Offset 0, Size 0}`, while the flattener yields no descriptor for the
type, so that the list the claim describes is empty. -/
theorem collect_after_run_zero_leaves :
    run true true zeroLeafModule = .ok (finalState (run true true zeroLeafModule)) ∧
    (finalState (run true true zeroLeafModule)).IDMap = [("ConstA", [0])] ∧
    collectSpecConstantMetadata (rewritten (finalState (run true true zeroLeafModule))) [] [] =
      .ok (CollectedMetadata.mk true []
        [("ConstA", [CompositeSpecConstElementDescriptor.mk 0 0 0])]) ∧
    collectCompositeElementsInfoRecursive (.array (.integer 32) 0)
        (initialCollectState (leafCount (.array (.integer 32) 0))) =
      .ok (CollectState.mk 0 0 []) ∧
    withIDs [] [0] = [] :=
  ⟨rfl, by decide, by decide, by decide, by decide⟩

/-- The name `emitCall` mangles leaves out the result type. In `collidingModule`
the composite calls inserted for `ConstA` and for `ConstB` have the same
arguments types `i32, float` and so the same callee name, while their result
types are `%struct.A` and `%struct.B`: `Module::getOrInsertFunction` is asked
twice for one name with two function types. When the second of these calls is
not among the direct calls of the program (`collidingProgram`), the reader
returns a composite map without `ConstB`, whose IDs are in `IDMap`. -/
theorem reader_skips_colliding_callee :
    run true true collidingModule = .ok (finalState (run true true collidingModule)) ∧
    (finalState (run true true collidingModule)).IDMap =
      [("ConstA", [0, 1]), ("ConstB", [2, 3])] ∧
    (insertedCalls (finalState (run true true collidingModule)).Lowered).map
        (fun c => (c.Callee, c.Args.map Value.getType, c.Ty)) =
      [("_Z20__spirv_SpecConstantii", [.integer 32, .integer 32], .integer 32),
       ("_Z20__spirv_SpecConstantif", [.integer 32, .fp .float], .fp .float),
       ("_Z29__spirv_SpecConstantCompositeif", [.integer 32, .fp .float],
         .struct "struct.A" [.integer 32, .fp .float]),
       ("_Z20__spirv_SpecConstantii", [.integer 32, .integer 32], .integer 32),
       ("_Z20__spirv_SpecConstantif", [.integer 32, .fp .float], .fp .float),
       ("_Z29__spirv_SpecConstantCompositeif", [.integer 32, .fp .float],
         .struct "struct.B" [.integer 32, .fp .float])] ∧
    (insertedCalls (finalState (run true true collidingModule)).Lowered).map
        (fun c => c.MD) =
      [none, none, some ("ConstA", [0, 1]), none, none, some ("ConstB", [2, 3])] ∧
    collectSpecConstantMetadata collidingProgram [] [] =
      .ok (CollectedMetadata.mk true []
        [("ConstA", [CompositeSpecConstElementDescriptor.mk 0 0 4,
          CompositeSpecConstElementDescriptor.mk 1 4 4])]) :=
  ⟨rfl, by decide, rfl, by decide, by decide⟩

/-! ## Which types `getDefaultCPPValue` rejects -/

theorem getDefaultCPPValueElements_reject (elems : List Ty)
    (ih : ∀ T ∈ elems, numeric T = false → getDefaultCPPValue T = .error (.unreachable
      ("non-numeric (or composites consisting of non-numeric types) " ++
        "specialization constants are NYI")))
    (ihok : ∀ T ∈ elems, numeric T = true → ∃ c, getDefaultCPPValue T = .ok c) :
    numericElements elems = false → getDefaultCPPValueElements elems = .error (.unreachable
      ("non-numeric (or composites consisting of non-numeric types) " ++
        "specialization constants are NYI")) := by
  induction elems with
  | nil => intro h; simp [numericElements] at h
  | cons T rest ihl =>
    intro h
    cases hT : numeric T with
    | false => simp only [getDefaultCPPValueElements, ih T (List.mem_cons_self _ _) hT]
    | true =>
      obtain ⟨c, hc⟩ := ihok T (List.mem_cons_self _ _) hT
      simp only [numericElements, hT, Bool.true_and] at h
      have hr := ihl (fun U hU => ih U (List.mem_cons_of_mem _ hU))
        (fun U hU => ihok U (List.mem_cons_of_mem _ hU)) h
      simp only [getDefaultCPPValueElements, hc, hr]

theorem getDefaultCPPValue_reject (T : Ty) :
    numeric T = false → getDefaultCPPValue T = .error (.unreachable
      ("non-numeric (or composites consisting of non-numeric types) " ++
        "specialization constants are NYI")) := by
  induction T using Ty.induction with
  | hint bits => intro h; simp [numeric] at h
  | hfp k => intro h; simp [numeric] at h
  | hptr => intro _; rfl
  | harr elem num ih =>
    intro h
    simp only [numeric] at h
    simp only [getDefaultCPPValue, ih h]
  | hstruct name elems ih =>
    intro h
    simp only [numeric] at h
    have hr := getDefaultCPPValueElements_reject elems ih
      (fun T _ hT => (getDefaultCPPValue_spec T hT).imp (fun _ hc => hc.1)) h
    simp only [getDefaultCPPValue, hr]
  | hvec elem num ih =>
    intro h
    simp only [numeric] at h
    simp only [getDefaultCPPValue, ih h]

/-- C12. `getDefaultCPPValue` rejects exactly the types with a scalar
constituent that is neither an integer nor a floating point number: for such a
type, a pointer alone or inside arrays, structs and vectors of any element
count, it stops at `llvm_unreachable` with the message that such constants are
not yet implemented; for every other type it returns a constant of that type.
So a pointer, a struct with a pointer field and an array of no pointers are
rejected, an `i128` and a vector of `half` are not. -/
theorem getDefaultCPPValue_rejects_exactly :
    (∀ T : Ty,
      (numeric T = false ∧ getDefaultCPPValue T = .error (.unreachable
        ("non-numeric (or composites consisting of non-numeric types) " ++
          "specialization constants are NYI"))) ∨
      (numeric T = true ∧ ∃ c, getDefaultCPPValue T = .ok c ∧ c.getType = T)) ∧
    numeric .pointer = false ∧
    numeric (.struct "S" [.integer 32, .fixedVector .pointer 2]) = false ∧
    numeric (.array .pointer 0) = false ∧
    numeric (.integer 128) = true ∧ numeric (.fixedVector (.fp .half) 4) = true := by
  refine ⟨?_, by decide, by decide, by decide, by decide, by decide⟩
  intro T
  cases h : numeric T with
  | false => exact Or.inl ⟨rfl, getDefaultCPPValue_reject T h⟩
  | true =>
    obtain ⟨c, hc, hty, _⟩ := getDefaultCPPValue_spec T h
    exact Or.inr ⟨rfl, c, hc, hty⟩

/-! ## Unsupported integer widths -/

theorem manglePrimitiveType_bad_int (bits : Nat) (h : supportedScalar (.integer bits) = false) :
    manglePrimitiveType (.integer bits) =
      .error (.unreachable "unsupported spec const integer type") := by
  simp only [supportedScalar, Bool.or_eq_false_iff, decide_eq_false_iff_not] at h
  obtain ⟨⟨⟨⟨h1, h2⟩, h3⟩, h4⟩, h5⟩ := h
  simp only [manglePrimitiveType, h1, h2, h3, h4, h5, if_false]

theorem emitSpecConstant_bad_int (b bits : Nat) (Out : List CallInst)
    (h : supportedScalar (.integer bits) = false) :
    emitSpecConstant b (.integer bits) Out =
      .error (.unreachable "unsupported spec const integer type") := by
  have h32 : manglePrimitiveType (.integer 32) = .ok "i" := rfl
  simp only [emitSpecConstant, getDefaultCPPValue, emitCall, mangleFuncItanium, List.map_cons,
    List.map_nil, Value.getType, Constant.getType, mangleParams, h32,
    manglePrimitiveType_bad_int bits h]

theorem emitScalar_bad_int (bits : Nat) (h : supportedScalar (.integer bits) = false)
    (IsNew : Bool) (s : EmitState) :
    ∃ e, emitScalar (.integer bits) IsNew s = .error e := by
  simp only [emitScalar]
  split
  · exact ⟨_, rfl⟩
  · split
    · exact ⟨_, rfl⟩
    · simp only [emitSpecConstant_bad_int _ bits _ h]
      exact ⟨_, rfl⟩

theorem mem_repeatList {α : Type} (L : List α) (n : Nat) (x : α) (h : x ∈ repeatList L n) :
    0 < n ∧ x ∈ L := by
  induction n with
  | zero => simp [repeatList] at h
  | succ n ih =>
    simp only [repeatList, List.mem_append] at h
    rcases h with h | h
    · exact ⟨Nat.succ_pos _, h⟩
    · exact ⟨Nat.succ_pos _, (ih h).2⟩

theorem mem_leavesElements (elems : List Ty) (S : Ty) (h : S ∈ leavesElements elems) :
    ∃ T ∈ elems, S ∈ leaves T := by
  induction elems with
  | nil => simp [leavesElements] at h
  | cons T rest ih =>
    simp only [leavesElements, List.mem_append] at h
    rcases h with h | h
    · exact ⟨T, List.mem_cons_self _ _, h⟩
    · obtain ⟨U, hU, hS⟩ := ih h
      exact ⟨U, List.mem_cons_of_mem _ hU, hS⟩

theorem LoopIteration_error (f : EmitState → Res (Value × EmitState))
    (p : List Value × EmitState) (e : Failure) (h : f p.2 = .error e) :
    LoopIteration f p = .error e := by
  simp only [LoopIteration, h]

theorem loopN_emit_bad (elem : Ty) (IsNew : Bool)
    (ih : ∀ s, ∃ e, emitSpecConstantRecursiveImpl elem IsNew s = .error e) (n : Nat)
    (hn : 0 < n) (p : List Value × EmitState) :
    ∃ e, loopN (LoopIteration (fun s1 => emitSpecConstantRecursiveImpl elem IsNew s1)) n p
      = .error e := by
  obtain ⟨k, rfl⟩ : ∃ k, n = k + 1 := ⟨n - 1, by omega⟩
  obtain ⟨e, he⟩ := ih p.2
  exact ⟨e, by simp only [loopN, LoopIteration_error _ p e he]⟩

theorem emitElements_bad (elems : List Ty) (IsNew : Bool) (T : Ty) (hT : T ∈ elems)
    (ih : ∀ s, ∃ e, emitSpecConstantRecursiveImpl T IsNew s = .error e) :
    ∀ p, ∃ e, emitSpecConstantRecursiveElements elems IsNew p = .error e := by
  induction elems with
  | nil => cases hT
  | cons U rest ihl =>
    intro p
    simp only [emitSpecConstantRecursiveElements]
    cases hb : LoopIteration (fun s1 => emitSpecConstantRecursiveImpl U IsNew s1) p with
    | error e => exact ⟨e, rfl⟩
    | ok p1 =>
      rcases List.mem_cons.mp hT with h | h
      · subst h
        obtain ⟨e, he⟩ := ih p.2
        rw [LoopIteration_error _ p e he] at hb
        cases hb
      · exact ihl h p1

/-- The emitter stops without a result on every type with an integer leaf of a
width the mangler has no code for. -/
theorem emitImpl_bad_leaf (T : Ty) :
    ∀ bits, Ty.integer bits ∈ leaves T → supportedScalar (.integer bits) = false →
      ∀ IsNew s, ∃ e, emitSpecConstantRecursiveImpl T IsNew s = .error e := by
  induction T using Ty.induction with
  | hint b =>
    intro bits hmem hbad IsNew s
    simp only [leaves, List.mem_singleton] at hmem
    injection hmem with hb
    subst hb
    simpa only [emitSpecConstantRecursiveImpl] using emitScalar_bad_int bits hbad IsNew s
  | hfp k => intro bits hmem; simp [leaves] at hmem
  | hptr => intro bits hmem; simp [leaves] at hmem
  | harr elem num ih =>
    intro bits hmem hbad IsNew s
    simp only [leaves] at hmem
    obtain ⟨hn, hm⟩ := mem_repeatList _ _ _ hmem
    obtain ⟨e, he⟩ := loopN_emit_bad elem IsNew (ih bits hm hbad IsNew) num hn ([], s)
    exact ⟨e, by simp only [emitSpecConstantRecursiveImpl, he]⟩
  | hstruct name elems ih =>
    intro bits hmem hbad IsNew s
    simp only [leaves] at hmem
    obtain ⟨U, hU, hS⟩ := mem_leavesElements _ _ hmem
    obtain ⟨e, he⟩ := emitElements_bad elems IsNew U hU (ih U hU bits hS hbad IsNew) ([], s)
    exact ⟨e, by simp only [emitSpecConstantRecursiveImpl, he]⟩
  | hvec elem num ih =>
    intro bits hmem hbad IsNew s
    simp only [leaves] at hmem
    obtain ⟨hn, hm⟩ := mem_repeatList _ _ _ hmem
    obtain ⟨e, he⟩ := loopN_emit_bad elem IsNew (ih bits hm hbad IsNew) num hn ([], s)
    exact ⟨e, by simp only [emitSpecConstantRecursiveImpl, he]⟩

theorem getDefaultCPPValue_error (T : Ty) (e : Failure) (h : getDefaultCPPValue T = .error e) :
    e.isUnreachable = true := by
  cases hn : numeric T with
  | false =>
    rw [getDefaultCPPValue_reject T hn] at h
    injection h with h
    rw [← h]
    rfl
  | true =>
    obtain ⟨c, hc, _⟩ := getDefaultCPPValue_spec T hn
    rw [hc] at h
    cases h

theorem manglePrimitiveType_error (T : Ty) :
    ∀ e, manglePrimitiveType T = .error e → e.isUnreachable = true := by
  induction T using Ty.induction with
  | hint bits =>
    intro e h
    simp only [manglePrimitiveType] at h
    repeat' split at h
    all_goals first | (injection h with h; rw [← h]; rfl) | cases h
  | hfp k =>
    intro e h
    cases k <;> first | (injection h with h; rw [← h]; rfl) | cases h
  | hptr =>
    intro e h
    injection h with h
    rw [← h]
    rfl
  | harr elem num ih =>
    intro e h
    simp only [manglePrimitiveType] at h
    cases hm : manglePrimitiveType elem with
    | error e1 =>
      rw [hm] at h
      injection h with h
      exact h ▸ ih e1 hm
    | ok r => rw [hm] at h; cases h
  | hstruct name elems _ => intro e h; cases h
  | hvec elem num ih =>
    intro e h
    simp only [manglePrimitiveType] at h
    cases hm : manglePrimitiveType elem with
    | error e1 =>
      rw [hm] at h
      injection h with h
      exact h ▸ ih e1 hm
    | ok r => rw [hm] at h; cases h

theorem mangleParams_error (Params : List Ty) :
    ∀ Res e, mangleParams Params Res = .error e → e.isUnreachable = true := by
  induction Params with
  | nil => intro Res e h; cases h
  | cons T rest ih =>
    intro Res e h
    simp only [mangleParams] at h
    cases hm : manglePrimitiveType T with
    | error e1 =>
      rw [hm] at h
      injection h with h
      exact h ▸ manglePrimitiveType_error T e1 hm
    | ok r =>
      rw [hm] at h
      exact ih _ e h

theorem emitCall_error (RetTy : Ty) (Base : String) (Args : List Value) (Out : List CallInst)
    (e : Failure) (h : emitCall RetTy Base Args Out = .error e) : e.isUnreachable = true := by
  simp only [emitCall] at h
  cases hm : mangleFuncItanium Base (Args.map Value.getType) with
  | error e1 =>
    rw [hm] at h
    injection h with h
    exact h ▸ mangleParams_error _ _ e1 hm
  | ok r => rw [hm] at h; cases h

theorem emitSpecConstant_error (b : Nat) (T : Ty) (Out : List CallInst) (e : Failure)
    (h : emitSpecConstant b T Out = .error e) : e.isUnreachable = true := by
  simp only [emitSpecConstant] at h
  cases hd : getDefaultCPPValue T with
  | error e1 =>
    rw [hd] at h
    injection h with h
    exact h ▸ getDefaultCPPValue_error T e1 hd
  | ok Def =>
    rw [hd] at h
    exact emitCall_error _ _ _ _ e h

theorem emitScalar_error (T : Ty) (IsNew : Bool) (s : EmitState) (e : Failure)
    (hne : s.IDs ≠ []) (h : emitScalar T IsNew s = .error e) : e.isUnreachable = true := by
  obtain ⟨b, hb⟩ : ∃ b, s.IDs.getLast? = some b := by
    cases hl : s.IDs.getLast? with
    | none => exact absurd (List.getLast?_eq_none_iff.mp hl) hne
    | some b => exact ⟨b, rfl⟩
  simp only [emitScalar, hb] at h
  by_cases hc : (IsNew && !s.IsFirstElement) = true
  · simp only [hc, if_true, List.getLast?_concat] at h
    cases he : emitSpecConstant (toUnsigned (b + 1)) T s.Out with
    | error e1 =>
      rw [he] at h
      injection h with h
      exact h ▸ emitSpecConstant_error _ _ _ e1 he
    | ok r => rw [he] at h; cases h
  · have hc1 : (IsNew && !s.IsFirstElement) = false := by simpa using hc
    simp only [hc1, Bool.false_eq_true, if_false, hb] at h
    cases he : emitSpecConstant b T s.Out with
    | error e1 =>
      rw [he] at h
      injection h with h
      exact h ▸ emitSpecConstant_error _ _ _ e1 he
    | ok r => rw [he] at h; cases h

theorem LoopIteration_of_error (f : EmitState → Res (Value × EmitState))
    (p : List Value × EmitState) (e : Failure) (h : LoopIteration f p = .error e) :
    f p.2 = .error e := by
  simp only [LoopIteration] at h
  cases hf : f p.2 with
  | error e1 =>
    simp only [hf, Except.error.injEq] at h
    rw [h]
  | ok r => rw [hf] at h; cases h

theorem loopN_emit_error (elem : Ty) (IsNew : Bool)
    (ih : ∀ s e, s.IDs ≠ [] → emitSpecConstantRecursiveImpl elem IsNew s = .error e →
      e.isUnreachable = true) (n : Nat) :
    ∀ (p : List Value × EmitState) e, p.2.IDs ≠ [] →
      loopN (LoopIteration (fun s1 => emitSpecConstantRecursiveImpl elem IsNew s1)) n p
        = .error e → e.isUnreachable = true := by
  induction n with
  | zero => intro p e _ h; cases h
  | succ n ihn =>
    intro p e hne h
    simp only [loopN] at h
    cases hb : LoopIteration (fun s1 => emitSpecConstantRecursiveImpl elem IsNew s1) p with
    | error e1 =>
      rw [hb] at h
      injection h with h
      exact h ▸ ih p.2 e1 hne (LoopIteration_of_error _ _ _ hb)
    | ok p1 =>
      rw [hb] at h
      obtain ⟨I, s1, hf, hp1⟩ := LoopIteration_spec _ _ _ hb
      have hpost := emitImpl_post elem IsNew p.2 I s1 hf
      subst hp1
      exact ihn _ e (hpost.ids_ne_nil hne) h

theorem emitElements_error (elems : List Ty) (IsNew : Bool)
    (ih : ∀ T ∈ elems, ∀ s e, s.IDs ≠ [] → emitSpecConstantRecursiveImpl T IsNew s = .error e →
      e.isUnreachable = true) :
    ∀ (p : List Value × EmitState) e, p.2.IDs ≠ [] →
      emitSpecConstantRecursiveElements elems IsNew p = .error e → e.isUnreachable = true := by
  induction elems with
  | nil => intro p e _ h; cases h
  | cons T rest ihl =>
    intro p e hne h
    simp only [emitSpecConstantRecursiveElements] at h
    cases hb : LoopIteration (fun s1 => emitSpecConstantRecursiveImpl T IsNew s1) p with
    | error e1 =>
      rw [hb] at h
      injection h with h
      exact h ▸ ih T (List.mem_cons_self _ _) p.2 e1 hne (LoopIteration_of_error _ _ _ hb)
    | ok p1 =>
      rw [hb] at h
      obtain ⟨I, s1, hf, hp1⟩ := LoopIteration_spec _ _ _ hb
      have hpost := emitImpl_post T IsNew p.2 I s1 hf
      subst hp1
      exact ihl (fun U hU => ih U (List.mem_cons_of_mem _ hU)) _ e (hpost.ids_ne_nil hne) h

theorem emitComposite_error (T : Ty) (p : List Value × EmitState) (e : Failure)
    (h : emitComposite T p = .error e) : e.isUnreachable = true := by
  simp only [emitComposite, emitSpecConstantComposite] at h
  cases he : emitCall T SPIRV_GET_SPEC_CONST_COMPOSITE p.1 p.2.Out with
  | error e1 =>
    rw [he] at h
    injection h with h
    exact h ▸ emitCall_error _ _ _ _ e1 he
  | ok r => rw [he] at h; cases h

/-- With a non-empty `IDs`, the emitter stops without a result only at an
`llvm_unreachable`. -/
theorem emitImpl_error (T : Ty) :
    ∀ IsNew s e, s.IDs ≠ [] → emitSpecConstantRecursiveImpl T IsNew s = .error e →
      e.isUnreachable = true := by
  induction T using Ty.induction with
  | hint bits =>
    intro IsNew s e hne h
    exact emitScalar_error (.integer bits) IsNew s e hne
      (by simpa only [emitSpecConstantRecursiveImpl] using h)
  | hfp k =>
    intro IsNew s e hne h
    exact emitScalar_error (.fp k) IsNew s e hne
      (by simpa only [emitSpecConstantRecursiveImpl] using h)
  | hptr =>
    intro IsNew s e hne h
    exact emitScalar_error .pointer IsNew s e hne
      (by simpa only [emitSpecConstantRecursiveImpl] using h)
  | harr elem num ih =>
    intro IsNew s e hne h
    simp only [emitSpecConstantRecursiveImpl] at h
    cases hl : loopN (LoopIteration
        (fun s1 => emitSpecConstantRecursiveImpl elem IsNew s1)) num ([], s) with
    | error e1 =>
      rw [hl] at h
      injection h with h
      exact h ▸ loopN_emit_error elem IsNew (ih IsNew) num _ e1 hne hl
    | ok p =>
      rw [hl] at h
      exact emitComposite_error _ _ e h
  | hstruct name elems ih =>
    intro IsNew s e hne h
    simp only [emitSpecConstantRecursiveImpl] at h
    cases hl : emitSpecConstantRecursiveElements elems IsNew ([], s) with
    | error e1 =>
      rw [hl] at h
      injection h with h
      exact h ▸ emitElements_error elems IsNew (fun T hT => ih T hT IsNew) _ e1 hne hl
    | ok p =>
      rw [hl] at h
      exact emitComposite_error _ _ e h
  | hvec elem num ih =>
    intro IsNew s e hne h
    simp only [emitSpecConstantRecursiveImpl] at h
    cases hl : loopN (LoopIteration
        (fun s1 => emitSpecConstantRecursiveImpl elem IsNew s1)) num ([], s) with
    | error e1 =>
      rw [hl] at h
      injection h with h
      exact h ▸ loopN_emit_error elem IsNew (ih IsNew) num _ e1 hne hl
    | ok p =>
      rw [hl] at h
      exact emitComposite_error _ _ e h

theorem emitSpecConstantRecursive_error (T : Ty) (Out : List CallInst) (IDs : List Nat)
    (IsNew : Bool) (e : Failure) (h : emitSpecConstantRecursiveImpl T IsNew
      (EmitState.mk Out IDs true) = .error e) :
    emitSpecConstantRecursive T Out IDs IsNew = .error e := by
  simp only [emitSpecConstantRecursive, h]

theorem processCallSite_bad_leaf (NDEBUG IsComposite : Bool) (CI : CallSite) (st : PassState)
    (SCTy : Ty) (bits : Nat) (hty : siteType IsComposite CI = .ok SCTy)
    (hleaf : Ty.integer bits ∈ leaves SCTy) (hbits : supportedScalar (.integer bits) = false) :
    (∃ e, processCallSite true NDEBUG IsComposite CI st = .error e) ∧
    ∀ SymID DelInsts, siteName NDEBUG IsComposite CI = .ok (SymID, DelInsts) →
      List.lookup SymID st.IDMap ≠ some [] →
      ∃ msg, processCallSite true NDEBUG IsComposite CI st = .error (.unreachable msg) := by
  have key : ∀ SymID DelInsts, siteName NDEBUG IsComposite CI = .ok (SymID, DelInsts) →
      ∃ e, processCallSite true NDEBUG IsComposite CI st = .error e ∧
        (List.lookup SymID st.IDMap ≠ some [] → e.isUnreachable = true) := by
    intro SymID DelInsts hname
    simp only [processCallSite, hty, hname, if_true]
    cases hl : List.lookup SymID st.IDMap with
    | none =>
      obtain ⟨e, he⟩ := emitImpl_bad_leaf SCTy bits hleaf hbits true
        (EmitState.mk [] [st.NextID] true)
      refine ⟨e, ?_, fun _ => emitImpl_error SCTy true _ e (by simp) he⟩
      simp only [Option.isNone_none, if_true, emitSpecConstantRecursive_error _ _ _ _ e he]
    | some IDs0 =>
      obtain ⟨e, he⟩ := emitImpl_bad_leaf SCTy bits hleaf hbits false
        (EmitState.mk [] IDs0 true)
      refine ⟨e, ?_, fun hne => emitImpl_error SCTy false _ e
        (fun h0 => hne (by rw [← h0])) he⟩
      simp only [Option.isNone_some, Bool.false_eq_true, if_false, Option.getD_some,
        emitSpecConstantRecursive_error _ _ _ _ e he]
  constructor
  · cases hname : siteName NDEBUG IsComposite CI with
    | error e => exact ⟨e, by simp only [processCallSite, hty, hname]⟩
    | ok r =>
      obtain ⟨SymID, DelInsts⟩ := r
      obtain ⟨e, he, _⟩ := key SymID DelInsts hname
      exact ⟨e, he⟩
  · intro SymID DelInsts hname hne
    obtain ⟨e, he, hu⟩ := key SymID DelInsts hname
    have := hu hne
    cases e with
    | unreachable msg => exact ⟨msg, he⟩
    | fatal msg => cases this
    | undefined w => cases this

theorem processCallSites_abort (rt nd ic : Bool) (CI : CallSite)
    (h : ∀ st, ∃ e, processCallSite rt nd ic CI st = .error e) (sites : List CallSite)
    (hCI : CI ∈ sites) : ∀ st, ∃ e, processCallSites rt nd ic sites st = .error e := by
  induction sites with
  | nil => cases hCI
  | cons C rest ih =>
    intro st
    simp only [processCallSites]
    cases h1 : processCallSite rt nd ic C st with
    | error e => exact ⟨e, rfl⟩
    | ok st1 =>
      rcases List.mem_cons.mp hCI with hc | hc
      · subst hc
        obtain ⟨e, he⟩ := h st
        rw [he] at h1
        cases h1
      · exact ih hc st1

theorem processFunctions_abort (rt nd : Bool) (F : Function)
    (h : ∀ st, ∃ e, processFunction rt nd F st = .error e) (M : List Function)
    (hF : F ∈ M) : ∀ st, ∃ e, processFunctions rt nd M st = .error e := by
  induction M with
  | nil => cases hF
  | cons G rest ih =>
    intro st
    simp only [processFunctions]
    cases h1 : processFunction rt nd G st with
    | error e => exact ⟨e, rfl⟩
    | ok st1 =>
      rcases List.mem_cons.mp hF with hc | hc
      · subst hc
        obtain ⟨e, he⟩ := h st
        rw [he] at h1
        cases h1
      · exact ih hc st1

theorem isAccessor_iff (F : Function) (h : isAccessor F = true) :
    F.isDeclaration = true ∧ (!startswith F.Name SYCL_GET_SPEC_CONST_VAL &&
      !startswith F.Name SYCL_GET_COMPOSITE_SPEC_CONST_VAL) = false := by
  simp only [isAccessor, Bool.and_eq_true, Bool.or_eq_true] at h
  refine ⟨h.1, ?_⟩
  rcases h.2 with h2 | h2 <;> simp [h2]

/-- C11, as amended. Take a call site of a declared accessor whose constant
type has an integer scalar leaf of a width other than 1, 8, 16, 32 or 64 bits.
In run-time mode `run` stops without a result on every module with that call
site, and so does the processing of the call site from every state; when the
name is extracted and the list stored for it is not empty, as every list `run`
stores is, the stop is an `llvm_unreachable`. -/
theorem run_unsupported_integer (NDEBUG : Bool) (M : List Function) (F : Function)
    (CI : CallSite) (SCTy : Ty) (bits : Nat) (hF : F ∈ M) (hacc : isAccessor F = true)
    (hCI : CI ∈ callUsers F.users)
    (hty : siteType (startswith F.Name SYCL_GET_COMPOSITE_SPEC_CONST_VAL) CI = .ok SCTy)
    (hleaf : Ty.integer bits ∈ leaves SCTy) (hbits : supportedScalar (.integer bits) = false) :
    (∃ e, run true NDEBUG M = .error e) ∧
    (∀ st, ∃ e, processCallSite true NDEBUG
      (startswith F.Name SYCL_GET_COMPOSITE_SPEC_CONST_VAL) CI st = .error e) ∧
    (∀ st SymID DelInsts,
      siteName NDEBUG (startswith F.Name SYCL_GET_COMPOSITE_SPEC_CONST_VAL) CI =
        .ok (SymID, DelInsts) →
      List.lookup SymID st.IDMap ≠ some [] →
      ∃ msg, processCallSite true NDEBUG
        (startswith F.Name SYCL_GET_COMPOSITE_SPEC_CONST_VAL) CI st =
          .error (.unreachable msg)) := by
  have hsite := fun st => processCallSite_bad_leaf NDEBUG
    (startswith F.Name SYCL_GET_COMPOSITE_SPEC_CONST_VAL) CI st SCTy bits hty hleaf hbits
  obtain ⟨hd, hp⟩ := isAccessor_iff F hacc
  refine ⟨?_, fun st => (hsite st).1, fun st => (hsite st).2⟩
  apply processFunctions_abort true NDEBUG F _ M hF
  intro st
  rw [processFunction_accessor true NDEBUG F st hd hp]
  exact processCallSites_abort true NDEBUG _ CI (fun st1 => (hsite st1).1) _ hCI _

/-- C11 at `wideIntModule`: in run-time mode the run stops at the `i128` call
site with `llvm_unreachable`. -/
theorem run_unsupported_integer_witness :
    wideIntAccessor ∈ wideIntModule ∧ isAccessor wideIntAccessor = true ∧
    scalarSite 1 "ConstA" (.integer 128) ∈ callUsers wideIntAccessor.users ∧
    siteType (startswith wideIntAccessor.Name SYCL_GET_COMPOSITE_SPEC_CONST_VAL)
      (scalarSite 1 "ConstA" (.integer 128)) = .ok (.integer 128) ∧
    Ty.integer 128 ∈ leaves (.integer 128) ∧ supportedScalar (.integer 128) = false ∧
    run true true wideIntModule =
      .error (.unreachable "unsupported spec const integer type") ∧
    (∃ e, run true true wideIntModule = .error e) :=
  ⟨List.mem_cons_self _ _, by decide, List.mem_cons_self _ _, rfl,
    List.mem_cons_self _ _, by decide, rfl,
    (run_unsupported_integer true wideIntModule wideIntAccessor
      (scalarSite 1 "ConstA" (.integer 128)) (.integer 128) 128 (List.mem_cons_self _ _)
      (by decide) (List.mem_cons_self _ _) rfl (List.mem_cons_self _ _) (by decide)).1⟩

/-- C11, counterexample. In compile-time mode the same call sites are lowered:
the `i128` constant and the struct `{i32, i128}` are replaced by their zero
values, because `getDefaultCPPValue` takes an integer of any width and no
intrinsic name is mangled. -/
theorem run_fold_wide_integer :
    supportedScalar (.integer 128) = false ∧
    Ty.integer 128 ∈ leaves (.integer 128) ∧
    Ty.integer 128 ∈ leaves (.struct "S" [.integer 32, .integer 128]) ∧
    run false true wideIntModule = .ok (PassState.mk 0 [] true
      [LoweredCall.mk 1 "ConstA" (.integer 128) [] (.constant (.int 128 0)) false [1],
       LoweredCall.mk 2 "ConstB" (.struct "S" [.integer 32, .integer 128]) []
        (.constant (.struct (.struct "S" [.integer 32, .integer 128])
          [.int 32 0, .int 128 0])) true [2]]) ∧
    run false false wideIntModule = run false true wideIntModule :=
  ⟨by decide, List.mem_cons_self _ _, List.mem_cons_of_mem _ (List.mem_cons_self _ _), rfl, rfl⟩

/-! ## Reuse of a name with another type -/

/-- C13, as amended. Take a call site whose symbolic name is already in `IDMap`
with a non-empty list and whose supported type has a number of scalar leaves
different from the length of that list. Its run-time lowering is not stopped:
it returns, `IDMap` and `NextID` are unchanged, and the top-level call of the
type of the call site is annotated with the stored list, whose length is not
the number of scalar leaves of that type. -/
theorem processCallSite_mismatch_reuses (NDEBUG IsComposite : Bool) (CI : CallSite)
    (st : PassState) (SCTy : Ty) (SymID : String) (DelInsts : List Nat) (IDs : List Nat)
    (hty : siteType IsComposite CI = .ok SCTy)
    (hname : siteName NDEBUG IsComposite CI = .ok (SymID, DelInsts))
    (hold : List.lookup SymID st.IDMap = some IDs) (hne : IDs ≠ [])
    (hT : supported SCTy = true) (hmis : leafCount SCTy ≠ IDs.length) :
    ∃ st1 L, processCallSite true NDEBUG IsComposite CI st = .ok st1 ∧
      st1.IDMap = st.IDMap ∧ st1.NextID = st.NextID ∧ st1.Lowered = st.Lowered ++ [L] ∧
      L.SymID = SymID ∧ L.SCTy = SCTy ∧
      ∃ ids, L.annotation = some (SymID, ids) ∧ ids = IDs ∧ ids.length ≠ leafCount L.SCTy := by
  obtain ⟨st1, h⟩ := processCallSite_RT_ok NDEBUG IsComposite CI st SCTy SymID DelInsts hty hname
    hT (by rw [hold]; simpa using hne)
  obtain ⟨SCTy1, SymID1, Del1, L, IDs1, hty1, hname1, hLow, hSym, hSC, hWL, _, hmap, hcase⟩ :=
    processCallSite_RT _ _ _ _ _ h
  rw [hname] at hname1
  rw [hty] at hty1
  simp only [Except.ok.injEq, Prod.mk.injEq] at hname1 hty1
  obtain ⟨hS, _⟩ := hname1
  subst hS
  subst hty1
  rcases hcase with ⟨hnone, _, _⟩ | ⟨hold1, hnext⟩
  · rw [hold] at hnone
    cases hnone
  · rw [hold] at hold1
    simp only [Option.some.injEq] at hold1
    subst hold1
    refine ⟨st1, L, h, ?_, hnext, hLow, hSym, hSC, IDs, ?_, rfl, ?_⟩
    · rw [hmap, assign_of_lookup _ _ _ hold]
    · rw [hWL.annotation, hSym]
    · rw [hSC]
      exact fun h0 => hmis h0.symm

/-- C13 at a call site of type `<2 x i32>` for the name `ConstA`, which has the
one-element list `[0]`. -/
theorem processCallSite_mismatch_reuses_witness :
    siteType false (scalarSite 2 "ConstA" (.fixedVector (.integer 32) 2)) =
      .ok (.fixedVector (.integer 32) 2) ∧
    siteName true false (scalarSite 2 "ConstA" (.fixedVector (.integer 32) 2)) =
      .ok ("ConstA", [2]) ∧
    List.lookup "ConstA" (stateWith 1 [("ConstA", [0])]).IDMap = some [0] ∧
    [0] ≠ ([] : List Nat) ∧ supported (.fixedVector (.integer 32) 2) = true ∧
    leafCount (.fixedVector (.integer 32) 2) ≠ [0].length ∧
    ∃ st1 L, processCallSite true true false
        (scalarSite 2 "ConstA" (.fixedVector (.integer 32) 2))
        (stateWith 1 [("ConstA", [0])]) = .ok st1 ∧
      st1.IDMap = [("ConstA", [0])] ∧ st1.NextID = 1 ∧ st1.Lowered = [L] ∧
      L.annotation = some ("ConstA", [0]) := by
  refine ⟨rfl, by decide, by decide, by decide, by decide, by decide, ?_⟩
  obtain ⟨st1, L, h, h1, h2, h3, _, _, ids, h4, h5, _⟩ := processCallSite_mismatch_reuses true false
    (scalarSite 2 "ConstA" (.fixedVector (.integer 32) 2)) (stateWith 1 [("ConstA", [0])])
    (.fixedVector (.integer 32) 2) "ConstA" [2] [0] rfl (by decide) (by decide) (by decide)
    (by decide) (by decide)
  exact ⟨st1, L, h, h1, h2, h3, by rw [h4, h5]⟩

/-- C13, counterexample. In `mismatchModule` the name `ConstA` is first used
with the type `i32` and gets the list `[0]`, then with the type `<2 x i32>`,
which has two scalar leaves. The run returns: the second call site is lowered
with the stored list, its top-level call is annotated with `[0]` and both of
its leaf calls are given the ID 0. -/
theorem run_mismatch_not_reported :
    ∃ st L1 L2, run true true mismatchModule = .ok st ∧ st.Lowered = [L1, L2] ∧
      st.IDMap = [("ConstA", [0])] ∧ st.NextID = 1 ∧
      leafCount L1.SCTy = 1 ∧ leafCount L2.SCTy = 2 ∧
      L2.annotation = some ("ConstA", [0]) ∧ leafIDs L2.Inserted = [0, 0] ∧
      run true false mismatchModule = run true true mismatchModule :=
  ⟨_, _, _, rfl, rfl, by decide, by decide, by decide, by decide, by decide, by decide, rfl⟩

/-! ## `getStringLiteralArg` -/

theorem findStore_no_store (NDEBUG : Bool) (users : List Instruction) (acc : Option Instruction)
    (h : stores users = []) : findStore NDEBUG users acc = .ok acc := by
  induction users with
  | nil => rfl
  | cons U rest ih =>
    cases hU : U.isStore with
    | true => simp [stores, List.filter, hU] at h
    | false =>
      have hr : stores rest = [] := by
        simpa [stores, List.filter, hU] using h
      simp only [findStore, hU, Bool.false_eq_true, if_false]
      exact ih hr

theorem findStore_debug (users : List Instruction) (St : Instruction)
    (h : (stores users).head? = some St) : findStore false users none = .ok (some St) := by
  induction users with
  | nil => simp [stores] at h
  | cons U rest ih =>
    cases hU : U.isStore with
    | true =>
      have hh : U = St := by simpa [stores, List.filter, hU] using h
      subst hh
      simp [findStore, hU, AssertRelease]
    | false =>
      have hr : (stores rest).head? = some St := by
        simpa [stores, List.filter, hU] using h
      simp only [findStore, hU, Bool.false_eq_true, if_false]
      exact ih hr

theorem findStore_release_second (users : List Instruction) (S : Instruction)
    (h : stores users ≠ []) :
    findStore true users (some S) = .error (.fatal "SpecConstants.cpp: single store expected") := by
  induction users with
  | nil => simp [stores] at h
  | cons U rest ih =>
    cases hU : U.isStore with
    | true => simp [findStore, hU, AssertRelease]
    | false =>
      have hr : stores rest ≠ [] := by
        simpa [stores, List.filter, hU] using h
      simp only [findStore, hU, Bool.false_eq_true, if_false]
      exact ih hr

theorem findStore_release (users : List Instruction) (St : Instruction) (more : List Instruction)
    (h : stores users = St :: more) :
    findStore true users none =
      if more = [] then .ok (some St)
      else .error (.fatal "SpecConstants.cpp: single store expected") := by
  induction users with
  | nil => simp [stores] at h
  | cons U rest ih =>
    cases hU : U.isStore with
    | true =>
      have hh : U = St ∧ stores rest = more := by
        simpa [stores, List.filter, hU] using h
      obtain ⟨h1, h2⟩ := hh
      subst h1
      simp only [findStore, hU, if_true, AssertRelease, Option.isNone_none]
      by_cases hm : more = []
      · rw [if_pos hm]
        exact findStore_no_store true rest _ (by rw [h2, hm])
      · rw [if_neg hm]
        exact findStore_release_second rest U (by rw [h2]; exact hm)
    | false =>
      have hr : stores rest = St :: more := by
        simpa [stores, List.filter, hU] using h
      simp only [findStore, hU, Bool.false_eq_true, if_false]
      exact ih hr

theorem scanToLoad_side_effect (L I : Instruction) (post : List Instruction)
    (hI : I.id ≠ L.id) (hs : I.mayHaveSideEffects = true) (pre : List Instruction)
    (hpre : ∀ J ∈ pre, J.id ≠ L.id) :
    scanToLoad L (pre ++ I :: post) =
      .error (.fatal "SpecConstants.cpp: unexpected spec const IR pattern 1") := by
  induction pre with
  | nil => simp [scanToLoad, hI, hs, AssertRelease]
  | cons J rest ih =>
    have hJ := hpre J (List.mem_cons_self _ _)
    have hr := ih (fun K hK => hpre K (List.mem_cons_of_mem _ hK))
    cases hJs : J.mayHaveSideEffects with
    | true => simp [scanToLoad, hJ, hJs, AssertRelease]
    | false => simp [scanToLoad, hJ, hJs, AssertRelease, hr]

theorem scanToLoad_met (L Lx : Instruction) (post : List Instruction) (hL : Lx.id = L.id)
    (pre : List Instruction) (hpre : ∀ J ∈ pre, J.id ≠ L.id ∧ J.mayHaveSideEffects = false) :
    scanToLoad L (pre ++ Lx :: post) = .ok true := by
  induction pre with
  | nil => simp [scanToLoad, hL]
  | cons J rest ih =>
    obtain ⟨hJ, hJs⟩ := hpre J (List.mem_cons_self _ _)
    have hr := ih (fun K hK => hpre K (List.mem_cons_of_mem _ hK))
    simp [scanToLoad, hJ, hJs, AssertRelease, hr]

/-- C14, as amended. Let the name argument be a load from a local temporary.
If the temporary has no store, `getStringLiteralArg` stops with a fatal error
in both build configurations. If it has two or more stores, it stops with a
fatal error when `NDEBUG` is defined. When `NDEBUG` is not defined, the store
it takes is the first one among the users of the temporary, and it stops with a
fatal error if that store is not in the block of the load, or if an instruction
that may have side effects follows it before the load. -/
theorem getStringLiteralArg_failure_policy (L : Instruction) (users : List Instruction)
    (blocks : List (List Instruction)) (DelInsts : List Nat) :
    (stores users = [] → ∀ NDEBUG,
      getStringLiteralArg NDEBUG (.load L (some users) blocks) DelInsts =
        .error (.fatal "SpecConstants.cpp: unexpected spec const IR pattern 0")) ∧
    (2 ≤ (stores users).length →
      getStringLiteralArg true (.load L (some users) blocks) DelInsts =
        .error (.fatal "SpecConstants.cpp: single store expected")) ∧
    (∀ St, (stores users).head? = some St → L.parent ≠ St.parent →
      getStringLiteralArg false (.load L (some users) blocks) DelInsts =
        .error (.fatal "SpecConstants.cpp: same BB expected")) ∧
    (∀ St, (stores users).head? = some St → L.parent = St.parent →
      SideEffectBetween blocks St L →
      getStringLiteralArg false (.load L (some users) blocks) DelInsts =
        .error (.fatal "SpecConstants.cpp: unexpected spec const IR pattern 1")) := by
  refine ⟨?_, ?_, ?_, ?_⟩
  · intro h NDEBUG
    simp only [getStringLiteralArg, findStore_no_store NDEBUG users none h]
  · intro h
    cases hs : stores users with
    | nil => rw [hs] at h; simp at h
    | cons St more =>
      have hm : more ≠ [] := by
        intro h0
        rw [hs, h0] at h
        simp at h
      simp only [getStringLiteralArg, findStore_release users St more hs, if_neg hm]
  · intro St hSt hbb
    have hbb1 : (L.parent == St.parent) = false := by simpa using hbb
    simp only [getStringLiteralArg, findStore_debug users St hSt, Bool.false_eq_true, if_false,
      hbb1, AssertRelease]
    rfl
  · intro St hSt hbb hse
    obtain ⟨pre, I, post, hn, hpre, hI, hs⟩ := hse
    have hbb1 : (L.parent == St.parent) = true := by simpa using hbb
    simp only [getStringLiteralArg, findStore_debug users St hSt, Bool.false_eq_true, if_false,
      hbb1, AssertRelease, if_true, hn, scanToLoad_side_effect L I post hI hs pre hpre]

/-- C14 at four arguments: no store; two stores with `NDEBUG` defined; the
store in another block, and a call between store and load, with `NDEBUG` not
defined. -/
theorem getStringLiteralArg_failure_policy_witness :
    (stores [nameLoad 4 0] = [] ∧
      getStringLiteralArg true noStoreArg [7] =
        .error (.fatal "SpecConstants.cpp: unexpected spec const IR pattern 0") ∧
      getStringLiteralArg false noStoreArg [7] =
        .error (.fatal "SpecConstants.cpp: unexpected spec const IR pattern 0")) ∧
    (2 ≤ (stores [litStore 3 0, nameLoad 4 0, litStore 6 0]).length ∧
      getStringLiteralArg true twoStoresArg [7] =
        .error (.fatal "SpecConstants.cpp: single store expected")) ∧
    ((stores [nameLoad 4 1, litStore 3 0]).head? = some (litStore 3 0) ∧
      (nameLoad 4 1).parent ≠ (litStore 3 0).parent ∧
      getStringLiteralArg false otherBlockArg [7] =
        .error (.fatal "SpecConstants.cpp: same BB expected")) ∧
    ((stores [nameLoad 4 0, litStore 3 0]).head? = some (litStore 3 0) ∧
      (nameLoad 4 0).parent = (litStore 3 0).parent ∧
      SideEffectBetween [[litStore 3 0, otherCall 5 0, nameLoad 4 0]] (litStore 3 0)
        (nameLoad 4 0) ∧
      getStringLiteralArg false sideEffectArg [7] =
        .error (.fatal "SpecConstants.cpp: unexpected spec const IR pattern 1")) :=
  ⟨⟨by decide,
      (getStringLiteralArg_failure_policy (nameLoad 4 0) [nameLoad 4 0] [[nameLoad 4 0]] [7]).1
        (by decide) true,
      (getStringLiteralArg_failure_policy (nameLoad 4 0) [nameLoad 4 0] [[nameLoad 4 0]] [7]).1
        (by decide) false⟩,
    ⟨by decide,
      (getStringLiteralArg_failure_policy (nameLoad 4 0)
        [litStore 3 0, nameLoad 4 0, litStore 6 0]
        [[litStore 3 0, nameLoad 4 0, litStore 6 0]] [7]).2.1 (by decide)⟩,
    ⟨by decide, by decide,
      (getStringLiteralArg_failure_policy (nameLoad 4 1) [nameLoad 4 1, litStore 3 0]
        [[litStore 3 0], [nameLoad 4 1]] [7]).2.2.1 (litStore 3 0) (by decide) (by decide)⟩,
    ⟨by decide, by decide,
      ⟨[], otherCall 5 0, [nameLoad 4 0], by decide, fun _ h => (by cases h), by decide,
        by decide⟩,
      (getStringLiteralArg_failure_policy (nameLoad 4 0) [nameLoad 4 0, litStore 3 0]
        [[litStore 3 0, otherCall 5 0, nameLoad 4 0]] [7]).2.2.2 (litStore 3 0) (by decide)
        (by decide)
        ⟨[], otherCall 5 0, [nameLoad 4 0], by decide, fun _ h => (by cases h), by decide,
          by decide⟩⟩⟩

/-- C14, counterexample. With `NDEBUG` defined, `getStringLiteralArg` returns
the literal although the store is in another block than the load, and although
a call lies between the store and the load. With `NDEBUG` not defined, it
returns the literal although the temporary has two stores. -/
theorem getStringLiteralArg_not_fatal :
    (nameLoad 4 1).parent ≠ (litStore 3 0).parent ∧
    getStringLiteralArg true otherBlockArg [7] = .ok ("SpecConst", [7, 3]) ∧
    (otherCall 5 0).mayHaveSideEffects = true ∧
    getStringLiteralArg true sideEffectArg [7] = .ok ("SpecConst", [7, 3]) ∧
    (stores [litStore 3 0, nameLoad 4 0, litStore 6 0]).length = 2 ∧
    getStringLiteralArg false twoStoresArg [7] = .ok ("SpecConst", [7, 3, 4]) := by
  refine ⟨by decide, by decide, by decide, by decide, by decide, by decide⟩

theorem stripTrailingNul_nul (body : List Char) :
    stripTrailingNul (String.mk (body ++ [Char.ofNat 0])) = String.mk body := by
  simp only [stripTrailingNul, List.getLast?_concat, if_true, List.dropLast_concat]

theorem stripTrailingNul_other (bytes : String)
    (h : bytes.data.getLast? ≠ some (Char.ofNat 0)) : stripTrailingNul bytes = bytes := by
  simp only [stripTrailingNul, if_neg h]

/-- C15. Let the name argument be a load `L` from a local temporary with exactly
one store `St`, of the address of a global literal, in the block of the load,
followed by the load with only instructions without side effects between them.
Then `getStringLiteralArg` returns the bytes of the literal without one trailing
NUL, and appends the store to `DelInsts`; the load is appended after it only
when `NDEBUG` is not defined. When the argument is the global literal itself the
same text is returned and nothing is appended. -/
theorem getStringLiteralArg_well_formed (NDEBUG : Bool) (L St : Instruction)
    (users : List Instruction) (blocks : List (List Instruction)) (bytes : String)
    (DelInsts : List Nat) (hone : stores users = [St])
    (hval : St.valueOperand = .literal bytes) (hbb : L.parent = St.parent)
    (hnext : LoadFollows blocks St L) :
    getStringLiteralArg NDEBUG (.load L (some users) blocks) DelInsts =
      .ok (stripTrailingNul bytes, DelInsts ++ [St.id] ++ (if NDEBUG then [] else [L.id])) ∧
    getStringLiteralArg NDEBUG (.value (.literal bytes)) DelInsts =
      .ok (stripTrailingNul bytes, DelInsts) ∧
    (∀ body, bytes = String.mk (body ++ [Char.ofNat 0]) →
      stripTrailingNul bytes = String.mk body) ∧
    (bytes.data.getLast? ≠ some (Char.ofNat 0) → stripTrailingNul bytes = bytes) := by
  refine ⟨?_, rfl, fun body hb => by rw [hb, stripTrailingNul_nul],
    stripTrailingNul_other bytes⟩
  obtain ⟨pre, Lx, post, hn, hL, hpre⟩ := hnext
  have hbb1 : (L.parent == St.parent) = true := by simpa using hbb
  cases NDEBUG with
  | true =>
    have hf := findStore_release users St [] hone
    simp only [if_true] at hf
    simp only [getStringLiteralArg, hf, if_true, hval, literalOf, List.append_nil]
  | false =>
    have hf := findStore_debug users St (by rw [hone]; rfl)
    simp only [getStringLiteralArg, hf, Bool.false_eq_true, if_false, hbb1, AssertRelease,
      if_true, hn, scanToLoad_met L Lx post hL pre hpre, hval, literalOf]

/-- C15 at `wellFormedArg`: the literal `SpecConst\0` is returned as
`SpecConst`; with `NDEBUG` not defined the store 3 and the load 4 are appended,
with `NDEBUG` defined only the store 3. -/
theorem getStringLiteralArg_well_formed_witness :
    stores [nameLoad 4 0, litStore 3 0] = [litStore 3 0] ∧
    (litStore 3 0).valueOperand = .literal "SpecConst\x00" ∧
    (nameLoad 4 0).parent = (litStore 3 0).parent ∧
    LoadFollows [[litStore 3 0, nameLoad 4 0]] (litStore 3 0) (nameLoad 4 0) ∧
    stripTrailingNul "SpecConst\x00" = "SpecConst" ∧
    getStringLiteralArg false wellFormedArg [7] = .ok ("SpecConst", [7, 3, 4]) ∧
    getStringLiteralArg true wellFormedArg [7] = .ok ("SpecConst", [7, 3]) ∧
    getStringLiteralArg true (.value (.literal "SpecConst\x00")) [7] = .ok ("SpecConst", [7]) :=
  ⟨by decide, rfl, rfl,
    ⟨[], nameLoad 4 0, [], by decide, rfl, fun _ h => (by cases h)⟩, by decide,
    ((getStringLiteralArg_well_formed false (nameLoad 4 0) (litStore 3 0)
      [nameLoad 4 0, litStore 3 0] [[litStore 3 0, nameLoad 4 0]] "SpecConst\x00" [7]
      (by decide) rfl rfl
      ⟨[], nameLoad 4 0, [], by decide, rfl, fun _ h => (by cases h)⟩).1).trans (by decide),
    ((getStringLiteralArg_well_formed true (nameLoad 4 0) (litStore 3 0)
      [nameLoad 4 0, litStore 3 0] [[litStore 3 0, nameLoad 4 0]] "SpecConst\x00" [7]
      (by decide) rfl rfl
      ⟨[], nameLoad 4 0, [], by decide, rfl, fun _ h => (by cases h)⟩).1).trans (by decide),
    by decide⟩

/-! ## The value `collectSpecConstantMetadata` returns -/

theorem collectFromCall_Met (CI : CallInst) (m m1 : CollectedMetadata)
    (h : collectFromCall CI m = .ok m1) :
    m1.Met = (m.Met || annotatedWithName CI) ∧
    (annotatedWithName CI = false →
      m1.ScalarIDMap = m.ScalarIDMap ∧ m1.CompositeIDMap = m.CompositeIDMap) := by
  simp only [collectFromCall] at h
  by_cases h1 : contains CI.Callee SPIRV_GET_SPEC_CONST_COMPOSITE = true
  · simp only [h1, if_true] at h
    cases hg : getCompositeSpecConstMetadata CI with
    | error e => simp [hg] at h
    | ok r =>
      simp only [hg] at h
      have hr : (r.1 = "" ∧ annotatedWithName CI = false) ∨
          (r.1 ≠ "" ∧ annotatedWithName CI = true) := by
        simp only [getCompositeSpecConstMetadata] at hg
        cases hmd : CI.MD with
        | none =>
          simp only [hmd, Except.ok.injEq] at hg
          left
          exact ⟨by rw [← hg], by simp [annotatedWithName, hmd]⟩
        | some md =>
          obtain ⟨k, ids⟩ := md
          simp only [hmd] at hg
          split at hg
          · cases hg
          · split at hg
            · cases hg
            · simp only [Except.ok.injEq] at hg
              by_cases hk : k = ""
              · left
                exact ⟨by rw [← hg]; exact hk, by simp [annotatedWithName, hmd, hk]⟩
              · right
                exact ⟨by rw [← hg]; exact hk, by simp [annotatedWithName, hmd, hk, h1]⟩
      rcases hr with ⟨ha, hb⟩ | ⟨ha, hb⟩
      · simp only [ha, if_true, Except.ok.injEq] at h
        subst h
        simp [hb]
      · simp only [ha, if_false, Except.ok.injEq] at h
        subst h
        simp [hb]
  · have h1f : contains CI.Callee SPIRV_GET_SPEC_CONST_COMPOSITE = false := by simpa using h1
    simp only [h1f, Bool.false_eq_true, if_false] at h
    by_cases h3 : contains CI.Callee SPIRV_GET_SPEC_CONST_VAL = true
    · simp only [h3, if_true] at h
      cases hg : getScalarSpecConstMetadata CI with
      | error e => simp [hg] at h
      | ok r =>
        simp only [hg] at h
        have hr : (r.1 = "" ∧ annotatedWithName CI = false) ∨
            (r.1 ≠ "" ∧ annotatedWithName CI = true) := by
          simp only [getScalarSpecConstMetadata] at hg
          cases hmd : CI.MD with
          | none =>
            simp only [hmd, Except.ok.injEq] at hg
            left
            exact ⟨by rw [← hg], by simp [annotatedWithName, hmd]⟩
          | some md =>
            obtain ⟨k, ids⟩ := md
            simp only [hmd] at hg
            cases ids with
            | nil => cases hg
            | cons ID rest =>
              simp only [Except.ok.injEq] at hg
              by_cases hk : k = ""
              · left
                exact ⟨by rw [← hg]; exact hk, by simp [annotatedWithName, hmd, hk]⟩
              · right
                exact ⟨by rw [← hg]; exact hk, by simp [annotatedWithName, hmd, hk, h3]⟩
        rcases hr with ⟨ha, hb⟩ | ⟨ha, hb⟩
        · simp only [ha, if_true, Except.ok.injEq] at h
          subst h
          simp [hb]
        · simp only [ha, if_false, Except.ok.injEq] at h
          subst h
          simp [hb]
    · have h3f : contains CI.Callee SPIRV_GET_SPEC_CONST_VAL = false := by simpa using h3
      simp only [h3f, Bool.false_eq_true, if_false, Except.ok.injEq] at h
      subst h
      simp [annotatedWithName, h1f, h3f]

theorem collectFromCalls_Met (cs : List CallInst) :
    ∀ m m1, collectFromCalls cs m = .ok m1 →
      m1.Met = (m.Met || cs.any annotatedWithName) ∧
      (cs.any annotatedWithName = false →
        m1.ScalarIDMap = m.ScalarIDMap ∧ m1.CompositeIDMap = m.CompositeIDMap) := by
  induction cs with
  | nil =>
    intro m m1 h
    simp only [collectFromCalls, Except.ok.injEq] at h
    subst h
    simp
  | cons c rest ih =>
    intro m m1 h
    simp only [collectFromCalls] at h
    cases h1 : collectFromCall c m with
    | error e => simp [h1] at h
    | ok m2 =>
      simp only [h1] at h
      obtain ⟨a1, b1⟩ := collectFromCall_Met c m m2 h1
      obtain ⟨a2, b2⟩ := ih m2 m1 h
      refine ⟨by rw [a2, a1, List.any_cons, Bool.or_assoc], ?_⟩
      intro hno
      simp only [List.any_cons, Bool.or_eq_false_iff] at hno
      obtain ⟨e1, e2⟩ := b1 hno.1
      obtain ⟨e3, e4⟩ := b2 hno.2
      exact ⟨e3.trans e1, e4.trans e2⟩

/-- C16, as amended. Whenever `collectSpecConstantMetadata` returns, it returns
true if and only if a call in a defined function to one of the two intrinsics
carries an annotation whose symbolic name is not empty; when it returns false
both maps are unchanged. It returns whenever neither metadata getter stops at
a call. -/
theorem collectSpecConstantMetadata_Met (P : List IRFunction)
    (ScalarIDMap : List (String × Nat))
    (CompositeIDMap : List (String × List CompositeSpecConstElementDescriptor)) :
    (∀ r, collectSpecConstantMetadata P ScalarIDMap CompositeIDMap = .ok r →
      (r.Met = true ↔ ∃ c ∈ definedCalls P, annotatedWithName c = true) ∧
      (r.Met = false → r.ScalarIDMap = ScalarIDMap ∧ r.CompositeIDMap = CompositeIDMap)) ∧
    ((∀ c ∈ definedCalls P, Readable c) →
      ∃ r, collectSpecConstantMetadata P ScalarIDMap CompositeIDMap = .ok r) := by
  constructor
  · intro r h
    rw [collectSpecConstantMetadata, collectFromFunctions_eq] at h
    obtain ⟨a, b⟩ := collectFromCalls_Met _ _ _ h
    simp only [Bool.false_or] at a
    constructor
    · rw [a, List.any_eq_true]
    · intro hf
      rw [a] at hf
      exact b hf
  · intro hr
    obtain ⟨Met, h⟩ := collectFromCalls_eq (definedCalls P) hr
      (CollectedMetadata.mk false ScalarIDMap CompositeIDMap)
    exact ⟨_, by rw [collectSpecConstantMetadata, collectFromFunctions_eq]; exact h⟩

/-- C16 at the program rewritten from `roundTripModule`, where the reader
returns true, and at `plainProgram`, where it returns false and leaves the maps
as they were. -/
theorem collectSpecConstantMetadata_Met_witness :
    (collectSpecConstantMetadata (rewritten (finalState (run true true roundTripModule))) [] [] =
        .ok (CollectedMetadata.mk true [("ConstA", 0)]
          [("ConstB", [CompositeSpecConstElementDescriptor.mk 1 0 4,
            CompositeSpecConstElementDescriptor.mk 2 4 4])]) ∧
      ∃ c ∈ definedCalls (rewritten (finalState (run true true roundTripModule))),
        annotatedWithName c = true) ∧
    (collectSpecConstantMetadata plainProgram [("ConstA", 7)] [] =
        .ok (CollectedMetadata.mk false [("ConstA", 7)] []) ∧
      ¬ ∃ c ∈ definedCalls plainProgram, annotatedWithName c = true) :=
  ⟨⟨by decide,
      (((collectSpecConstantMetadata_Met
        (rewritten (finalState (run true true roundTripModule))) [] []).1
          (CollectedMetadata.mk true [("ConstA", 0)]
            [("ConstB", [CompositeSpecConstElementDescriptor.mk 1 0 4,
              CompositeSpecConstElementDescriptor.mk 2 4 4])])
          (by decide)).1).mp rfl⟩,
    ⟨by decide,
      fun h => Bool.noConfusion ((((collectSpecConstantMetadata_Met plainProgram
        [("ConstA", 7)] []).1 (CollectedMetadata.mk false [("ConstA", 7)] [])
          (by decide)).1).mpr h)⟩⟩

/-- C16, counterexample. In `emptyNameModule` the name is the empty string.
The run annotates the call of `__spirv_SpecConstant` it inserts with the empty
name and the ID 0, and `collectSpecConstantMetadata` returns false on the
rewritten program although that call carries an annotation. -/
theorem collect_empty_name_not_met :
    ∃ st c, run true true emptyNameModule = .ok st ∧ definedCalls (rewritten st) = [c] ∧
      c.Callee = "_Z20__spirv_SpecConstantii" ∧ c.MD = some ("", [0]) ∧ annotated c = true ∧
      collectSpecConstantMetadata (rewritten st) [] [] =
        .ok (CollectedMetadata.mk false [] []) :=
  ⟨_, _, rfl, rfl, by decide, by decide, by decide, by decide⟩

/-! ## What `run` reports -/

theorem processCallSite_IRModified (rt nd ic : Bool) (CI : CallSite) (st st1 : PassState)
    (h : processCallSite rt nd ic CI st = .ok st1) : st1.IRModified = st.IRModified := by
  cases rt with
  | true =>
    obtain ⟨_, _, _, _, _, _, _, _, _, _, _, hIR, _⟩ := processCallSite_RT _ _ _ _ _ h
    exact hIR
  | false =>
    simp only [processCallSite, Bool.false_eq_true, if_false] at h
    split at h
    · cases h
    · split at h
      · cases h
      · split at h
        · cases h
        · simp only [Except.ok.injEq] at h
          rw [← h]

theorem processCallSites_IRModified (rt nd ic : Bool) (sites : List CallSite) :
    ∀ st st1, processCallSites rt nd ic sites st = .ok st1 →
      st1.IRModified = st.IRModified := by
  induction sites with
  | nil =>
    intro st st1 h
    simp only [processCallSites, Except.ok.injEq] at h
    rw [h]
  | cons CI rest ih =>
    intro st st1 h
    simp only [processCallSites] at h
    cases h1 : processCallSite rt nd ic CI st with
    | error e => simp [h1] at h
    | ok st2 =>
      simp only [h1] at h
      rw [ih st2 st1 h, processCallSite_IRModified rt nd ic CI st st2 h1]

theorem processFunction_skip (rt nd : Bool) (F : Function) (st : PassState)
    (h : isAccessor F = false ∨ callUsers F.users = []) :
    processFunction rt nd F st = .ok st := by
  simp only [processFunction]
  split
  · rfl
  · rename_i hd
    split
    · rfl
    · rename_i hp
      rcases h with h | h
      · simp only [isAccessor, Bool.and_eq_false_iff, Bool.or_eq_false_iff] at h
        simp only [Bool.not_eq_true', Bool.not_eq_false] at hd
        simp only [Bool.and_eq_true, Bool.not_eq_true', not_and, Bool.not_eq_false] at hp
        rcases h with h | h
        · rw [hd] at h; cases h
        · exact absurd (hp h.1) (by rw [h.2]; decide)
      · rw [h]
        simp only [List.length_nil, gt_iff_lt, Nat.lt_irrefl, decide_False, Bool.or_false,
          processCallSites]

theorem processFunction_IRModified (rt nd : Bool) (F : Function) (st st1 : PassState)
    (h : processFunction rt nd F st = .ok st1) :
    st1.IRModified = (st.IRModified ||
      (isAccessor F && !(callUsers F.users).isEmpty)) := by
  cases ha : isAccessor F with
  | false =>
    rw [processFunction_skip rt nd F st (Or.inl ha)] at h
    simp only [Except.ok.injEq] at h
    rw [← h]
    simp
  | true =>
    obtain ⟨hd, hp⟩ := isAccessor_iff F ha
    rw [processFunction_accessor rt nd F st hd hp] at h
    rw [processCallSites_IRModified rt nd _ _ _ _ h]
    cases callUsers F.users <;> simp

theorem processFunctions_IRModified (rt nd : Bool) (M : List Function) :
    ∀ st st1, processFunctions rt nd M st = .ok st1 →
      st1.IRModified = (st.IRModified ||
        M.any (fun F => isAccessor F && !(callUsers F.users).isEmpty)) := by
  induction M with
  | nil =>
    intro st st1 h
    simp only [processFunctions, Except.ok.injEq] at h
    rw [← h]
    simp
  | cons F rest ih =>
    intro st st1 h
    simp only [processFunctions] at h
    cases h1 : processFunction rt nd F st with
    | error e => simp [h1] at h
    | ok st2 =>
      simp only [h1] at h
      rw [ih st2 st1 h, processFunction_IRModified rt nd F st st2 h1, List.any_cons,
        Bool.or_assoc]

theorem processFunctions_skip (rt nd : Bool) (M : List Function)
    (h : ∀ F ∈ M, isAccessor F = true → callUsers F.users = []) (st : PassState) :
    processFunctions rt nd M st = .ok st := by
  induction M with
  | nil => rfl
  | cons F rest ih =>
    have hF : isAccessor F = false ∨ callUsers F.users = [] := by
      cases ha : isAccessor F with
      | false => exact Or.inl rfl
      | true => exact Or.inr (h F (List.mem_cons_self _ _) ha)
    simp only [processFunctions, processFunction_skip rt nd F st hF]
    exact ih (fun G hG => h G (List.mem_cons_of_mem _ hG))

/-! ## When `run` returns -/

theorem lookup_assign {V : Type} (m : List (String × V)) (k k1 : String) (v : V) :
    List.lookup k1 (assign m k v) = if k1 = k then some v else List.lookup k1 m := by
  by_cases h : k1 = k
  · subst h
    simp only [if_true, lookup_assign_self]
  · simp only [h, if_false, lookup_assign_other _ _ _ _ h]

theorem processCallSite_nonEmpty (nd ic : Bool) (CI : CallSite) (st st1 : PassState)
    (hP : NonEmptyLists st) (h : processCallSite true nd ic CI st = .ok st1) :
    NonEmptyLists st1 := by
  obtain ⟨SCTy, SymID, Del, L, IDs, _, _, _, _, _, _, _, hmap, hcase⟩ :=
    processCallSite_RT _ _ _ _ _ h
  intro k hk
  rw [hmap, lookup_assign] at hk
  split at hk
  · simp only [Option.some.injEq] at hk
    rcases hcase with ⟨_, hIDs, _⟩ | ⟨hold, _⟩
    · have := length_newIDs st.NextID SCTy
      rw [← hIDs, hk] at this
      simp only [List.length_nil] at this
      omega
    · rw [hk] at hold
      exact hP SymID hold
  · exact hP k hk

theorem processCallSite_fold_ok (nd ic : Bool) (CI : CallSite) (st : PassState)
    (h : Lowerable false nd ic CI) :
    ∃ st1, processCallSite false nd ic CI st = .ok st1 ∧ st1.IDMap = st.IDMap := by
  obtain ⟨SCTy, SymID, Del, hty, hname, hT⟩ := h
  simp only [Bool.false_eq_true, if_false] at hT
  obtain ⟨c, hc, _⟩ := getDefaultCPPValue_spec SCTy hT
  simp only [processCallSite, hty, hname, Bool.false_eq_true, if_false, hc]
  exact ⟨_, rfl, rfl⟩

theorem processCallSite_ok (rt nd ic : Bool) (CI : CallSite) (st : PassState)
    (h : Lowerable rt nd ic CI) (hP : NonEmptyLists st) :
    ∃ st1, processCallSite rt nd ic CI st = .ok st1 ∧ NonEmptyLists st1 := by
  cases rt with
  | false =>
    obtain ⟨st1, h1, hm⟩ := processCallSite_fold_ok nd ic CI st h
    exact ⟨st1, h1, fun k => by rw [hm]; exact hP k⟩
  | true =>
    obtain ⟨SCTy, SymID, Del, hty, hname, hT⟩ := h
    simp only [if_true] at hT
    obtain ⟨st1, h1⟩ := processCallSite_RT_ok nd ic CI st SCTy SymID Del hty hname hT (hP SymID)
    exact ⟨st1, h1, processCallSite_nonEmpty nd ic CI st st1 hP h1⟩

theorem processCallSites_ok (rt nd ic : Bool) (sites : List CallSite)
    (h : ∀ CI ∈ sites, Lowerable rt nd ic CI) :
    ∀ st, NonEmptyLists st →
      ∃ st1, processCallSites rt nd ic sites st = .ok st1 ∧ NonEmptyLists st1 := by
  induction sites with
  | nil => intro st hP; exact ⟨st, rfl, hP⟩
  | cons CI rest ih =>
    intro st hP
    obtain ⟨st2, h2, hP2⟩ := processCallSite_ok rt nd ic CI st (h CI (List.mem_cons_self _ _)) hP
    obtain ⟨st1, h1, hP1⟩ := ih (fun C hC => h C (List.mem_cons_of_mem _ hC)) st2 hP2
    exact ⟨st1, by simp only [processCallSites, h2, h1], hP1⟩

theorem processFunctions_ok (rt nd : Bool) (M : List Function)
    (h : ∀ F ∈ M, isAccessor F = true → ∀ CI ∈ callUsers F.users,
      Lowerable rt nd (startswith F.Name SYCL_GET_COMPOSITE_SPEC_CONST_VAL) CI) :
    ∀ st, NonEmptyLists st →
      ∃ st1, processFunctions rt nd M st = .ok st1 ∧ NonEmptyLists st1 := by
  induction M with
  | nil => intro st hP; exact ⟨st, rfl, hP⟩
  | cons F rest ih =>
    intro st hP
    have hstep : ∃ st2, processFunction rt nd F st = .ok st2 ∧ NonEmptyLists st2 := by
      cases ha : isAccessor F with
      | false => exact ⟨st, processFunction_skip rt nd F st (Or.inl ha), hP⟩
      | true =>
        obtain ⟨hd, hp⟩ := isAccessor_iff F ha
        rw [processFunction_accessor rt nd F st hd hp]
        exact processCallSites_ok rt nd _ _ (h F (List.mem_cons_self _ _) ha) _ hP
    obtain ⟨st2, h2, hP2⟩ := hstep
    obtain ⟨st1, h1, hP1⟩ := ih (fun G hG => h G (List.mem_cons_of_mem _ hG)) st2 hP2
    exact ⟨st1, by simp only [processFunctions, h2, h1], hP1⟩

/-- C17. Whenever `run` returns, in either mode, it reports the module as
modified if and only if some declared function whose name starts with an
accessor prefix has a call among its users. An accessor declaration without a
call leaves the state of the pass, `NextID` and `IDMap` included, as it is; on a
module in which no accessor declaration has a call, `run` returns the initial
state and reports no modification; and `run` returns whenever every accessor
call site can be lowered. -/
theorem run_reports_modified (SetValAtRT NDEBUG : Bool) (M : List Function) :
    (∀ st, run SetValAtRT NDEBUG M = .ok st →
      (st.IRModified = true ↔ ∃ F ∈ M, isAccessor F = true ∧ callUsers F.users ≠ [])) ∧
    (∀ F st, isAccessor F = true → callUsers F.users = [] →
      processFunction SetValAtRT NDEBUG F st = .ok st) ∧
    ((∀ F ∈ M, isAccessor F = true → callUsers F.users = []) →
      run SetValAtRT NDEBUG M = .ok initialState ∧ initialState.IRModified = false) ∧
    ((∀ F ∈ M, isAccessor F = true → ∀ CI ∈ callUsers F.users,
        Lowerable SetValAtRT NDEBUG (startswith F.Name SYCL_GET_COMPOSITE_SPEC_CONST_VAL) CI) →
      ∃ st, run SetValAtRT NDEBUG M = .ok st) := by
  refine ⟨?_, ?_, ?_, ?_⟩
  · intro st h
    have := processFunctions_IRModified SetValAtRT NDEBUG M _ st h
    simp only [Bool.false_or] at this
    rw [this, List.any_eq_true]
    constructor
    · rintro ⟨F, hF, hc⟩
      simp only [Bool.and_eq_true, Bool.not_eq_true', List.isEmpty_eq_false] at hc
      exact ⟨F, hF, hc⟩
    · rintro ⟨F, hF, hc⟩
      exact ⟨F, hF, by
        simpa only [Bool.and_eq_true, Bool.not_eq_true', List.isEmpty_eq_false] using hc⟩
  · intro F st _ hu
    exact processFunction_skip SetValAtRT NDEBUG F st (Or.inr hu)
  · intro h
    exact ⟨processFunctions_skip SetValAtRT NDEBUG M h _, rfl⟩
  · intro h
    obtain ⟨st, hst, _⟩ := processFunctions_ok SetValAtRT NDEBUG M h initialState
      (fun k hk => by simp [initialState, List.lookup] at hk)
    exact ⟨st, hst⟩

/-- C17 at `roundTripModule`, where two accessors are called and the run
reports a modification, and at `unusedAccessorModule`, where the accessor is
not called and the run returns the initial state in both modes. -/
theorem run_reports_modified_witness :
    (∃ st, run true true roundTripModule = .ok st ∧ st.IRModified = true ∧
      ∃ F ∈ roundTripModule, isAccessor F = true ∧ callUsers F.users ≠ []) ∧
    (∀ F ∈ unusedAccessorModule, isAccessor F = true → callUsers F.users = []) ∧
    run true true unusedAccessorModule = .ok initialState ∧
    run false true unusedAccessorModule = .ok initialState ∧
    (∀ F ∈ roundTripModule, isAccessor F = true → ∀ CI ∈ callUsers F.users,
      Lowerable true true (startswith F.Name SYCL_GET_COMPOSITE_SPEC_CONST_VAL) CI) ∧
    ∃ st, run true true roundTripModule = .ok st := by
  have hunused : ∀ F ∈ unusedAccessorModule, isAccessor F = true → callUsers F.users = [] := by
    intro F hF _
    simp only [unusedAccessorModule, List.mem_singleton] at hF
    subst hF
    rfl
  have hlow : ∀ F ∈ roundTripModule, isAccessor F = true → ∀ CI ∈ callUsers F.users,
      Lowerable true true (startswith F.Name SYCL_GET_COMPOSITE_SPEC_CONST_VAL) CI := by
    intro F hF _ CI hCI
    simp only [roundTripModule, List.mem_cons, List.mem_singleton, List.not_mem_nil,
      or_false] at hF
    rcases hF with hF | hF
    · subst hF
      simp only [callUsers, List.mem_singleton] at hCI
      subst hCI
      exact ⟨.integer 32, "ConstA", [1], rfl, by decide, by decide⟩
    · subst hF
      simp only [callUsers, List.mem_singleton] at hCI
      subst hCI
      exact ⟨.fixedVector (.integer 32) 2, "ConstB", [2], rfl, by decide, by decide⟩
  exact ⟨⟨_, rfl, rfl, ((run_reports_modified true true roundTripModule).1 _ rfl).mp rfl⟩,
    hunused, ((run_reports_modified true true unusedAccessorModule).2.2.1 hunused).1,
    ((run_reports_modified false true unusedAccessorModule).2.2.1 hunused).1,
    hlow, (run_reports_modified true true roundTripModule).2.2.2 hlow⟩

/-! ## The expanded tree of a type -/

theorem length_repeatTree (f : Nat → List Shape) (size : Nat)
    (hf : ∀ b, (f b).length = size) (n : Nat) :
    ∀ base, (repeatTree f size n base).length = n * size := by
  induction n with
  | zero => intro base; simp [repeatTree]
  | succ n ih =>
    intro base
    simp only [repeatTree, List.length_append, hf, ih, Nat.succ_mul]
    omega

theorem length_treeElements (elems : List Ty)
    (ih : ∀ T ∈ elems, ∀ b, (tree T b).length = nodeCount T) :
    ∀ base, (treeElements elems base).length = nodeCountElements elems := by
  induction elems with
  | nil => intro base; rfl
  | cons T rest ihl =>
    intro base
    simp only [treeElements, List.length_append, nodeCountElements,
      ih T (List.mem_cons_self _ _), ihl (fun U hU => ih U (List.mem_cons_of_mem _ hU))]

theorem length_tree (T : Ty) : ∀ base, (tree T base).length = nodeCount T := by
  induction T using Ty.induction with
  | hint bits => intro base; rfl
  | hfp k => intro base; rfl
  | hptr => intro base; rfl
  | harr elem num ih =>
    intro base
    simp only [tree, List.length_append, List.length_singleton, nodeCount,
      length_repeatTree _ _ ih]
  | hstruct name elems ih =>
    intro base
    simp only [tree, List.length_append, List.length_singleton, nodeCount,
      length_treeElements elems ih]
  | hvec elem num ih =>
    intro base
    simp only [tree, List.length_append, List.length_singleton, nodeCount,
      length_repeatTree _ _ ih]

theorem nodeCount_pos (T : Ty) : 0 < nodeCount T := by
  cases T <;> simp [nodeCount]

theorem countP_repeatTree (p : Shape → Bool) (f : Nat → List Shape) (size c : Nat)
    (hf : ∀ b, (f b).countP p = c) (n : Nat) :
    ∀ base, (repeatTree f size n base).countP p = n * c := by
  induction n with
  | zero => intro base; simp [repeatTree]
  | succ n ih =>
    intro base
    simp only [repeatTree, List.countP_append, hf, ih, Nat.succ_mul]
    omega

theorem countP_isLeaf_tree (T : Ty) :
    ∀ base, (tree T base).countP Shape.isLeaf = leafCount T := by
  induction T using Ty.induction with
  | hint bits => intro base; rfl
  | hfp k => intro base; rfl
  | hptr => intro base; rfl
  | harr elem num ih =>
    intro base
    simp only [tree, List.countP_append, countP_repeatTree _ _ _ _ ih, leafCount_array]
    rfl
  | hstruct name elems ih =>
    intro base
    have key : ∀ b, (treeElements elems b).countP Shape.isLeaf = (leavesElements elems).length := by
      induction elems with
      | nil => intro b; rfl
      | cons T rest ihl =>
        intro b
        simp only [treeElements, List.countP_append, leavesElements, List.length_append,
          ih T (List.mem_cons_self _ _), ihl (fun U hU => ih U (List.mem_cons_of_mem _ hU)),
          leafCount]
    simp only [tree, List.countP_append, key, leafCount_struct]
    rfl
  | hvec elem num ih =>
    intro base
    simp only [tree, List.countP_append, countP_repeatTree _ _ _ _ ih, leafCount_fixedVector]
    rfl

theorem countP_isNode_tree (T : Ty) :
    ∀ base, (tree T base).countP Shape.isNode = compositeCount T := by
  induction T using Ty.induction with
  | hint bits => intro base; rfl
  | hfp k => intro base; rfl
  | hptr => intro base; rfl
  | harr elem num ih =>
    intro base
    simp only [tree, List.countP_append, countP_repeatTree _ _ _ _ ih, compositeCount]
    rfl
  | hstruct name elems ih =>
    intro base
    have key : ∀ b, (treeElements elems b).countP Shape.isNode = compositeCountElements elems := by
      induction elems with
      | nil => intro b; rfl
      | cons T rest ihl =>
        intro b
        simp only [treeElements, List.countP_append, compositeCountElements,
          ih T (List.mem_cons_self _ _), ihl (fun U hU => ih U (List.mem_cons_of_mem _ hU))]
    simp only [tree, List.countP_append, key, compositeCount]
    rfl
  | hvec elem num ih =>
    intro base
    simp only [tree, List.countP_append, countP_repeatTree _ _ _ _ ih, compositeCount]
    rfl

theorem leafTypes_append (A B : List Shape) : leafTypes (A ++ B) = leafTypes A ++ leafTypes B := by
  induction A with
  | nil => rfl
  | cons a rest ih =>
    cases a with
    | leaf T =>
      show T :: leafTypes (rest ++ B) = T :: leafTypes rest ++ leafTypes B
      rw [ih]
      rfl
    | node T ch => exact ih
    | other => exact ih

theorem leafTypes_repeatTree (f : Nat → List Shape) (size : Nat) (L : List Ty)
    (hf : ∀ b, leafTypes (f b) = L) (n : Nat) :
    ∀ base, leafTypes (repeatTree f size n base) = repeatList L n := by
  induction n with
  | zero => intro base; rfl
  | succ n ih =>
    intro base
    simp only [repeatTree, leafTypes_append, hf, ih, repeatList]

/-- The result types of the leaf calls of the expanded tree are the scalar
leaves of the type, in depth-first order. -/
theorem leafTypes_tree (T : Ty) : ∀ base, leafTypes (tree T base) = leaves T := by
  induction T using Ty.induction with
  | hint bits => intro base; rfl
  | hfp k => intro base; rfl
  | hptr => intro base; rfl
  | harr elem num ih =>
    intro base
    simp only [tree, leafTypes_append, leafTypes_repeatTree _ _ _ ih, leaves, leafTypes,
      List.append_nil]
  | hstruct name elems ih =>
    intro base
    have key : ∀ b, leafTypes (treeElements elems b) = leavesElements elems := by
      induction elems with
      | nil => intro b; rfl
      | cons T rest ihl =>
        intro b
        simp only [treeElements, leafTypes_append, leavesElements,
          ih T (List.mem_cons_self _ _), ihl (fun U hU => ih U (List.mem_cons_of_mem _ hU))]
    simp only [tree, leafTypes_append, key, leaves, leafTypes, List.append_nil]
  | hvec elem num ih =>
    intro base
    simp only [tree, leafTypes_append, leafTypes_repeatTree _ _ _ ih, leaves, leafTypes,
      List.append_nil]

theorem ChildrenFirst.append {lo base : Nat} {A B : List Shape} (hA : ChildrenFirst lo base A)
    (hB : ChildrenFirst lo (base + A.length) B) : ChildrenFirst lo base (A ++ B) := by
  intro i T children h v hv
  rw [List.get?_eq_getElem?] at h
  by_cases hi : i < A.length
  · rw [List.getElem?_append_left hi] at h
    exact hA i T children (by rw [List.get?_eq_getElem?]; exact h) v hv
  · rw [List.getElem?_append_right (by omega)] at h
    obtain ⟨j, ty, e, h1, h2⟩ := hB (i - A.length) T children
      (by rw [List.get?_eq_getElem?]; exact h) v hv
    exact ⟨j, ty, e, h1, by omega⟩

theorem ChildrenFirst.mono {lo lo1 base : Nat} {A : List Shape} (h : ChildrenFirst lo base A)
    (hlo : lo1 ≤ lo) : ChildrenFirst lo1 base A := by
  intro i T children hg v hv
  obtain ⟨j, ty, e, h1, h2⟩ := h i T children hg v hv
  exact ⟨j, ty, e, by omega, h2⟩

theorem ChildrenFirst.node (lo base : Nat) (T : Ty) (children : List Value)
    (h : ∀ v ∈ children, ∃ j ty, v = .inst j ty ∧ lo ≤ j ∧ j < base) :
    ChildrenFirst lo base [.node T children] := by
  intro i T1 ch hg v hv
  cases i with
  | zero =>
    simp only [List.get?_cons_zero, Option.some.injEq, Shape.node.injEq] at hg
    obtain ⟨j, ty, e, h1, h2⟩ := h v (hg.2 ▸ hv)
    exact ⟨j, ty, e, h1, by omega⟩
  | succ i => simp at hg

theorem ChildrenFirst.repeatTree (f : Nat → List Shape) (size : Nat)
    (hlen : ∀ b, (f b).length = size) (hcf : ∀ b, ChildrenFirst b b (f b)) (n : Nat) :
    ∀ lo base, lo ≤ base → ChildrenFirst lo base (repeatTree f size n base) := by
  induction n with
  | zero =>
    intro lo base _ i T ch hg
    simp [SpecConstants.repeatTree] at hg
  | succ n ih =>
    intro lo base hlo
    simp only [SpecConstants.repeatTree]
    refine ChildrenFirst.append ((hcf base).mono hlo) ?_
    rw [hlen]
    exact ih lo (base + size) (by omega)

theorem mem_refsRepeat (elem : Ty) (size : Nat) (hs : 0 < size) (n : Nat) :
    ∀ base v, v ∈ refsRepeat elem size n base →
      ∃ j ty, v = .inst j ty ∧ base ≤ j ∧ j < base + n * size := by
  induction n with
  | zero => intro base v hv; simp [refsRepeat] at hv
  | succ n ih =>
    intro base v hv
    simp only [refsRepeat, List.mem_cons] at hv
    rcases hv with hv | hv
    · exact ⟨_, _, hv, by omega, by rw [Nat.succ_mul]; omega⟩
    · obtain ⟨j, ty, e, h1, h2⟩ := ih (base + size) v hv
      exact ⟨j, ty, e, by omega, by rw [Nat.succ_mul]; omega⟩

theorem mem_refsElements (elems : List Ty) :
    ∀ base v, v ∈ refsElements elems base →
      ∃ j ty, v = .inst j ty ∧ base ≤ j ∧ j < base + nodeCountElements elems := by
  induction elems with
  | nil => intro base v hv; simp [refsElements] at hv
  | cons T rest ih =>
    intro base v hv
    have hp := nodeCount_pos T
    simp only [refsElements, List.mem_cons] at hv
    rcases hv with hv | hv
    · exact ⟨_, _, hv, by omega, by simp only [nodeCountElements]; omega⟩
    · obtain ⟨j, ty, e, h1, h2⟩ := ih (base + nodeCount T) v hv
      exact ⟨j, ty, e, by omega, by simp only [nodeCountElements]; omega⟩

/-- In the expanded tree every child of a composite node comes before the node. -/
theorem ChildrenFirst.tree (T : Ty) : ∀ base, ChildrenFirst base base (tree T base) := by
  induction T using Ty.induction with
  | hint bits => intro base i T ch hg; cases i <;> simp [SpecConstants.tree] at hg
  | hfp k => intro base i T ch hg; cases i <;> simp [SpecConstants.tree] at hg
  | hptr => intro base i T ch hg; cases i <;> simp [SpecConstants.tree] at hg
  | harr elem num ih =>
    intro base
    simp only [SpecConstants.tree]
    refine ChildrenFirst.append
      (ChildrenFirst.repeatTree _ _ (length_tree elem) ih num base base (le_refl _)) ?_
    rw [length_repeatTree _ _ (length_tree elem)]
    exact ChildrenFirst.node _ _ _ _ (mem_refsRepeat elem _ (nodeCount_pos elem) num base)
  | hstruct name elems ih =>
    intro base
    have key : ∀ lo b, lo ≤ b → ChildrenFirst lo b (treeElements elems b) := by
      induction elems with
      | nil => intro lo b _ i T ch hg; simp [treeElements] at hg
      | cons T rest ihl =>
        intro lo b hlo
        simp only [treeElements]
        refine ChildrenFirst.append ((ih T (List.mem_cons_self _ _) b).mono hlo) ?_
        rw [length_tree]
        exact ihl (fun U hU => ih U (List.mem_cons_of_mem _ hU)) lo _ (by omega)
    simp only [SpecConstants.tree]
    refine ChildrenFirst.append (key base base (le_refl _)) ?_
    rw [length_treeElements elems (fun U hU => length_tree U)]
    exact ChildrenFirst.node _ _ _ _ (mem_refsElements elems base)
  | hvec elem num ih =>
    intro base
    simp only [SpecConstants.tree]
    refine ChildrenFirst.append
      (ChildrenFirst.repeatTree _ _ (length_tree elem) ih num base base (le_refl _)) ?_
    rw [length_repeatTree _ _ (length_tree elem)]
    exact ChildrenFirst.node _ _ _ _ (mem_refsRepeat elem _ (nodeCount_pos elem) num base)

/-! ## The emitter: the tree it inserts -/

theorem emitScalar_shape (T : Ty) (hT : isComposite T = false) (IsNew : Bool) (s : EmitState)
    (I : Value) (s1 : EmitState) (h : emitScalar T IsNew s = .ok (I, s1)) :
    ∃ top, s1.Out = s.Out ++ [top] ∧ I = .inst s.Out.length T ∧ shapeOf top = .leaf T := by
  simp only [emitScalar] at h
  split at h
  · simp at h
  · rename_i IDs hp
    split at h
    · simp at h
    · rename_i b hb
      cases he : emitSpecConstant b T s.Out with
      | error e => simp [he] at h
      | ok r =>
        obtain ⟨I1, Out1⟩ := r
        simp only [he, Except.ok.injEq, Prod.mk.injEq] at h
        obtain ⟨hI, hs⟩ := h
        subst hI
        subst hs
        simp only [emitSpecConstant] at he
        cases hd : getDefaultCPPValue T with
        | error e => simp [hd] at he
        | ok Def =>
          simp only [hd] at he
          obtain ⟨name, hm, hI, hOut⟩ := emitCall_spec _ _ _ _ _ _ he
          obtain ⟨c1, c2⟩ := scalar_callee T hT Def hd name hm
          refine ⟨CallInst.mk T name [.constInt32 b, .constant Def] none, hOut, hI, ?_⟩
          simp only [shapeOf, c1, c2, Bool.false_eq_true, if_false, if_true]

theorem emitComposite_shape (T : Ty) (p : List Value × EmitState) (I : Value) (s1 : EmitState)
    (h : emitComposite T p = .ok (I, s1)) :
    ∃ top, s1.Out = p.2.Out ++ [top] ∧ I = .inst p.2.Out.length T ∧
      shapeOf top = .node T p.1 := by
  simp only [emitComposite, emitSpecConstantComposite] at h
  cases he : emitCall T SPIRV_GET_SPEC_CONST_COMPOSITE p.1 p.2.Out with
  | error e => simp [he] at h
  | ok r =>
    obtain ⟨I1, Out1⟩ := r
    simp only [he, Except.ok.injEq, Prod.mk.injEq] at h
    obtain ⟨hI, hs⟩ := h
    subst hI
    subst hs
    obtain ⟨name, hm, hI, hOut⟩ := emitCall_spec _ _ _ _ _ _ he
    refine ⟨CallInst.mk T name p.1 none, hOut, hI, ?_⟩
    simp only [shapeOf, composite_callee _ _ hm, if_true]

theorem EmitsTree.length {T : Ty} {s s1 : EmitState} {I : Value} (h : EmitsTree T s I s1) :
    s1.Out.length = s.Out.length + nodeCount T := by
  obtain ⟨new, hOut, hmap, _⟩ := h
  have := congrArg List.length hmap
  rw [List.length_map, length_tree] at this
  rw [hOut, List.length_append, this]

theorem loopN_emit_shape (elem : Ty) (IsNew : Bool)
    (ih : ∀ s I s1, emitSpecConstantRecursiveImpl elem IsNew s = .ok (I, s1) →
      EmitsTree elem s I s1) (n : Nat) :
    ∀ p p1, loopN (LoopIteration (fun s1 => emitSpecConstantRecursiveImpl elem IsNew s1)) n p
        = .ok p1 →
      ∃ new, p1.2.Out = p.2.Out ++ new ∧
        new.map shapeOf = repeatTree (fun b => tree elem b) (nodeCount elem) n p.2.Out.length ∧
        p1.1 = p.1 ++ refsRepeat elem (nodeCount elem) n p.2.Out.length := by
  induction n with
  | zero =>
    intro p p1 h
    simp only [loopN, Except.ok.injEq] at h
    subst h
    exact ⟨[], by simp, rfl, by simp [refsRepeat]⟩
  | succ n ihn =>
    intro p p1 h
    simp only [loopN] at h
    cases hb : LoopIteration (fun s1 => emitSpecConstantRecursiveImpl elem IsNew s1) p with
    | error e => simp [hb] at h
    | ok p2 =>
      simp only [hb] at h
      obtain ⟨I, s2, hf, hp2⟩ := LoopIteration_spec _ _ _ hb
      have ht := ih _ _ _ hf
      have hlen := ht.length
      obtain ⟨new1, hOut1, hmap1, hI⟩ := ht
      obtain ⟨new2, hOut2, hmap2, hrefs⟩ := ihn p2 p1 h
      subst hp2
      simp only at hOut2 hmap2 hrefs
      rw [hlen] at hmap2 hrefs
      refine ⟨new1 ++ new2, ?_, ?_, ?_⟩
      · rw [hOut2, hOut1, List.append_assoc]
      · rw [List.map_append, hmap1, hmap2]
        rfl
      · rw [hrefs, hI, List.append_assoc]
        rfl

theorem emitElements_shape (elems : List Ty) (IsNew : Bool)
    (ih : ∀ T ∈ elems, ∀ s I s1, emitSpecConstantRecursiveImpl T IsNew s = .ok (I, s1) →
      EmitsTree T s I s1) :
    ∀ p p1, emitSpecConstantRecursiveElements elems IsNew p = .ok p1 →
      ∃ new, p1.2.Out = p.2.Out ++ new ∧
        new.map shapeOf = treeElements elems p.2.Out.length ∧
        p1.1 = p.1 ++ refsElements elems p.2.Out.length := by
  induction elems with
  | nil =>
    intro p p1 h
    simp only [emitSpecConstantRecursiveElements, Except.ok.injEq] at h
    subst h
    exact ⟨[], by simp, rfl, by simp [refsElements]⟩
  | cons T rest ihl =>
    intro p p1 h
    simp only [emitSpecConstantRecursiveElements] at h
    cases hb : LoopIteration (fun s1 => emitSpecConstantRecursiveImpl T IsNew s1) p with
    | error e => simp [hb] at h
    | ok p2 =>
      simp only [hb] at h
      obtain ⟨I, s2, hf, hp2⟩ := LoopIteration_spec _ _ _ hb
      have ht := ih T (List.mem_cons_self _ _) _ _ _ hf
      have hlen := ht.length
      obtain ⟨new1, hOut1, hmap1, hI⟩ := ht
      obtain ⟨new2, hOut2, hmap2, hrefs⟩ :=
        ihl (fun U hU => ih U (List.mem_cons_of_mem _ hU)) p2 p1 h
      subst hp2
      simp only at hOut2 hmap2 hrefs
      rw [hlen] at hmap2 hrefs
      refine ⟨new1 ++ new2, ?_, ?_, ?_⟩
      · rw [hOut2, hOut1, List.append_assoc]
      · rw [List.map_append, hmap1, hmap2]
        rfl
      · rw [hrefs, hI, List.append_assoc]
        rfl

/-- A successful call of `emitSpecConstantRecursiveImpl` inserts the expanded
tree of the type. -/
theorem emitImpl_shape (T : Ty) :
    ∀ IsNew s I s1, emitSpecConstantRecursiveImpl T IsNew s = .ok (I, s1) →
      EmitsTree T s I s1 := by
  induction T using Ty.induction with
  | hint bits =>
    intro IsNew s I s1 h
    obtain ⟨top, hOut, hI, hsh⟩ := emitScalar_shape (.integer bits) rfl _ _ _ _
      (by simpa only [emitSpecConstantRecursiveImpl] using h)
    exact ⟨[top], hOut, by simp only [List.map_cons, List.map_nil, hsh, tree], hI⟩
  | hfp k =>
    intro IsNew s I s1 h
    obtain ⟨top, hOut, hI, hsh⟩ := emitScalar_shape (.fp k) rfl _ _ _ _
      (by simpa only [emitSpecConstantRecursiveImpl] using h)
    exact ⟨[top], hOut, by simp only [List.map_cons, List.map_nil, hsh, tree], hI⟩
  | hptr =>
    intro IsNew s I s1 h
    obtain ⟨top, hOut, hI, hsh⟩ := emitScalar_shape .pointer rfl _ _ _ _
      (by simpa only [emitSpecConstantRecursiveImpl] using h)
    exact ⟨[top], hOut, by simp only [List.map_cons, List.map_nil, hsh, tree], hI⟩
  | harr elem num ih =>
    intro IsNew s I s1 h
    simp only [emitSpecConstantRecursiveImpl] at h
    cases hl : loopN (LoopIteration
        (fun s1 => emitSpecConstantRecursiveImpl elem IsNew s1)) num ([], s) with
    | error e => simp [hl] at h
    | ok p =>
      simp only [hl] at h
      obtain ⟨new, hOut, hmap, hrefs⟩ := loopN_emit_shape elem IsNew (ih IsNew) num _ _ hl
      obtain ⟨top, hOut1, hI, hsh⟩ := emitComposite_shape _ p I s1 h
      simp only [List.nil_append] at hOut hmap hrefs
      have hlen : new.length = num * nodeCount elem := by
        have := congrArg List.length hmap
        rwa [List.length_map, length_repeatTree _ _ (length_tree elem)] at this
      refine ⟨new ++ [top], by rw [hOut1, hOut, List.append_assoc], ?_, ?_⟩
      · rw [List.map_append, hmap, List.map_cons, List.map_nil, hsh, hrefs]
        rfl
      · rw [hI, hOut, List.length_append, hlen]
        rfl
  | hstruct name elems ih =>
    intro IsNew s I s1 h
    simp only [emitSpecConstantRecursiveImpl] at h
    cases hl : emitSpecConstantRecursiveElements elems IsNew ([], s) with
    | error e => simp [hl] at h
    | ok p =>
      simp only [hl] at h
      obtain ⟨new, hOut, hmap, hrefs⟩ :=
        emitElements_shape elems IsNew (fun T hT => ih T hT IsNew) _ _ hl
      obtain ⟨top, hOut1, hI, hsh⟩ := emitComposite_shape _ p I s1 h
      simp only [List.nil_append] at hOut hmap hrefs
      have hlen : new.length = nodeCountElements elems := by
        have := congrArg List.length hmap
        rwa [List.length_map, length_treeElements elems (fun U _ => length_tree U)] at this
      refine ⟨new ++ [top], by rw [hOut1, hOut, List.append_assoc], ?_, ?_⟩
      · rw [List.map_append, hmap, List.map_cons, List.map_nil, hsh, hrefs]
        rfl
      · rw [hI, hOut, List.length_append, hlen]
        rfl
  | hvec elem num ih =>
    intro IsNew s I s1 h
    simp only [emitSpecConstantRecursiveImpl] at h
    cases hl : loopN (LoopIteration
        (fun s1 => emitSpecConstantRecursiveImpl elem IsNew s1)) num ([], s) with
    | error e => simp [hl] at h
    | ok p =>
      simp only [hl] at h
      obtain ⟨new, hOut, hmap, hrefs⟩ := loopN_emit_shape elem IsNew (ih IsNew) num _ _ hl
      obtain ⟨top, hOut1, hI, hsh⟩ := emitComposite_shape _ p I s1 h
      simp only [List.nil_append] at hOut hmap hrefs
      have hlen : new.length = num * nodeCount elem := by
        have := congrArg List.length hmap
        rwa [List.length_map, length_repeatTree _ _ (length_tree elem)] at this
      refine ⟨new ++ [top], by rw [hOut1, hOut, List.append_assoc], ?_, ?_⟩
      · rw [List.map_append, hmap, List.map_cons, List.map_nil, hsh, hrefs]
        rfl
      · rw [hI, hOut, List.length_append, hlen]
        rfl

/-- C18. For every supported type `T` and non-empty `IDs`,
`emitSpecConstantRecursive` returns, and the calls it inserts are the expanded
tree of `T`: one call of `__spirv_SpecConstant` per scalar leaf and one call of
`__spirv_SpecConstantComposite` per composite node (every array element and
vector lane on its own, and the top-level composite), `nodeCount T` calls in
all; the arguments of a composite call are, in order, the top-level instructions
of the subtrees of its elements, all of them inserted before it; the returned
instruction is the last one inserted, the node of `T` itself; and for a scalar
`T` a single call of `__spirv_SpecConstant` is inserted. -/
theorem emitSpecConstantRecursive_tree (T : Ty) (Out : List CallInst) (IDs : List Nat)
    (IsNew : Bool) (hT : supported T = true) (hne : IDs ≠ []) :
    ∃ I Out1 IDs1 new, emitSpecConstantRecursive T Out IDs IsNew = .ok (I, Out1, IDs1) ∧
      Out1 = Out ++ new ∧ new.map shapeOf = tree T Out.length ∧
      new.length = nodeCount T ∧ I = .inst (Out.length + nodeCount T - 1) T ∧
      (new.map shapeOf).countP Shape.isLeaf = leafCount T ∧
      (new.map shapeOf).countP Shape.isNode = compositeCount T ∧
      ChildrenFirst Out.length Out.length (new.map shapeOf) ∧
      (isComposite T = false → new.map shapeOf = [.leaf T]) := by
  obtain ⟨r, hr⟩ := emitImpl_ok T hT IsNew (EmitState.mk Out IDs true) hne
  obtain ⟨I, s1⟩ := r
  obtain ⟨new, hOut, hmap, hI⟩ := emitImpl_shape T IsNew _ I s1 hr
  refine ⟨I, s1.Out, s1.IDs, new, by simp only [emitSpecConstantRecursive, hr], hOut, hmap, ?_,
    hI, ?_, ?_, ?_, ?_⟩
  · have := congrArg List.length hmap
    rwa [List.length_map, length_tree] at this
  · rw [hmap, countP_isLeaf_tree]
  · rw [hmap, countP_isNode_tree]
  · rw [hmap]
    exact ChildrenFirst.tree T _
  · intro hs
    rw [hmap]
    cases T <;> first | rfl | (simp [isComposite] at hs)

/-- C18 at the struct `{i32, <2 x float>}`, emitted after five instructions: the
leaf calls 5, 6 and 7, the vector node 8 over 6 and 7, and the struct node 9
over 5 and 8, which is returned. -/
theorem emitSpecConstantRecursive_tree_witness :
    supported (.struct "S" [.integer 32, .fixedVector (.fp .float) 2]) = true ∧
    [3] ≠ ([] : List Nat) ∧
    tree (.struct "S" [.integer 32, .fixedVector (.fp .float) 2]) 5 =
      [.leaf (.integer 32), .leaf (.fp .float), .leaf (.fp .float),
       .node (.fixedVector (.fp .float) 2) [.inst 6 (.fp .float), .inst 7 (.fp .float)],
       .node (.struct "S" [.integer 32, .fixedVector (.fp .float) 2])
         [.inst 5 (.integer 32), .inst 8 (.fixedVector (.fp .float) 2)]] ∧
    ∃ I Out1 IDs1 new,
      emitSpecConstantRecursive (.struct "S" [.integer 32, .fixedVector (.fp .float) 2])
        (List.replicate 5 (CallInst.mk .pointer "f" [] none)) [3] true = .ok (I, Out1, IDs1) ∧
      Out1 = List.replicate 5 (CallInst.mk .pointer "f" [] none) ++ new ∧
      new.map shapeOf = tree (.struct "S" [.integer 32, .fixedVector (.fp .float) 2]) 5 ∧
      new.length = 5 ∧
      I = .inst 9 (.struct "S" [.integer 32, .fixedVector (.fp .float) 2]) ∧
      (new.map shapeOf).countP Shape.isLeaf = 3 ∧ (new.map shapeOf).countP Shape.isNode = 2 := by
  refine ⟨by decide, by decide, rfl, ?_⟩
  obtain ⟨I, Out1, IDs1, new, h, h1, h2, h3, h4, h5, h6, _, _⟩ :=
    emitSpecConstantRecursive_tree (.struct "S" [.integer 32, .fixedVector (.fp .float) 2])
      (List.replicate 5 (CallInst.mk .pointer "f" [] none)) [3] true (by decide) (by decide)
  exact ⟨I, Out1, IDs1, new, h, h1, h2, h3, h4, h5, h6⟩

/-! ## The emitter and the flattener visit the same leaves -/

theorem toUnsigned_add_left (a b : Nat) : toUnsigned (toUnsigned a + b) = toUnsigned (a + b) := by
  simp only [toUnsigned, Nat.mod_add_mod]

theorem collectLeaves_Index (L : List Ty) :
    ∀ s s1, collectLeaves L s = .ok s1 → s.Index < UINT_RANGE →
      s1.Index = toUnsigned (s.Index + L.length) := by
  induction L with
  | nil =>
    intro s s1 h hlt
    simp only [collectLeaves, Except.ok.injEq] at h
    subst h
    simp only [List.length_nil, Nat.add_zero, toUnsigned, Nat.mod_eq_of_lt hlt]
  | cons T rest ih =>
    intro s s1 h hlt
    simp only [collectLeaves] at h
    cases hs : collectScalar T s with
    | error e => simp [hs] at h
    | ok s2 =>
      simp only [hs] at h
      have hi2 : s2.Index = toUnsigned (s.Index + 1) := by
        simp only [collectScalar] at hs
        split at hs
        · simp only [Except.ok.injEq] at hs
          rw [← hs]
        · cases hs
      have hlt2 : s2.Index < UINT_RANGE := by
        rw [hi2]
        exact Nat.mod_lt _ (by decide)
      rw [ih s2 s1 h hlt2, hi2, toUnsigned_add_left, List.length_cons]
      congr 1
      omega

/-- On a buffer with room for every scalar leaf the flattener returns, the
buffer keeps its length, and `Index` ends at the number of scalar leaves as an
`unsigned`. -/
theorem collect_counts (T : Ty) (n : Nat) (h : leafCount T ≤ n) :
    ∃ s, collectCompositeElementsInfoRecursive T (initialCollectState n) = .ok s ∧
      s.Index = toUnsigned (leafCount T) ∧ s.Result.length = n := by
  obtain ⟨s, hs, hl⟩ := collect_ok T n h
  refine ⟨s, hs, ?_, hl⟩
  rw [collect_eq_collectLeaves] at hs
  have := collectLeaves_Index (leaves T) (initialCollectState n) s hs
    (by simp only [initialCollectState, UINT_RANGE]; omega)
  rw [this]
  simp only [initialCollectState, Nat.zero_add, leafCount]

/-- C19. Take a type with at least one scalar leaf and a new constant of that
type, emitted from the one-element list of the counter. Whenever
`emitSpecConstantRecursive` returns, the list it leaves has one NumericID per
scalar leaf; the flattener, run on a buffer of that many entries as the reader
does, returns with the buffer at that length and with `Index`, the number of
descriptors it wrote, equal to the length of the list as an `unsigned`; the
result types of the leaf calls the emitter inserted are, in order, the scalar
leaves of the type in depth-first order, and the flattener is its scalar branch
run over those same leaves in that order, so that below `2 ^ 32` leaves the
`i`-th descriptor has the size of the type of the `i`-th leaf call. The emitter
returns for every supported type. -/
theorem emitter_flattener_alike (T : Ty) (Out : List CallInst) (c : Nat)
    (hpos : 0 < leafCount T) :
    (∀ I Out1 IDs, emitSpecConstantRecursive T Out [c] true = .ok (I, Out1, IDs) →
      IDs.length = leafCount T ∧
      ∃ s new, collectCompositeElementsInfoRecursive T (initialCollectState IDs.length) = .ok s ∧
        s.Index = toUnsigned IDs.length ∧ s.Result.length = IDs.length ∧
        Out1 = Out ++ new ∧ leafTypes (new.map shapeOf) = leaves T ∧
        (leafCount T < UINT_RANGE →
          s.Result.map (fun d => d.Size) =
            (leafTypes (new.map shapeOf)).map (fun L => toUnsigned (leafSize L)))) ∧
    (∀ s, collectCompositeElementsInfoRecursive T s = collectLeaves (leaves T) s) ∧
    (supported T = true → ∃ r, emitSpecConstantRecursive T Out [c] true = .ok r) := by
  refine ⟨?_, collect_eq_collectLeaves T, ?_⟩
  · intro I Out1 IDs h
    simp only [emitSpecConstantRecursive] at h
    cases he : emitSpecConstantRecursiveImpl T true (EmitState.mk Out [c] true) with
    | error e => simp [he] at h
    | ok r =>
      obtain ⟨I1, s1⟩ := r
      simp only [he, Except.ok.injEq, Prod.mk.injEq] at h
      obtain ⟨_, hOut, hIDs⟩ := h
      have hpost := emitImpl_post T true _ I1 s1 he
      obtain ⟨new, hnew, hmap, _⟩ := emitImpl_shape T true _ I1 s1 he
      have hids : IDs = newIDs c T := by
        rw [← hIDs]
        exact congrArg Prod.fst hpost.1
      have hlen : IDs.length = leafCount T := by
        rw [hids, length_newIDs]
        omega
      obtain ⟨s, hs, hidx, hres⟩ := collect_counts T IDs.length (by rw [hlen])
      refine ⟨hlen, s, new, hs, by rw [hidx, hlen], hres, by rw [← hOut, hnew], ?_, ?_⟩
      · rw [hmap, leafTypes_tree]
      · intro hlt
        obtain ⟨s2, hs2, _, _, hr2⟩ := collect_closed T hlt
        rw [hlen, hs2] at hs
        simp only [Except.ok.injEq] at hs
        rw [← hs, hr2, map_Size_recordedFrom, hmap, leafTypes_tree]
  · intro hT
    obtain ⟨r, hr⟩ := emitImpl_ok T hT true (EmitState.mk Out [c] true) (by simp)
    obtain ⟨I, s1⟩ := r
    exact ⟨(I, s1.Out, s1.IDs), by simp only [emitSpecConstantRecursive, hr]⟩

/-- C19 at the struct `{i32, <2 x double>}` from the counter 7: three IDs, three
descriptors, and the leaves `i32, double, double` on both sides. -/
theorem emitter_flattener_alike_witness :
    0 < leafCount pairStruct ∧
    emitSpecConstantRecursive pairStruct [] [7] true = .ok pairEmit ∧
    pairEmit.2.2 = [7, 8, 9] ∧
    leaves pairStruct = [.integer 32, .fp .double, .fp .double] ∧
    ∃ s new, collectCompositeElementsInfoRecursive pairStruct (initialCollectState 3) = .ok s ∧
      s.Index = 3 ∧ s.Result.length = 3 ∧ pairEmit.2.1 = new ∧
      leafTypes (new.map shapeOf) = [.integer 32, .fp .double, .fp .double] ∧
      s.Result.map (fun d => d.Size) = [4, 8, 8] := by
  refine ⟨by decide, rfl, by decide, rfl, ?_⟩
  obtain ⟨hlen, s, new, hs, hidx, hres, hOut, hleaf, hsize⟩ :=
    (emitter_flattener_alike pairStruct [] 7 (by decide)).1 pairEmit.1 pairEmit.2.1
      pairEmit.2.2 rfl
  have h3 : pairEmit.2.2.length = 3 := by decide
  rw [h3] at hs hidx hres
  refine ⟨s, new, hs, hidx.trans (by decide), hres, hOut.trans (List.nil_append _), hleaf, ?_⟩
  rw [hsize (by decide), hleaf]
  decide

/-! ## Prefixes of a run -/

theorem processCallSite_withIR (rt nd ic : Bool) (CI : CallSite) (b : Bool) (st : PassState) :
    processCallSite rt nd ic CI (withIR b st) =
      match processCallSite rt nd ic CI st with
      | .error e => .error e
      | .ok st1 => .ok (withIR b st1) := by
  simp only [processCallSite, withIR]
  cases siteType ic CI with
  | error e => rfl
  | ok SCTy =>
    cases siteName nd ic CI with
    | error e => rfl
    | ok r =>
      obtain ⟨SymID, Del⟩ := r
      cases rt with
      | true =>
        simp only [if_true]
        cases emitSpecConstantRecursive SCTy []
          (if (List.lookup SymID st.IDMap).isNone = true then [st.NextID]
            else (List.lookup SymID st.IDMap).getD [])
          (List.lookup SymID st.IDMap).isNone with
        | error e => rfl
        | ok x => rfl
      | false =>
        simp only [Bool.false_eq_true, if_false]
        cases getDefaultCPPValue SCTy with
        | error e => rfl
        | ok c => rfl

theorem processCallSites_withIR (rt nd ic : Bool) (sites : List CallSite) (b : Bool) :
    ∀ st, processCallSites rt nd ic sites (withIR b st) =
      match processCallSites rt nd ic sites st with
      | .error e => .error e
      | .ok st1 => .ok (withIR b st1) := by
  induction sites with
  | nil => intro st; rfl
  | cons CI rest ih =>
    intro st
    simp only [processCallSites, processCallSite_withIR]
    cases processCallSite rt nd ic CI st with
    | error e => rfl
    | ok st1 => exact ih st1

theorem processCallSites_append (rt nd ic : Bool) (A B : List CallSite) :
    ∀ st, processCallSites rt nd ic (A ++ B) st =
      match processCallSites rt nd ic A st with
      | .error e => .error e
      | .ok st1 => processCallSites rt nd ic B st1 := by
  induction A with
  | nil => intro st; rfl
  | cons CI rest ih =>
    intro st
    simp only [List.cons_append, processCallSites]
    cases processCallSite rt nd ic CI st with
    | error e => rfl
    | ok st1 => exact ih st1

theorem processFunctions_append (rt nd : Bool) (A B : List Function) :
    ∀ st, processFunctions rt nd (A ++ B) st =
      match processFunctions rt nd A st with
      | .error e => .error e
      | .ok st1 => processFunctions rt nd B st1 := by
  induction A with
  | nil => intro st; rfl
  | cons F rest ih =>
    intro st
    simp only [List.cons_append, processFunctions]
    cases processFunction rt nd F st with
    | error e => rfl
    | ok st1 => exact ih st1

theorem callUsers_append (A B : List User) : callUsers (A ++ B) = callUsers A ++ callUsers B := by
  induction A with
  | nil => rfl
  | cons u rest ih =>
    cases u with
    | call CI =>
      show CI :: callUsers (rest ++ B) = CI :: callUsers rest ++ callUsers B
      rw [ih]
      rfl
    | other => exact ih

/-- Processing a function whose users are cut short: when the function with all
users is processed with a result, so is the function with the first users, and
the rest of the processing is that of the remaining call sites, up to
`IRModified`. -/
theorem processFunction_cut (rt nd : Bool) (Name : String) (decl : Bool)
    (users1 users2 : List User) (st st2 : PassState)
    (h : processFunction rt nd (Function.mk Name decl (users1 ++ users2)) st = .ok st2) :
    ∃ st1 b, processFunction rt nd (Function.mk Name decl users1) st = .ok st1 ∧
      processCallSites rt nd (startswith Name SYCL_GET_COMPOSITE_SPEC_CONST_VAL)
        (if isAccessor (Function.mk Name decl users1) then callUsers users2 else [])
        (withIR b st1) = .ok st2 := by
  cases ha : isAccessor (Function.mk Name decl users1) with
  | false =>
    have ha2 : isAccessor (Function.mk Name decl (users1 ++ users2)) = false := ha
    rw [processFunction_skip rt nd _ st (Or.inl ha2)] at h
    simp only [Except.ok.injEq] at h
    subst h
    refine ⟨st, st.IRModified, processFunction_skip rt nd _ st (Or.inl ha), ?_⟩
    simp only [Bool.false_eq_true, if_false, processCallSites, withIR]
  | true =>
    have ha2 : isAccessor (Function.mk Name decl (users1 ++ users2)) = true := ha
    obtain ⟨hd, hp⟩ := isAccessor_iff _ ha
    obtain ⟨hd2, hp2⟩ := isAccessor_iff _ ha2
    rw [processFunction_accessor rt nd _ st hd2 hp2] at h
    simp only [callUsers_append] at h
    have h' : processCallSites rt nd (startswith Name SYCL_GET_COMPOSITE_SPEC_CONST_VAL)
        (callUsers users1 ++ callUsers users2)
        (withIR (st.IRModified ||
          decide ((callUsers users1 ++ callUsers users2).length > 0)) st) = .ok st2 := h
    rw [processCallSites_append, processCallSites_withIR] at h'
    cases h1 : processCallSites rt nd (startswith Name SYCL_GET_COMPOSITE_SPEC_CONST_VAL)
        (callUsers users1) st with
    | error e => simp [h1] at h'
    | ok sM =>
      simp only [h1] at h'
      refine ⟨withIR (st.IRModified || decide ((callUsers users1).length > 0)) sM,
        st.IRModified || decide ((callUsers users1 ++ callUsers users2).length > 0), ?_, ?_⟩
      · rw [processFunction_accessor rt nd _ st hd hp]
        show processCallSites rt nd _ (callUsers users1) (withIR _ st) = _
        rw [processCallSites_withIR, h1]
      · simp only [if_true]
        exact h'

theorem processCallSite_extends (nd ic : Bool) (CI : CallSite) (st st1 : PassState)
    (h : processCallSite true nd ic CI st = .ok st1) :
    ∃ more, st1.IDMap = st.IDMap ++ more := by
  obtain ⟨SCTy, SymID, Del, L, IDs, _, _, _, _, _, _, _, hmap, hcase⟩ :=
    processCallSite_RT _ _ _ _ _ h
  rcases hcase with ⟨hnone, _, _⟩ | ⟨hold, _⟩
  · exact ⟨[(SymID, IDs)], by rw [hmap, assign_of_lookup_none _ _ _ hnone]⟩
  · exact ⟨[], by rw [hmap, assign_of_lookup _ _ _ hold, List.append_nil]⟩

theorem processCallSite_extends_from (m0 : List (String × List Nat)) (nd ic : Bool)
    (CI : CallSite) (st st1 : PassState) (hP : ∃ more, st.IDMap = m0 ++ more)
    (h : processCallSite true nd ic CI st = .ok st1) : ∃ more, st1.IDMap = m0 ++ more := by
  obtain ⟨more, hm⟩ := hP
  obtain ⟨more1, hm1⟩ := processCallSite_extends nd ic CI st st1 h
  exact ⟨more ++ more1, by rw [hm1, hm, List.append_assoc]⟩

theorem allIDs_append_list (A B : List (String × List Nat)) :
    allIDs (A ++ B) = allIDs A ++ allIDs B := by
  induction A with
  | nil => rfl
  | cons e rest ih =>
    show e.2 ++ allIDs (rest ++ B) = (e.2 ++ allIDs rest) ++ allIDs B
    rw [ih, List.append_assoc]

theorem lookup_append_of_some {V : Type} (A B : List (String × V)) (k : String) (v : V)
    (h : List.lookup k A = some v) : List.lookup k (A ++ B) = some v := by
  induction A with
  | nil => simp [List.lookup] at h
  | cons e rest ih =>
    obtain ⟨k1, v1⟩ := e
    simp only [List.cons_append, List.lookup] at h ⊢
    cases hk : k == k1 with
    | true => simpa only [hk] using h
    | false =>
      simp only [hk] at h ⊢
      exact ih h

theorem run_nonEmpty (nd : Bool) (M : List Function) (st : PassState)
    (h : run true nd M = .ok st) : NonEmptyLists st :=
  run_invariant NonEmptyLists true nd (fun _ _ hP => hP)
    (fun ic CI st st1 hP h1 => processCallSite_nonEmpty nd ic CI st st1 hP h1)
    (fun k hk => by simp [initialState, List.lookup] at hk) M st h

theorem gapFree_of_counted (st : PassState) (hC : Counted st) (hN : NonEmptyLists st)
    (hfit : (allIDs st.IDMap).length < UINT_RANGE) : GapFree st := by
  obtain ⟨hA, hNext⟩ := hC
  have hnext : st.NextID = (allIDs st.IDMap).length := by
    rw [hNext, toUnsigned, Nat.mod_eq_of_lt hfit]
  refine ⟨fun k IDs hk h0 => hN k (by rw [hk, h0]), hnext, ?_⟩
  intro n
  rw [idRun_eq_range _ (by omega)] at hA
  rw [hnext]
  conv_lhs => rw [hA]
  rw [List.mem_range'_1]
  omega

/-- C20, as amended. Take a run in run-time mode that returns, and cut it
anywhere: after the functions `pre` and the first users `users1` of the next
function. The run returns on the cut module too, and every entry `IDMap` has
after the cut is kept as it is to the end. If the run ends with fewer than
`2 ^ 32` NumericIDs stored, both states are gap free: no stored list is empty,
`NextID` is the number of NumericIDs stored in `IDMap`, and the stored
NumericIDs are exactly the numbers below `NextID`; and `NextID` does not
decrease from the cut to the end. -/
theorem run_gap_free (NDEBUG : Bool) (pre : List Function) (Name : String) (decl : Bool)
    (users1 users2 : List User) (post : List Function) (st : PassState)
    (hrun : run true NDEBUG (pre ++ [Function.mk Name decl (users1 ++ users2)] ++ post) =
      .ok st) :
    ∃ st0, run true NDEBUG (pre ++ [Function.mk Name decl users1]) = .ok st0 ∧
      (∀ k IDs, List.lookup k st0.IDMap = some IDs → List.lookup k st.IDMap = some IDs) ∧
      ((allIDs st.IDMap).length < UINT_RANGE →
        GapFree st ∧ GapFree st0 ∧ st0.NextID ≤ st.NextID) := by
  have hrun' := hrun
  simp only [run, processFunctions_append] at hrun'
  cases hA : processFunctions true NDEBUG pre
      (PassState.mk 0 [] false []) with
  | error e => simp [hA] at hrun'
  | ok sA =>
    simp only [hA, processFunctions] at hrun'
    cases hB : processFunction true NDEBUG (Function.mk Name decl (users1 ++ users2)) sA with
    | error e => simp [hB] at hrun'
    | ok sB =>
      simp only [hB] at hrun'
      obtain ⟨st0, b, h0, hrest⟩ := processFunction_cut true NDEBUG Name decl users1 users2 sA sB hB
      have hrun0 : run true NDEBUG (pre ++ [Function.mk Name decl users1]) = .ok st0 := by
        simp only [run, processFunctions_append, hA, processFunctions, h0]
      have hext1 : ∃ more, sB.IDMap = st0.IDMap ++ more :=
        processCallSites_invariant (fun s => ∃ more, s.IDMap = st0.IDMap ++ more) true NDEBUG _
          (fun CI s s1 hP h1 => processCallSite_extends_from st0.IDMap NDEBUG _ CI s s1 hP h1)
          _ (withIR b st0) sB ⟨[], (List.append_nil _).symm⟩ hrest
      obtain ⟨more, hmore⟩ : ∃ more, st.IDMap = st0.IDMap ++ more :=
        processFunctions_invariant (fun s => ∃ more, s.IDMap = st0.IDMap ++ more) true NDEBUG
          (fun _ _ hP => hP)
          (fun ic CI s s1 hP h1 => processCallSite_extends_from st0.IDMap NDEBUG ic CI s s1 hP h1)
          post sB st hext1 hrun'
      refine ⟨st0, hrun0, ?_, ?_⟩
      · intro k IDs hk
        rw [hmore]
        exact lookup_append_of_some _ _ _ _ hk
      · intro hfit
        have hG : GapFree st :=
          gapFree_of_counted st (run_counted NDEBUG _ st hrun) (run_nonEmpty NDEBUG _ st hrun)
            hfit
        have hlen : (allIDs st0.IDMap).length ≤ (allIDs st.IDMap).length := by
          rw [hmore, allIDs_append_list, List.length_append]
          omega
        have hG0 : GapFree st0 :=
          gapFree_of_counted st0 (run_counted NDEBUG _ st0 hrun0)
            (run_nonEmpty NDEBUG _ st0 hrun0) (by omega)
        refine ⟨hG, hG0, ?_⟩
        rw [hG0.2.1, hG.2.1]
        exact hlen

/-- C20 at `roundTripModule`, cut after its first function: after the cut
`ConstA` has `[0]` and `NextID` is 1; at the end `ConstB` has `[1, 2]` and
`NextID` is 3. -/
theorem run_gap_free_witness :
    run true true ([] ++ [Function.mk "_Z27__sycl_getSpecConstantValueIiET_PKc" true
        ([.call (scalarSite 1 "ConstA" (.integer 32))] ++ [])] ++ roundTripModule.drop 1) =
      .ok (finalState (run true true roundTripModule)) ∧
    (allIDs (finalState (run true true roundTripModule)).IDMap).length < UINT_RANGE ∧
    (finalState (run true true roundTripModule)).IDMap =
      [("ConstA", [0]), ("ConstB", [1, 2])] ∧
    (finalState (run true true roundTripModule)).NextID = 3 ∧
    ∃ st0, run true true ([] ++ [Function.mk "_Z27__sycl_getSpecConstantValueIiET_PKc" true
        [.call (scalarSite 1 "ConstA" (.integer 32))]]) = .ok st0 ∧
      (∀ k IDs, List.lookup k st0.IDMap = some IDs →
        List.lookup k (finalState (run true true roundTripModule)).IDMap = some IDs) ∧
      GapFree (finalState (run true true roundTripModule)) ∧ GapFree st0 ∧
      st0.NextID ≤ (finalState (run true true roundTripModule)).NextID := by
  refine ⟨rfl, by decide, by decide, by decide, ?_⟩
  obtain ⟨st0, h0, hk, hg⟩ := run_gap_free true [] "_Z27__sycl_getSpecConstantValueIiET_PKc" true
    [.call (scalarSite 1 "ConstA" (.integer 32))] [] (roundTripModule.drop 1)
    (finalState (run true true roundTripModule)) rfl
  exact ⟨st0, h0, hk, hg (by decide)⟩

theorem mem_allIDs_of_lookup (m : List (String × List Nat)) (k : String) (IDs : List Nat)
    (h : List.lookup k m = some IDs) : ∀ x ∈ IDs, x ∈ allIDs m := by
  induction m with
  | nil => simp [List.lookup] at h
  | cons e rest ih =>
    obtain ⟨k1, v1⟩ := e
    intro x hx
    simp only [List.lookup] at h
    simp only [allIDs, List.mem_append]
    cases hk : k == k1 with
    | true =>
      simp only [hk, Option.some.injEq] at h
      exact Or.inl (h ▸ hx)
    | false =>
      simp only [hk] at h
      exact Or.inr (ih h x hx)

theorem run_one_accessor (rt nd ic : Bool) (F : Function) (CI : CallSite) (st1 : PassState)
    (hd : F.isDeclaration = true)
    (hp : (!startswith F.Name SYCL_GET_SPEC_CONST_VAL &&
      !startswith F.Name SYCL_GET_COMPOSITE_SPEC_CONST_VAL) = false)
    (hic : startswith F.Name SYCL_GET_COMPOSITE_SPEC_CONST_VAL = ic)
    (hu : callUsers F.users = [CI])
    (h1 : processCallSite rt nd ic CI (PassState.mk 0 [] true []) = .ok st1) :
    run rt nd [F] = .ok st1 := by
  have e1 : processFunction rt nd F (PassState.mk 0 [] false []) = .ok st1 := by
    rw [processFunction_accessor rt nd F _ hd hp, hic, hu]
    simp only [List.length_singleton, Nat.lt_add_one, gt_iff_lt, decide_True, Bool.or_true]
    exact processCallSites_single _ _ _ _ _ _ h1
  simp only [run, processFunctions, e1]

/-- C20, counterexample. In `wrappingModule` the constant `ConstA` has
`2 ^ 32 - 1` scalar leaves. After its call site `NextID` is `4294967295`; after
the call site of `ConstB`, of type `<2 x i32>`, `NextID` is 1: it has
decreased, it is not the number of NumericIDs stored, and the stored ID
`4294967295` is not below it. -/
theorem run_counter_wraps :
    ∃ st0 st, run true true wrappingPrefix = .ok st0 ∧ run true true wrappingModule = .ok st ∧
      st0.NextID = 4294967295 ∧ st.NextID = 1 ∧
      List.lookup "ConstB" st.IDMap = some [4294967295, 0] ∧
      4294967295 ∈ allIDs st.IDMap ∧ ¬ (allIDs st.IDMap).length ≤ st.NextID := by
  have hleafA : leafCount (.array (.integer 32) 4294967295) = 4294967295 := by
    rw [leafCount_array]
    rfl
  obtain ⟨st1, h1, hA1, hN1, hO1⟩ := processCallSite_new true true
    (compositeSite 1 "ConstA" (.array (.integer 32) 4294967295))
    (PassState.mk 0 [] true []) (.array (.integer 32) 4294967295) "ConstA" [1]
    rfl (by decide) (by decide) (by decide) (by decide)
  rw [hleafA] at hA1 hN1
  have hN1v : st1.NextID = 4294967295 := hN1.trans (by decide)
  have hB1 : List.lookup "ConstB" st1.IDMap = none := (hO1 "ConstB" (by decide)).trans rfl
  obtain ⟨st2, h2, hB2, hN2, hO2⟩ := processCallSite_new true false
    (scalarSite 2 "ConstB" (.fixedVector (.integer 32) 2))
    (PassState.mk st1.NextID st1.IDMap true st1.Lowered)
    (.fixedVector (.integer 32) 2) "ConstB" [2]
    rfl (by decide) (by rw [hN1v]; decide) hB1 (by decide)
  have hrun0 : run true true wrappingPrefix = .ok st1 :=
    run_one_accessor true true true _ _ st1 rfl (by decide) (by decide) rfl h1
  have hrun : run true true wrappingModule = .ok st2 :=
    run_two_accessors true true true false _ _ _ _ st1 st2 rfl rfl (by decide) (by decide)
      (by decide) (by decide) rfl rfl h1 h2
  have q3 : List.lookup "ConstB" st2.IDMap = some [4294967295, 0] := by
    rw [hB2]
    show some (idRun st1.NextID _) = _
    rw [hN1v]
    decide
  have q4 : st2.NextID = 1 := by
    rw [hN2]
    show toUnsigned (st1.NextID + _) = 1
    rw [hN1v]
    decide
  have q5 := mem_allIDs_of_lookup st2.IDMap "ConstB" _ q3
  refine ⟨st1, st2, hrun0, hrun, hN1v, q4, q3, q5 _ (by decide), ?_⟩
  rw [q4]
  intro hle
  have hA2 : List.lookup "ConstA" st2.IDMap = some (idRun 0 (max 1 4294967295)) := by
    rw [hO2 "ConstA" (by decide)]
    exact hA1
  have q6 := mem_allIDs_of_lookup st2.IDMap "ConstA" _ hA2 0
    (mem_idRun_self 0 _ (by decide) (by omega))
  match hl : allIDs st2.IDMap, hle, q6, q5 4294967295 (by decide) with
  | [], _, h0, _ => cases h0
  | [x], _, h0, h1 =>
    simp only [List.mem_singleton] at h0 h1
    omega
  | _ :: _ :: _, hlen, _, _ =>
    simp only [List.length_cons] at hlen
    omega

/-! ## The reader stays inside the annotations the pass writes -/

theorem getScalar_of_annotation (c : CallInst) (k : String) (IDs : List Nat)
    (hmd : c.MD = some (k, IDs)) (hne : IDs ≠ []) :
    ∃ ID, getScalarSpecConstMetadata c = .ok (k, ID) := by
  cases IDs with
  | nil => exact absurd rfl hne
  | cons ID rest => exact ⟨ID, by simp only [getScalarSpecConstMetadata, hmd]⟩

theorem getComposite_of_annotation (c : CallInst) (k : String) (IDs : List Nat)
    (hmd : c.MD = some (k, IDs)) (hlen : leafCount c.Ty ≤ IDs.length) :
    ∃ s Result, collectCompositeElementsInfoRecursive c.Ty (initialCollectState IDs.length)
        = .ok s ∧ s.Result.length = IDs.length ∧
      overlayIDs IDs 1 s.Result = .ok Result ∧
      getCompositeSpecConstMetadata c = .ok (k, Result) := by
  obtain ⟨s, hs, hl⟩ := collect_ok c.Ty IDs.length hlen
  have hov := overlayIDs_eq IDs [] s.Result (by rw [hl])
  simp only [List.length_nil, Nat.zero_add, List.nil_append] at hov
  have hs1 : collectCompositeElementsInfoRecursive c.Ty
      (CollectState.mk 0 0 (List.replicate IDs.length
        (CompositeSpecConstElementDescriptor.mk 0 0 0))) = .ok s := hs
  exact ⟨s, _, hs, hl, hov, by simp only [getCompositeSpecConstMetadata, hmd, hs1, hov]⟩

/-- C21. Take a run in run-time mode in which every symbolic name is always
used with one type. Every lowered call site has an inserted call of its type
that carries the annotation of its name, and every annotation the run wrote has
at least one NumericID and at least as many NumericIDs as the type of its call
has scalar leaves. On such a call `getScalarSpecConstMetadata` returns, reading
operand 1 inside the node, and `getCompositeSpecConstMetadata` returns: on the
buffer of one entry per NumericID the flattener returns without leaving the
buffer, and so does the loop that copies the NumericIDs into it. -/
theorem reader_in_bounds (NDEBUG : Bool) (M : List Function) (st : PassState)
    (hrun : run true NDEBUG M = .ok st)
    (htype : ∀ L1 ∈ st.Lowered, ∀ L2 ∈ st.Lowered, L1.SymID = L2.SymID → L1.SCTy = L2.SCTy) :
    (∀ L ∈ st.Lowered, ∃ IDs c, c ∈ insertedCalls st.Lowered ∧
      c.MD = some (L.SymID, IDs) ∧ c.Ty = L.SCTy) ∧
    (∀ c ∈ insertedCalls st.Lowered, ∀ SymID IDs, c.MD = some (SymID, IDs) →
      IDs ≠ [] ∧ leafCount c.Ty ≤ IDs.length ∧
      (∃ ID, getScalarSpecConstMetadata c = .ok (SymID, ID)) ∧
      ∃ s Result,
        collectCompositeElementsInfoRecursive c.Ty (initialCollectState IDs.length) = .ok s ∧
        s.Result.length = IDs.length ∧ overlayIDs IDs 1 s.Result = .ok Result ∧
        getCompositeSpecConstMetadata c = .ok (SymID, Result)) := by
  obtain ⟨hA, hB⟩ := run_traced NDEBUG M st hrun
  have key : ∀ L ∈ st.Lowered, ∃ IDs before top, L.Inserted = before ++ [top] ∧
      (∀ c ∈ before, c.MD = none) ∧ top.MD = some (L.SymID, IDs) ∧ top.Ty = L.SCTy ∧
      IDs.length = max 1 (leafCount L.SCTy) := by
    intro L hL
    obtain ⟨IDs, hl, before, top, hI, hb, hmd, hty, _, _⟩ := hA L hL
    obtain ⟨L1, hL1, hs1, hlen⟩ := hB _ _ hl
    rw [htype L1 hL1 L hL hs1] at hlen
    exact ⟨IDs, before, top, hI, hb, hmd, hty, hlen⟩
  constructor
  · intro L hL
    obtain ⟨IDs, before, top, hI, _, hmd, hty, _⟩ := key L hL
    refine ⟨IDs, top, (mem_insertedCalls _ _).mpr ⟨L, hL, ?_⟩, hmd, hty⟩
    rw [hI]
    simp
  · intro c hc SymID IDs hmd
    obtain ⟨L, hL, hcL⟩ := (mem_insertedCalls _ _).mp hc
    obtain ⟨IDs1, before, top, hI, hb, hmd1, hty, hlen⟩ := key L hL
    rw [hI] at hcL
    rcases List.mem_append.mp hcL with h | h
    · rw [hb c h] at hmd
      cases hmd
    · rw [List.mem_singleton.mp h] at hmd ⊢
      rw [hmd1] at hmd
      simp only [Option.some.injEq, Prod.mk.injEq] at hmd
      obtain ⟨_, hids⟩ := hmd
      subst hids
      have hne : IDs1 ≠ [] := by
        intro h0
        rw [h0] at hlen
        simp only [List.length_nil] at hlen
        omega
      have hle : leafCount top.Ty ≤ IDs1.length := by
        rw [hty, hlen]
        omega
      have hmd2 : top.MD = some (SymID, IDs1) := by
        rw [hmd1]
        simp only [Option.some.injEq, Prod.mk.injEq, and_true]
        assumption
      exact ⟨hne, hle, getScalar_of_annotation top SymID IDs1 hmd2 hne,
        getComposite_of_annotation top SymID IDs1 hmd2 hle⟩

/-- C21 at `roundTripModule`, where the annotations are `(ConstA, [0])` on the
scalar call and `(ConstB, [1, 2])` on the call of type `<2 x i32>`, and at
`zeroLeafModule`, where the call of type `[0 x i32]` carries `(ConstA, [0])`
and the composite getter returns the one descriptor of its buffer. -/
theorem reader_in_bounds_witness :
    run true true roundTripModule = .ok (finalState (run true true roundTripModule)) ∧
    (∀ L1 ∈ (finalState (run true true roundTripModule)).Lowered,
      ∀ L2 ∈ (finalState (run true true roundTripModule)).Lowered,
      L1.SymID = L2.SymID → L1.SCTy = L2.SCTy) ∧
    (insertedCalls (finalState (run true true roundTripModule)).Lowered).map (fun c => c.MD) =
      [some ("ConstA", [0]), none, none, some ("ConstB", [1, 2])] ∧
    (∀ c ∈ insertedCalls (finalState (run true true roundTripModule)).Lowered,
      ∀ SymID IDs, c.MD = some (SymID, IDs) →
      IDs ≠ [] ∧ leafCount c.Ty ≤ IDs.length ∧
      (∃ ID, getScalarSpecConstMetadata c = .ok (SymID, ID)) ∧
      ∃ s Result,
        collectCompositeElementsInfoRecursive c.Ty (initialCollectState IDs.length) = .ok s ∧
        s.Result.length = IDs.length ∧ overlayIDs IDs 1 s.Result = .ok Result ∧
        getCompositeSpecConstMetadata c = .ok (SymID, Result)) ∧
    (insertedCalls (finalState (run true true zeroLeafModule)).Lowered).map
      (fun c => (c.MD, getCompositeSpecConstMetadata c)) =
      [(some ("ConstA", [0]),
        .ok ("ConstA", [CompositeSpecConstElementDescriptor.mk 0 0 0]))] :=
  ⟨rfl, same_type_of_nodup _ (by decide), by decide,
    (reader_in_bounds true roundTripModule _ rfl (same_type_of_nodup _ (by decide))).2,
    by decide⟩

/-- Without the precondition of C21 the composite getter leaves its buffer: in
`mismatchModule` the call of type `<2 x i32>` carries the one-element list of
the name `ConstA`, and the flattener writes the second of its two descriptors
outside the buffer of one entry. -/
theorem reader_leaves_buffer_on_mismatch :
    ∃ st c, run true true mismatchModule = .ok st ∧
      (insertedCalls st.Lowered).getLast? = some c ∧ c.MD = some ("ConstA", [0]) ∧
      leafCount c.Ty = 2 ∧
      getCompositeSpecConstMetadata c = .error (.undefined "Result[Index] outside the vector") :=
  ⟨_, _, rfl, rfl, by decide, by decide, by decide⟩

/-! ## The NumericID of the leaf calls of a reused name -/

theorem emitScalar_reuse (T : Ty) (hT : isComposite T = false) (s : EmitState) (b : Nat)
    (hb : s.IDs.getLast? = some b) (I : Value) (s1 : EmitState)
    (h : emitScalar T false s = .ok (I, s1)) :
    s1.IDs = s.IDs ∧ ∃ top Def, s1.Out = s.Out ++ [top] ∧
      top.Args = [.constInt32 b, .constant Def] ∧ shapeOf top = .leaf T := by
  simp only [emitScalar, Bool.false_and, Bool.false_eq_true, if_false, hb] at h
  cases he : emitSpecConstant b T s.Out with
  | error e => simp [he] at h
  | ok r =>
    obtain ⟨I1, Out1⟩ := r
    simp only [he, Except.ok.injEq, Prod.mk.injEq] at h
    obtain ⟨_, hs⟩ := h
    subst hs
    simp only [emitSpecConstant] at he
    cases hd : getDefaultCPPValue T with
    | error e => simp [hd] at he
    | ok Def =>
      simp only [hd] at he
      obtain ⟨name, hm, _, hOut⟩ := emitCall_spec _ _ _ _ _ _ he
      obtain ⟨c1, c2⟩ := scalar_callee T hT Def hd name hm
      refine ⟨rfl, CallInst.mk T name [.constInt32 b, .constant Def] none, Def, hOut, rfl, ?_⟩
      simp only [shapeOf, c1, c2, Bool.false_eq_true, if_false, if_true]

theorem loopN_emit_reuse (elem : Ty) (b : Nat)
    (ih : ∀ s I s1, s.IDs.getLast? = some b →
      emitSpecConstantRecursiveImpl elem false s = .ok (I, s1) →
      s1.IDs = s.IDs ∧ ∃ new, s1.Out = s.Out ++ new ∧
        ∀ c ∈ new, ∀ T1, shapeOf c = .leaf T1 → ∃ Def, c.Args = [.constInt32 b, .constant Def])
    (n : Nat) :
    ∀ p p1, p.2.IDs.getLast? = some b →
      loopN (LoopIteration (fun s1 => emitSpecConstantRecursiveImpl elem false s1)) n p
        = .ok p1 →
      p1.2.IDs = p.2.IDs ∧ ∃ new, p1.2.Out = p.2.Out ++ new ∧
        ∀ c ∈ new, ∀ T1, shapeOf c = .leaf T1 →
          ∃ Def, c.Args = [.constInt32 b, .constant Def] := by
  induction n with
  | zero =>
    intro p p1 _ h
    simp only [loopN, Except.ok.injEq] at h
    subst h
    exact ⟨rfl, [], by simp, fun c hc => by cases hc⟩
  | succ n ihn =>
    intro p p1 hb h
    simp only [loopN] at h
    cases hl : LoopIteration (fun s1 => emitSpecConstantRecursiveImpl elem false s1) p with
    | error e => simp [hl] at h
    | ok p2 =>
      simp only [hl] at h
      obtain ⟨I, s2, hf, hp2⟩ := LoopIteration_spec _ _ _ hl
      obtain ⟨hids1, new1, hOut1, hargs1⟩ := ih _ _ _ hb hf
      subst hp2
      obtain ⟨hids2, new2, hOut2, hargs2⟩ := ihn _ p1 (by rw [hids1]; exact hb) h
      refine ⟨hids2.trans hids1, new1 ++ new2, ?_, ?_⟩
      · rw [hOut2, hOut1, List.append_assoc]
      · intro c hc
        rcases List.mem_append.mp hc with hm | hm
        · exact hargs1 c hm
        · exact hargs2 c hm

theorem emitElements_reuse (elems : List Ty) (b : Nat)
    (ih : ∀ T ∈ elems, ∀ s I s1, s.IDs.getLast? = some b →
      emitSpecConstantRecursiveImpl T false s = .ok (I, s1) →
      s1.IDs = s.IDs ∧ ∃ new, s1.Out = s.Out ++ new ∧
        ∀ c ∈ new, ∀ T1, shapeOf c = .leaf T1 → ∃ Def, c.Args = [.constInt32 b, .constant Def]) :
    ∀ p p1, p.2.IDs.getLast? = some b →
      emitSpecConstantRecursiveElements elems false p = .ok p1 →
      p1.2.IDs = p.2.IDs ∧ ∃ new, p1.2.Out = p.2.Out ++ new ∧
        ∀ c ∈ new, ∀ T1, shapeOf c = .leaf T1 →
          ∃ Def, c.Args = [.constInt32 b, .constant Def] := by
  induction elems with
  | nil =>
    intro p p1 _ h
    simp only [emitSpecConstantRecursiveElements, Except.ok.injEq] at h
    subst h
    exact ⟨rfl, [], by simp, fun c hc => by cases hc⟩
  | cons T rest ihl =>
    intro p p1 hb h
    simp only [emitSpecConstantRecursiveElements] at h
    cases hl : LoopIteration (fun s1 => emitSpecConstantRecursiveImpl T false s1) p with
    | error e => simp [hl] at h
    | ok p2 =>
      simp only [hl] at h
      obtain ⟨I, s2, hf, hp2⟩ := LoopIteration_spec _ _ _ hl
      obtain ⟨hids1, new1, hOut1, hargs1⟩ := ih T (List.mem_cons_self _ _) _ _ _ hb hf
      subst hp2
      obtain ⟨hids2, new2, hOut2, hargs2⟩ :=
        ihl (fun U hU => ih U (List.mem_cons_of_mem _ hU)) _ p1 (by rw [hids1]; exact hb) h
      refine ⟨hids2.trans hids1, new1 ++ new2, ?_, ?_⟩
      · rw [hOut2, hOut1, List.append_assoc]
      · intro c hc
        rcases List.mem_append.mp hc with hm | hm
        · exact hargs1 c hm
        · exact hargs2 c hm

theorem emitComposite_IDs (T : Ty) (p : List Value × EmitState) (I : Value) (s1 : EmitState)
    (h : emitComposite T p = .ok (I, s1)) : s1.IDs = p.2.IDs := by
  simp only [emitComposite] at h
  cases he : emitSpecConstantComposite T p.1 p.2.Out with
  | error e => simp [he] at h
  | ok r =>
    obtain ⟨I1, Out1⟩ := r
    simp only [he, Except.ok.injEq, Prod.mk.injEq] at h
    rw [← h.2]

theorem emitComposite_reuse (T : Ty) (b : Nat) (s : EmitState) (p : List Value × EmitState)
    (I : Value) (s1 : EmitState)
    (hp : p.2.IDs = s.IDs ∧ ∃ new, p.2.Out = s.Out ++ new ∧
      ∀ c ∈ new, ∀ T1, shapeOf c = .leaf T1 → ∃ Def, c.Args = [.constInt32 b, .constant Def])
    (h : emitComposite T p = .ok (I, s1)) :
    s1.IDs = s.IDs ∧ ∃ new, s1.Out = s.Out ++ new ∧
      ∀ c ∈ new, ∀ T1, shapeOf c = .leaf T1 →
        ∃ Def, c.Args = [.constInt32 b, .constant Def] := by
  obtain ⟨hids, new, hOut, hargs⟩ := hp
  have h1 := emitComposite_IDs T p I s1 h
  obtain ⟨top, hOut1, _, hsh⟩ := emitComposite_shape T p I s1 h
  refine ⟨h1.trans hids, new ++ [top], by rw [hOut1, hOut, List.append_assoc], ?_⟩
  intro c hc T1 hleaf
  rcases List.mem_append.mp hc with hm | hm
  · exact hargs c hm T1 hleaf
  · rw [List.mem_singleton.mp hm, hsh] at hleaf
    cases hleaf

/-- With `IsNewSpecConstant = false`, a successful call of
`emitSpecConstantRecursiveImpl` leaves `IDs` as it is and gives every call of the
scalar intrinsic it inserts the last element of `IDs`. -/
theorem emitImpl_reuse (T : Ty) (b : Nat) :
    ∀ s I s1, s.IDs.getLast? = some b →
      emitSpecConstantRecursiveImpl T false s = .ok (I, s1) →
      s1.IDs = s.IDs ∧ ∃ new, s1.Out = s.Out ++ new ∧
        ∀ c ∈ new, ∀ T1, shapeOf c = .leaf T1 →
          ∃ Def, c.Args = [.constInt32 b, .constant Def] := by
  have scalar : ∀ T, isComposite T = false → ∀ s I s1, s.IDs.getLast? = some b →
      emitScalar T false s = .ok (I, s1) →
      s1.IDs = s.IDs ∧ ∃ new, s1.Out = s.Out ++ new ∧
        ∀ c ∈ new, ∀ T1, shapeOf c = .leaf T1 →
          ∃ Def, c.Args = [.constInt32 b, .constant Def] := by
    intro T hT s I s1 hb h
    obtain ⟨hids, top, Def, hOut, hargs, _⟩ := emitScalar_reuse T hT s b hb I s1 h
    refine ⟨hids, [top], hOut, ?_⟩
    intro c hc T1 _
    rw [List.mem_singleton.mp hc]
    exact ⟨Def, hargs⟩
  induction T using Ty.induction with
  | hint bits =>
    intro s I s1 hb h
    exact scalar (.integer bits) rfl s I s1 hb
      (by simpa only [emitSpecConstantRecursiveImpl] using h)
  | hfp k =>
    intro s I s1 hb h
    exact scalar (.fp k) rfl s I s1 hb (by simpa only [emitSpecConstantRecursiveImpl] using h)
  | hptr =>
    intro s I s1 hb h
    exact scalar .pointer rfl s I s1 hb (by simpa only [emitSpecConstantRecursiveImpl] using h)
  | harr elem num ih =>
    intro s I s1 hb h
    simp only [emitSpecConstantRecursiveImpl] at h
    cases hl : loopN (LoopIteration
        (fun s1 => emitSpecConstantRecursiveImpl elem false s1)) num ([], s) with
    | error e => simp [hl] at h
    | ok p =>
      simp only [hl] at h
      exact emitComposite_reuse _ b s p I s1 (loopN_emit_reuse elem b ih num _ _ hb hl) h
  | hstruct name elems ih =>
    intro s I s1 hb h
    simp only [emitSpecConstantRecursiveImpl] at h
    cases hl : emitSpecConstantRecursiveElements elems false ([], s) with
    | error e => simp [hl] at h
    | ok p =>
      simp only [hl] at h
      exact emitComposite_reuse _ b s p I s1 (emitElements_reuse elems b ih _ _ hb hl) h
  | hvec elem num ih =>
    intro s I s1 hb h
    simp only [emitSpecConstantRecursiveImpl] at h
    cases hl : loopN (LoopIteration
        (fun s1 => emitSpecConstantRecursiveImpl elem false s1)) num ([], s) with
    | error e => simp [hl] at h
    | ok p =>
      simp only [hl] at h
      exact emitComposite_reuse _ b s p I s1 (loopN_emit_reuse elem b ih num _ _ hb hl) h

/-- C22. Let `emitSpecConstantRecursive` be called with
`IsNewSpecConstant = false` and a non-empty list `IDs` whose last element is
`b`. Whenever it returns, the list it returns is `IDs` unchanged, and every call
of `__spirv_SpecConstant` it inserted has the arguments `b` and the default
value; there is one such call per scalar leaf of the type, their result types
being the scalar leaves in depth-first order. It returns for every supported
type. -/
theorem emitSpecConstantRecursive_reuse (T : Ty) (Out : List CallInst) (IDs : List Nat)
    (b : Nat) (hlast : IDs.getLast? = some b) :
    (∀ I Out1 IDs1, emitSpecConstantRecursive T Out IDs false = .ok (I, Out1, IDs1) →
      IDs1 = IDs ∧ ∃ new, Out1 = Out ++ new ∧
        (∀ c ∈ new, ∀ T1, shapeOf c = .leaf T1 →
          ∃ Def, c.Args = [.constInt32 b, .constant Def]) ∧
        (new.map shapeOf).countP Shape.isLeaf = leafCount T ∧
        leafTypes (new.map shapeOf) = leaves T) ∧
    (supported T = true → ∃ r, emitSpecConstantRecursive T Out IDs false = .ok r) := by
  constructor
  · intro I Out1 IDs1 h
    simp only [emitSpecConstantRecursive] at h
    cases he : emitSpecConstantRecursiveImpl T false (EmitState.mk Out IDs true) with
    | error e => simp [he] at h
    | ok r =>
      obtain ⟨I1, s1⟩ := r
      simp only [he, Except.ok.injEq, Prod.mk.injEq] at h
      obtain ⟨_, hOut, hIDs⟩ := h
      obtain ⟨hids, new, hnew, hargs⟩ := emitImpl_reuse T b _ I1 s1 hlast he
      obtain ⟨new1, hnew1, hmap, _⟩ := emitImpl_shape T false _ I1 s1 he
      have hsame : new1 = new := List.append_cancel_left (hnew1.symm.trans hnew)
      subst hsame
      refine ⟨by rw [← hIDs, hids], new1, by rw [← hOut, hnew], hargs, ?_, ?_⟩
      · rw [hmap, countP_isLeaf_tree]
      · rw [hmap, leafTypes_tree]
  · intro hT
    have hne : IDs ≠ [] := by
      intro h0
      rw [h0] at hlast
      cases hlast
    obtain ⟨r, hr⟩ := emitImpl_ok T hT false (EmitState.mk Out IDs true) hne
    obtain ⟨I, s1⟩ := r
    exact ⟨(I, s1.Out, s1.IDs), by simp only [emitSpecConstantRecursive, hr]⟩

/-- C22 at the type `<2 x i32>` with the list `[0, 1]`: the list is returned
unchanged and both leaf calls are given 1. -/
theorem emitSpecConstantRecursive_reuse_witness :
    [0, 1].getLast? = some 1 ∧ supported (.fixedVector (.integer 32) 2) = true ∧
    emitSpecConstantRecursive (.fixedVector (.integer 32) 2) [] [0, 1] false = .ok reuseEmit ∧
    reuseEmit.2.2 = [0, 1] ∧ leafIDs reuseEmit.2.1 = [1, 1] ∧
    reuseEmit.2.1.map (fun c => c.Callee) =
      ["_Z20__spirv_SpecConstantii", "_Z20__spirv_SpecConstantii",
        "_Z29__spirv_SpecConstantCompositeii"] ∧
    (∀ c ∈ reuseEmit.2.1, ∀ T1, shapeOf c = .leaf T1 →
      ∃ Def, c.Args = [.constInt32 1, .constant Def]) ∧
    (reuseEmit.2.1.map shapeOf).countP Shape.isLeaf = 2 := by
  refine ⟨by decide, by decide, rfl, by decide, by decide, by decide, ?_⟩
  obtain ⟨_, new, hOut, hargs, hcount, _⟩ :=
    (emitSpecConstantRecursive_reuse (.fixedVector (.integer 32) 2) [] [0, 1] 1 (by decide)).1
      reuseEmit.1 reuseEmit.2.1 reuseEmit.2.2 rfl
  have hnew : reuseEmit.2.1 = new := hOut.trans (List.nil_append _)
  rw [hnew]
  exact ⟨hargs, hcount⟩

end SpecConstants
